import Mathlib

/-!
# The simple metric integrator (`sdk/metric/integrator/simple/simple.go`)

A shallow embedding of the checkpoint state store of the metrics SDK and
theorems about its collection rounds.  Two smaller embeddings follow it: the
meter registry of `sdk/metric/meter.go` (namespace `Metric`) and the tags that
the jaeger exporter reads from the environment, `exporters/trace/jaeger/env.go`
(namespace `Jaeger`).  The definitions of the three come first, the theorems
after them.

Conventions of the embedding of the integrator:

* Go `int64` counters are integers reduced by `wrapInt64` after every
  arithmetic step.
* Aggregators are mutable objects reached through references.  The memory that
  holds them is an explicit value (`Memory`) threaded through every call, and a
  reference (`AggRef`) says whether the aggregator belongs to an accumulator
  (a producer) or was allocated by the integrator through `AggregatorFor`.
  An accumulation carries an aggregator of the first sort: the aggregators that
  the integrator allocates are held in unexported fields and are not handed out
  as `export.Aggregator` values.  `Memory.calls` logs every aggregator method
  that is called, so that "no `Merge` is performed" can be stated.
* A call of a method on a nil `delta` or `cumulative` field panics in Go; the
  operations here then end with `Result.nilDereference`.
* The aggregator implementations are not part of `simple.go`; their methods are
  the fields of `Aggregators`, a parameter of every operation.
* `time.Now()` is a parameter (`now`) of the operations that read the clock.
* The record map is an association list; Go leaves the iteration order of a
  map unspecified and the list order stands for the order the runtime picked.
-/

namespace Simple

/-! ## Values of the surrounding packages -/

/-- Instants of `time.Time`, as a number of ticks. -/
abbrev Time := Nat

/-- Reduction of an integer to the range of a Go `int64` (two's complement wrap-around). -/
def wrapInt64 (x : Int) : Int :=
  (x + 9223372036854775808) % 18446744073709551616 - 9223372036854775808

/-- The `export.ExportKind` values tested by `ForEach`; `other` stands for every value
that is none of the three named constants. -/
inductive ExportKind where
  | CumulativeExporter
  | DeltaExporter
  | PassThroughExporter
  | other (code : Nat)
  deriving DecidableEq, Repr

/-- Error values.  `ErrInconsistentState` and `ErrInvalidExporterKind` are declared in
`simple.go`, the next three in `aggregation.go`; `other` stands for any error value of
a collaborator, `wrapKind` for `fmt.Errorf("%v: %w", ekind, err)` and `wrapped` for any
other error that wraps one error. -/
inductive Error where
  | ErrInconsistentState
  | ErrInvalidExporterKind
  | ErrNoSubtraction
  | ErrNoData
  | ErrInconsistentType
  | other (code : Nat)
  | wrapKind (ekind : ExportKind) (inner : Error)
  | wrapped (context : String) (inner : Error)
  deriving DecidableEq, Repr

/-- The chain walk of `errors.Is(err, target)`: `err` is `target`, or wraps an error
that is. -/
def Error.is : Error → Error → Bool
  | .wrapKind k inner, target =>
      if Error.wrapKind k inner = target then true else inner.is target
  | .wrapped c inner, target =>
      if Error.wrapped c inner = target then true else inner.is target
  | e, target => decide (e = target)

/-- Modelled from the spec: `metric.Descriptor` and its `MetricKind()` are declared
outside the source files at hand.  The integrator compares descriptors by identity
(`name` stands for the pointer) and consults two predicates of the instrument kind:
`Asynchronous()` (observer-style instruments, last write wins) and `PrecomputedSum()`
(the instrument itself reports cumulative totals). -/
structure Descriptor where
  name : Nat
  asynchronous : Bool
  precomputedSum : Bool
  deriving DecidableEq, Repr

/-- Modelled from the spec: `ExportKind.MemoryRequired(kind)` is declared outside the
source files at hand.  It is true exactly when the accounting style of the instrument
(delta-producing or cumulative-producing) differs from what the consumer demands. -/
def ExportKind.MemoryRequired (e : ExportKind) (desc : Descriptor) : Bool :=
  match e with
  | .CumulativeExporter => !desc.precomputedSum
  | .DeltaExporter => desc.precomputedSum
  | _ => false

/-- A `*label.Set`: the pointer and the `label.Distinct` that `Equivalent()` returns. -/
structure LabelSet where
  ref : Nat
  equivalent : Nat
  deriving DecidableEq, Repr

/-- A `*resource.Resource`: the pointer and the `label.Distinct` that `Equivalent()`
returns. -/
structure Resource where
  ref : Nat
  equivalent : Nat
  deriving DecidableEq, Repr

/-- A non-nil `export.Aggregator` reference: an aggregator owned by an accumulator, or
one the integrator allocated with `AggregatorFor`. -/
inductive AggRef where
  | accumulator (n : Nat)
  | integrator (n : Nat)
  deriving DecidableEq, Repr

/-- An `export.Accumulation`: descriptor, labels, resource and the aggregator of the
accumulator that produced it. -/
structure Accumulation where
  descriptor : Descriptor
  labels : LabelSet
  resource : Resource
  aggregator : Nat
  deriving DecidableEq, Repr

/-! ## Aggregators and their memory -/

/-- The methods of the `export.Aggregator` interface (and of `export.Subtractor`) over
aggregator states of type `α`.  Each method returns the states it leaves behind and
the error it returns (`none` for `nil`):

* `kind a` is `a.Aggregation().Kind()`;
* `merge receiver operand desc` gives the receiver after `receiver.Merge(operand, desc)`;
* `synchronizedCopy receiver dest desc` gives the receiver and the destination after
  `receiver.SynchronizedCopy(dest, desc)`;
* `subtractor a` says whether the aggregator implements `export.Subtractor`;
* `subtract receiver operand result desc` gives `result` after
  `receiver.Subtract(operand, result, desc)`. -/
structure Aggregators (α : Type) where
  kind : α → String
  merge : α → α → Descriptor → α × Option Error
  synchronizedCopy : α → α → Descriptor → α × α × Option Error
  subtractor : α → Bool
  subtract : α → α → α → Descriptor → α × Option Error

/-- One call of an aggregator method or of `AggregatorFor`, as logged in `Memory.calls`. -/
inductive Call where
  | Merge (receiver operand : AggRef)
  | SynchronizedCopy (receiver dest : AggRef)
  | Subtract (receiver operand result : AggRef)
  | AggregatorFor (first count : Nat)
  deriving DecidableEq, Repr

/-- The aggregators in memory: the state of every accumulator-owned aggregator, the
state of every integrator-owned aggregator, how many of the latter were allocated, and
the log of the aggregator calls made so far (most recent last). -/
structure Memory (α : Type) where
  accumulator : Nat → α
  integrator : Nat → α
  allocated : Nat
  calls : List Call

variable {α σ : Type}

/-- The state of the aggregator behind a reference. -/
def Memory.read (m : Memory α) : AggRef → α
  | .accumulator n => m.accumulator n
  | .integrator n => m.integrator n

/-- Overwrites the state of the aggregator behind a reference. -/
def Memory.write (m : Memory α) (r : AggRef) (a : α) : Memory α :=
  match r with
  | .accumulator n => { m with accumulator := Function.update m.accumulator n a }
  | .integrator n => { m with integrator := Function.update m.integrator n a }

/-- Appends a call to the log. -/
def Memory.log (m : Memory α) (c : Call) : Memory α :=
  { m with calls := m.calls ++ [c] }

/-- The call `receiver.Merge(operand, desc)`. -/
def Memory.Merge (A : Aggregators α) (m : Memory α) (receiver operand : AggRef)
    (desc : Descriptor) : Memory α × Option Error :=
  let out := A.merge (m.read receiver) (m.read operand) desc
  ((m.write receiver out.1).log (.Merge receiver operand), out.2)

/-- The call `receiver.SynchronizedCopy(dest, desc)`. -/
def Memory.SynchronizedCopy (A : Aggregators α) (m : Memory α) (receiver dest : AggRef)
    (desc : Descriptor) : Memory α × Option Error :=
  let out := A.synchronizedCopy (m.read receiver) (m.read dest) desc
  (((m.write receiver out.1).write dest out.2.1).log (.SynchronizedCopy receiver dest), out.2.2)

/-- The call `receiver.Subtract(operand, result, desc)`. -/
def Memory.Subtract (A : Aggregators α) (m : Memory α) (receiver operand result : AggRef)
    (desc : Descriptor) : Memory α × Option Error :=
  let out := A.subtract (m.read receiver) (m.read operand) (m.read result) desc
  ((m.write result out.1).log (.Subtract receiver operand result), out.2)

/-- An `export.ExportKindSelector`: `ExportKindFor(descriptor, aggregationKind)`. -/
abbrev ExportKindSelector := Descriptor → String → ExportKind

/-- An `export.AggregationSelector`: the state of each aggregator that
`AggregatorFor(descriptor, ...)` allocates. -/
abbrev AggregationSelector (α : Type) := Descriptor → α

/-- The call `AggregatorFor(desc, &p0, ..., &p(count-1))`: allocates `count` new
integrator-owned aggregators, numbered from `m.allocated` on. -/
def Memory.AggregatorFor (m : Memory α) (aselector : AggregationSelector α)
    (desc : Descriptor) (count : Nat) : Memory α :=
  { accumulator := m.accumulator
    integrator := fun n =>
      if m.allocated ≤ n ∧ n < m.allocated + count then aselector desc else m.integrator n
    allocated := m.allocated + count
    calls := m.calls ++ [.AggregatorFor m.allocated count] }

/-! ## The integrator -/

/-- The map key of a record. -/
structure stateKey where
  descriptor : Descriptor
  distinct : Nat
  resource : Nat
  deriving DecidableEq, Repr

/-- A record.  `delta` and `cumulative` hold the number of an integrator-owned
aggregator, or `none` for nil. -/
structure stateValue where
  labels : LabelSet
  resource : Resource
  updated : Int
  stateful : Bool
  current : AggRef
  delta : Option Nat
  cumulative : Option Nat
  deriving DecidableEq, Repr

/-- The checkpoint set. -/
structure state where
  values : List (stateKey × stateValue)
  processStart : Time
  intervalStart : Time
  intervalEnd : Time
  startedCollection : Int
  finishedCollection : Int
  deriving DecidableEq, Repr

/-- The integrator: its two selectors and its state. -/
structure Integrator (α : Type) where
  ExportKindFor : ExportKindSelector
  AggregatorFor : AggregationSelector α
  state : state

/-- How a call ends: it returns nil, it returns an error, or it panics on a nil
aggregator. -/
inductive Result where
  | ok
  | err (e : Error)
  | nilDereference
  deriving DecidableEq, Repr

/-- What a call on the integrator leaves behind: the integrator, the memory of the
aggregators, and how the call ended. -/
structure Outcome (α : Type) where
  integrator : Integrator α
  memory : Memory α
  result : Result

/-- The map read `values[key]`. -/
def lookup (key : stateKey) : List (stateKey × stateValue) → Option stateValue
  | [] => none
  | (k, v) :: rest => if k = key then some v else lookup key rest

/-- The map write `values[key] = value`, which is also how an update through the stored
pointer shows in the map. -/
def store (key : stateKey) (value : stateValue) :
    List (stateKey × stateValue) → List (stateKey × stateValue)
  | [] => [(key, value)]
  | (k, v) :: rest => if k = key then (k, value) :: rest else (k, v) :: store key value rest

/-- The integrator with another record map. -/
def Integrator.setValues (b : Integrator α) (values : List (stateKey × stateValue)) :
    Integrator α :=
  { b with state := { b.state with values := values } }

/-- The constructor `New(aselector, eselector)`, called at time `now`. -/
def New (aselector : AggregationSelector α) (eselector : ExportKindSelector) (now : Time) :
    Integrator α :=
  { ExportKindFor := eselector
    AggregatorFor := aselector
    state :=
      { values := []
        processStart := now
        intervalStart := now
        intervalEnd := 0
        startedCollection := 0
        finishedCollection := 0 } }

/-- The result of a call that returned `err` (nil when `none`). -/
def Result.ofError : Option Error → Result
  | none => .ok
  | some e => .err e

/-- The method `(*Integrator).Process`. -/
def Process (A : Aggregators α) (b : Integrator α) (m : Memory α) (accum : Accumulation) :
    Outcome α :=
  if b.state.startedCollection ≠ wrapInt64 (b.state.finishedCollection + 1) then
    ⟨b, m, .err .ErrInconsistentState⟩
  else
    let desc := accum.descriptor
    let key : stateKey :=
      { descriptor := desc
        distinct := accum.labels.equivalent
        resource := accum.resource.equivalent }
    let agg := AggRef.accumulator accum.aggregator
    -- Check if there is an existing value.
    match lookup key b.state.values with
    | none =>
      let stateful := (b.ExportKindFor desc (A.kind (m.read agg))).MemoryRequired desc
      let newValue : stateValue :=
        { labels := accum.labels
          resource := accum.resource
          updated := b.state.finishedCollection
          stateful := stateful
          current := agg
          delta := none
          cumulative := none }
      if stateful then
        if desc.precomputedSum then
          -- two aggregators: the cumulative one, then the delta one
          ⟨b.setValues (store key
              { newValue with cumulative := some m.allocated, delta := some (m.allocated + 1) }
              b.state.values),
            m.AggregatorFor b.AggregatorFor desc 2, .ok⟩
        else
          ⟨b.setValues (store key { newValue with cumulative := some m.allocated }
              b.state.values),
            m.AggregatorFor b.AggregatorFor desc 1, .ok⟩
      else
        ⟨b.setValues (store key newValue b.state.values), m, .ok⟩
    | some found =>
      -- Advance the update sequence number.
      let sameCollection := decide (b.state.finishedCollection = found.updated)
      let value : stateValue := { found with updated := b.state.finishedCollection }
      if !sameCollection then
        -- first Accumulation for this key during this collection
        ⟨b.setValues (store key { value with current := agg } b.state.values), m, .ok⟩
      else if desc.asynchronous then
        -- the last value across multiple accumulators is taken
        ⟨b.setValues (store key { value with current := agg } b.state.values), m, .ok⟩
      else
        -- synchronous instruments merge into `value.delta`
        let m1 := if value.delta = none then m.AggregatorFor b.AggregatorFor desc 1 else m
        let delta := value.delta.getD m.allocated
        let value1 : stateValue := { value with delta := some delta }
        if value1.current ≠ .integrator delta then
          let copied := m1.SynchronizedCopy A value1.current (.integrator delta) desc
          match copied.2 with
          | some err => ⟨b.setValues (store key value1 b.state.values), copied.1, .err err⟩
          | none =>
            let merged := copied.1.Merge A (.integrator delta) agg desc
            ⟨b.setValues (store key { value1 with current := .integrator delta } b.state.values),
              merged.1, Result.ofError merged.2⟩
        else
          let merged := m1.Merge A (.integrator delta) agg desc
          ⟨b.setValues (store key value1 b.state.values), merged.1, Result.ofError merged.2⟩

/-- The method `(*Integrator).StartCollection`. -/
def StartCollection (b : Integrator α) : Integrator α :=
  let intervalStart :=
    if b.state.startedCollection ≠ 0 then b.state.intervalEnd else b.state.intervalStart
  { b with state :=
      { b.state with
        intervalStart := intervalStart
        startedCollection := wrapInt64 (b.state.startedCollection + 1) } }

/-- The body of the loop of `FinishCollection` for a stateful record: updates the
aggregators to support exporting either a delta or a cumulative aggregation.  A nil
`cumulative` as the receiver of `Merge` panics; what `Subtract` does with a nil operand
is left to the implementation by the interface, and the model stops there as well. -/
def reconcile (A : Aggregators α) (key : stateKey) (value : stateValue) (m : Memory α) :
    Memory α × Result :=
  if key.descriptor.precomputedSum then
    -- delta_value = current_cumulative_value - previous_cumulative_value
    if A.subtractor (m.read value.current) then
      match value.cumulative, value.delta with
      | some cumulative, some delta =>
        let subtracted :=
          m.Subtract A value.current (.integrator cumulative) (.integrator delta) key.descriptor
        match subtracted.2 with
        | some err => (subtracted.1, .err err)
        | none =>
          let copied :=
            subtracted.1.SynchronizedCopy A value.current (.integrator cumulative) key.descriptor
          (copied.1, Result.ofError copied.2)
      | _, _ => (m, .nilDereference)
    else
      (m, .err .ErrNoSubtraction)
  else
    -- cumulative_value = previous_cumulative_value + current_delta_value
    match value.cumulative with
    | some cumulative =>
      let merged := m.Merge A (.integrator cumulative) value.current key.descriptor
      (merged.1, Result.ofError merged.2)
    | none => (m, .nilDereference)

/-- The loop `for key, value := range b.values` of `FinishCollection`, over the records
in iteration order, with `finished` the value of `b.finishedCollection` during the loop:
the map after the loop, the memory after the loop, and how the loop ended. -/
def finishLoop (A : Aggregators α) (finished : Int) :
    List (stateKey × stateValue) → Memory α →
      List (stateKey × stateValue) × Memory α × Result
  | [], m => ([], m, .ok)
  | (key, value) :: rest, m =>
    if !value.stateful then
      if value.updated ≠ finished then
        -- delete(b.values, key)
        finishLoop A finished rest m
      else
        let out := finishLoop A finished rest m
        ((key, value) :: out.1, out.2)
    else
      let step := reconcile A key value m
      match step.2 with
      | .ok =>
        let out := finishLoop A finished rest step.1
        ((key, value) :: out.1, out.2)
      | stop => ((key, value) :: rest, step.1, stop)

/-- The method `(*Integrator).FinishCollection`, called at time `now`.  The deferred
`b.finishedCollection++` runs however the loop ends. -/
def FinishCollection (A : Aggregators α) (b : Integrator α) (m : Memory α) (now : Time) :
    Outcome α :=
  let b1 : Integrator α := { b with state := { b.state with intervalEnd := now } }
  if b1.state.startedCollection ≠ wrapInt64 (b1.state.finishedCollection + 1) then
    ⟨b1, m, .err .ErrInconsistentState⟩
  else
    let out := finishLoop A b1.state.finishedCollection b1.state.values m
    ⟨{ b1 with state :=
        { b1.state with
          values := out.1
          finishedCollection := wrapInt64 (b1.state.finishedCollection + 1) } },
      out.2.1, out.2.2⟩

/-! ## The checkpoint set -/

/-- An `aggregation.Aggregation` obtained from `Aggregator.Aggregation()`: the read
view of an aggregator, that is which aggregator it is and the state it shows. -/
structure Aggregation (α : Type) where
  source : AggRef
  view : α

/-- An `export.Record`, the arguments of `export.NewRecord` in order. -/
structure Record (α : Type) where
  descriptor : Descriptor
  labels : LabelSet
  resource : Resource
  aggregation : Aggregation α
  startTime : Time
  endTime : Time

/-- The constructor `export.NewRecord`. -/
def NewRecord (descriptor : Descriptor) (labels : LabelSet) (resource : Resource)
    (aggregation : Aggregation α) (start finish : Time) : Record α :=
  { descriptor := descriptor
    labels := labels
    resource := resource
    aggregation := aggregation
    startTime := start
    endTime := finish }

/-- The call `ref.Aggregation()` on a non-nil aggregator. -/
def Memory.view (m : Memory α) (r : AggRef) : Aggregation α :=
  { source := r, view := m.read r }

/-- The call `field.Aggregation()` on the `delta` or `cumulative` field of a record; it
panics when the field is nil. -/
def Memory.viewOf (m : Memory α) : Option Nat → Except Result (Aggregation α)
  | some n => .ok (m.view (.integrator n))
  | none => .error .nilDereference

/-- The `switch ekind` of `ForEach` for one record: the aggregation and the start time
it selects, or how `ForEach` ends there. -/
def selectAggregation (b : state) (m : Memory α) (ekind : ExportKind) (key : stateKey)
    (value : stateValue) : Except Result (Aggregation α × Time) :=
  match ekind with
  | .PassThroughExporter =>
    -- No state is required, pass through the checkpointed value.
    .ok (m.view value.current,
      if key.descriptor.precomputedSum then b.processStart else b.intervalStart)
  | .CumulativeExporter =>
    if value.stateful then
      (m.viewOf value.cumulative).map fun agg => (agg, b.processStart)
    else
      .ok (m.view value.current, b.processStart)
  | .DeltaExporter =>
    -- Precomputed sums are a special case.
    if key.descriptor.precomputedSum then
      (m.viewOf value.delta).map fun agg => (agg, b.intervalStart)
    else
      .ok (m.view value.current, b.intervalStart)
  | .other code => .error (.err (.wrapKind (.other code) .ErrInvalidExporterKind))

/-- What a call of `ForEach` did: the state of the visiting function after the call,
the calls of the visiting function in order (each with the key of the record it was
made for) and how `ForEach` ended. -/
structure Visits (σ α : Type) where
  visitor : σ
  visited : List (stateKey × Record α)
  result : Result

/-- The loop `for key, value := range b.values` of `ForEach`.  The visiting function `f`
is a closure; `σ` is the state it captures, so a call takes the state before and gives
the state after together with the error returned. -/
def forEachLoop (A : Aggregators α) (b : state) (m : Memory α) (exporter : ExportKindSelector)
    (f : σ → Record α → σ × Option Error) :
    List (stateKey × stateValue) → σ → Visits σ α
  | [], s => ⟨s, [], .ok⟩
  | (key, value) :: rest, s =>
    let ekind := exporter key.descriptor (A.kind (m.read value.current))
    match selectAggregation b m ekind key value with
    | .error stop => ⟨s, [], stop⟩
    | .ok (agg, start) =>
      let record := NewRecord key.descriptor value.labels value.resource agg start b.intervalEnd
      let called := f s record
      match called.2 with
      | some err =>
        if !err.is .ErrNoData then
          ⟨called.1, [(key, record)], .err err⟩
        else
          let out := forEachLoop A b m exporter f rest called.1
          ⟨out.visitor, (key, record) :: out.visited, out.result⟩
      | none =>
        let out := forEachLoop A b m exporter f rest called.1
        ⟨out.visitor, (key, record) :: out.visited, out.result⟩

/-- The method `(*state).ForEach`. -/
def ForEach (A : Aggregators α) (b : state) (m : Memory α) (exporter : ExportKindSelector)
    (f : σ → Record α → σ × Option Error) (s : σ) : Visits σ α :=
  if b.startedCollection ≠ b.finishedCollection then
    ⟨s, [], .err .ErrInconsistentState⟩
  else
    forEachLoop A b m exporter f b.values s

/-! ## Fixtures for the worked instances -/

/-- Modelled from the spec: the integer sum aggregator, which is implemented outside the
source files at hand.  `Merge` accumulates the state of the operand into the receiver,
`SynchronizedCopy` copies the state of the receiver into the destination and resets the
receiver to its empty value, and `Subtract` stores receiver minus operand in the
result. -/
def sumAggregators : Aggregators Int where
  kind _ := "sum"
  merge receiver operand _ := (receiver + operand, none)
  synchronizedCopy receiver _ _ := (0, receiver, none)
  subtractor _ := true
  subtract receiver operand _ _ := (receiver - operand, none)

/-- A memory in which every aggregator is empty and the integrator owns none. -/
def emptyMemory : Memory Int :=
  { accumulator := fun _ => 0, integrator := fun _ => 0, allocated := 0, calls := [] }

/-- The aggregation selector of the sum aggregator: new aggregators are empty. -/
def sumSelector : AggregationSelector Int := fun _ => 0

/-- An export kind selector that asks for the same kind for every instrument. -/
def constantSelector (kind : ExportKind) : ExportKindSelector := fun _ _ => kind

/-- A synchronous instrument that reports increments (a counter). -/
def counterDescriptor : Descriptor :=
  { name := 1, asynchronous := false, precomputedSum := false }

/-- An asynchronous instrument that reports cumulative totals (a sum observer). -/
def sumObserverDescriptor : Descriptor :=
  { name := 2, asynchronous := true, precomputedSum := true }

/-- An accumulation of `desc` with label set 7 and resource 9, produced into the
accumulator-owned aggregator number `aggregator`. -/
def accumulationOf (desc : Descriptor) (aggregator : Nat) : Accumulation :=
  { descriptor := desc
    labels := { ref := 70, equivalent := 7 }
    resource := { ref := 90, equivalent := 9 }
    aggregator := aggregator }

/-- A visiting function that counts its calls and returns nil. -/
def countingVisitor : Nat → Record Int → Nat × Option Error := fun n _ => (n + 1, none)

/-- The map key that `Process` computes for an accumulation. -/
def Accumulation.key (accum : Accumulation) : stateKey :=
  { descriptor := accum.descriptor
    distinct := accum.labels.equivalent
    resource := accum.resource.equivalent }

/-- What a sequence of `Process` calls leaves behind: the integrator, the memory of the
aggregators, and how each call ended, in order. -/
structure Run (α : Type) where
  integrator : Integrator α
  memory : Memory α
  results : List Result

/-- The calls `Process(a)` for each accumulation `a` of a list, in order. -/
def ProcessAll (A : Aggregators α) (b : Integrator α) (m : Memory α) :
    List Accumulation → Run α
  | [] => ⟨b, m, []⟩
  | accum :: rest =>
    let out := Process A b m accum
    let run := ProcessAll A out.integrator out.memory rest
    ⟨run.integrator, run.memory, out.result :: run.results⟩

/-- The calls of aggregator methods (`Merge`, `SynchronizedCopy`, `Subtract`) in a log,
leaving the allocations out. -/
def methodCalls (calls : List Call) : List Call :=
  calls.filter fun c =>
    match c with
    | .AggregatorFor _ _ => false
    | _ => true

/-- A memory in which the accumulator-owned aggregator number `n` holds the `n`-th entry
of `values` (0 beyond the list) and the integrator owns no aggregator. -/
def memoryOf (values : List Int) : Memory Int :=
  { accumulator := fun n => values.getD n 0
    integrator := fun _ => 0
    allocated := 0
    calls := [] }

/-- A new integrator of sum aggregators, built at time 5, after its first
`StartCollection`. -/
def firstRound (kind : ExportKind) : Integrator Int :=
  StartCollection (New sumSelector (constantSelector kind) 5)

/-- The merge of a list of contributions with the merge operation `op`, first to last;
`none` for no contribution. -/
def mergeAll (op : α → α → α) : List α → Option α
  | [] => none
  | first :: rest => some (rest.foldl op first)

/-- One more contribution merged into what was merged so far (`none` for nothing). -/
def mergeInto (op : α → α → α) (merged : Option α) (contribution : α) : Option α :=
  match merged with
  | none => some contribution
  | some a => some (op a contribution)

/-- The state of the aggregator that the record of `key` refers to as `current`, when
the map has a record for `key`. -/
def currentValue (b : Integrator α) (m : Memory α) (key : stateKey) : Option α :=
  (lookup key b.state.values).map fun value => m.read value.current

/-- One report of an instrument: the accumulation, the state that the accumulator has
checkpointed into the aggregator of the accumulation, and the time at which the round
is finished. -/
structure Report (α : Type) where
  accum : Accumulation
  value : α
  now : Time

/-- One collection round with a single report: the accumulator checkpoints into its
aggregator, then `StartCollection`, `Process` and `FinishCollection` are called.  The
result is the one of `FinishCollection`. -/
def collect (A : Aggregators α) (b : Integrator α) (m : Memory α) (report : Report α) :
    Outcome α :=
  let processed := Process A (StartCollection b)
    (m.write (.accumulator report.accum.aggregator) report.value) report.accum
  FinishCollection A processed.integrator processed.memory report.now

/-- One collection round without any report: `StartCollection`, then
`FinishCollection` at time `now`. -/
def collectNothing (A : Aggregators α) (b : Integrator α) (m : Memory α) (now : Time) :
    Outcome α :=
  FinishCollection A (StartCollection b) m now

/-- The record that `ForEach` is to pass to the visiting function for an entry of the
map, in the words of the specification: `call` is made for the key of the entry with a
record built from the descriptor of the key, the labels and the resource of the entry
and the end of the interval, and

* for a pass-through kind, the current aggregation, from the process start if the
  instrument is a precomputed sum and from the interval start otherwise;
* for a cumulative kind, the cumulative aggregation if the entry is stateful and the
  current aggregation otherwise, from the process start;
* for a delta kind, the delta aggregation if the instrument is a precomputed sum and the
  current aggregation otherwise, from the interval start.

No record is described for any other kind. -/
def Exported (A : Aggregators α) (b : state) (m : Memory α) (exporter : ExportKindSelector)
    (entry : stateKey × stateValue) (call : stateKey × Record α) : Prop :=
  call.1 = entry.1 ∧
  call.2.descriptor = entry.1.descriptor ∧
  call.2.labels = entry.2.labels ∧
  call.2.resource = entry.2.resource ∧
  call.2.endTime = b.intervalEnd ∧
  match exporter entry.1.descriptor (A.kind (m.read entry.2.current)) with
  | .PassThroughExporter =>
    call.2.aggregation = m.view entry.2.current ∧
    call.2.startTime =
      (if entry.1.descriptor.precomputedSum then b.processStart else b.intervalStart)
  | .CumulativeExporter =>
    (if entry.2.stateful then
      ∃ c, entry.2.cumulative = some c ∧ call.2.aggregation = m.view (.integrator c)
    else call.2.aggregation = m.view entry.2.current) ∧
    call.2.startTime = b.processStart
  | .DeltaExporter =>
    (if entry.1.descriptor.precomputedSum then
      ∃ d, entry.2.delta = some d ∧ call.2.aggregation = m.view (.integrator d)
    else call.2.aggregation = m.view entry.2.current) ∧
    call.2.startTime = b.intervalStart
  | .other _ => False

/-- A new integrator of sum aggregators, built at time 5, after a first round that was
finished at time 10 and in which `desc` reported the value 2 from the aggregator 0,
together with the memory after that round. -/
def afterOneRound (kind : ExportKind) (desc : Descriptor) : Outcome Int :=
  collect sumAggregators (New sumSelector (constantSelector kind) 5) emptyMemory
    ⟨accumulationOf desc 0, 2, 10⟩

/-- Modelled from the spec: an aggregator that merges and copies like the sum aggregator
but does not implement `Subtract` (the optional part of the aggregator contract). -/
def plainAggregators : Aggregators Int :=
  { sumAggregators with
    kind := fun _ => "plain"
    subtractor := fun _ => false }

/-- A new integrator under a delta export kind after two rounds, with aggregators that do
not subtract.  In the first round a sum observer reports 10 from the aggregator 0 and
then a counter reports 2 from the aggregator 1; the round is finished at time 10.  In
the second round nothing is reported; `staleRoundStarted` is the integrator when the
second `FinishCollection` is called and `staleRoundFinished` what that call, made at
time 20, leaves behind. -/
def staleRoundStarted : Run Int :=
  let first := ProcessAll plainAggregators (firstRound .DeltaExporter) (memoryOf [10, 2])
    [accumulationOf sumObserverDescriptor 0, accumulationOf counterDescriptor 1]
  let finished := FinishCollection plainAggregators first.integrator first.memory 10
  ⟨StartCollection finished.integrator, finished.memory, first.results ++ [finished.result]⟩

/-- See `staleRoundStarted`. -/
def staleRoundFinished : Outcome Int :=
  FinishCollection plainAggregators staleRoundStarted.integrator staleRoundStarted.memory 20

/-- One collection round: `StartCollection`, a `Process` call for each accumulation of
the list, and `FinishCollection` at time `now`.  The result is the one of
`FinishCollection`; `m` is the memory of the aggregators when the round starts. -/
def collectRound (A : Aggregators α) (b : Integrator α) (m : Memory α)
    (accums : List Accumulation) (now : Time) : Outcome α :=
  let processed := ProcessAll A (StartCollection b) m accums
  FinishCollection A processed.integrator processed.memory now

/-- The record of the counter in `staleRoundStarted`: reported in the first round (number
0) from the aggregator 1, not stateful. -/
def staleCounterRecord : stateValue :=
  { labels := { ref := 70, equivalent := 7 }
    resource := { ref := 90, equivalent := 9 }
    updated := 0
    stateful := false
    current := .accumulator 1
    delta := none
    cumulative := none }

/-- The integrator of `afterOneRound` after a second round in which nothing is reported,
finished at time 20. -/
def afterStaleRound (kind : ExportKind) (desc : Descriptor) : Outcome Int :=
  collectNothing sumAggregators (afterOneRound kind desc).integrator
    (afterOneRound kind desc).memory 20

/-- A visiting function that counts its calls and returns the error 7 of the exporter
each time. -/
def failingVisitor : Nat → Record Int → Nat × Option Error :=
  fun n _ => (n + 1, some (.other 7))

/-- One call on the integrator or on its checkpoint set, or a step of its environment:
`checkpoint n a` is an accumulator writing the state `a` into its own aggregator number
`n`. -/
inductive Operation (α σ : Type) where
  | start
  | process (accum : Accumulation)
  | finish (now : Time)
  | forEach (exporter : ExportKindSelector) (f : σ → Record α → σ × Option Error) (s : σ)
  | checkpoint (aggregator : Nat) (a : α)

/-- What an operation leaves behind and how it ends.  `StartCollection` returns nothing
and a checkpoint is not a call on the integrator; both are given the result nil. -/
def perform (A : Aggregators α) (b : Integrator α) (m : Memory α) :
    Operation α σ → Outcome α
  | .start => ⟨StartCollection b, m, .ok⟩
  | .process accum => Process A b m accum
  | .finish now => FinishCollection A b m now
  | .forEach exporter f s => ⟨b, m, (ForEach A b.state m exporter f s).result⟩
  | .checkpoint n a => ⟨b, m.write (.accumulator n) a, .ok⟩

/-- A sequence of operations, one after the other, with their results in order. -/
def performAll (A : Aggregators α) (b : Integrator α) (m : Memory α) :
    List (Operation α σ) → Run α
  | [] => ⟨b, m, []⟩
  | op :: rest =>
    let out := perform A b m op
    let run := performAll A out.integrator out.memory rest
    ⟨run.integrator, run.memory, out.result :: run.results⟩

/-- Whether a round is active after a sequence of operations that begins with a round
active (`active = true`) or between rounds. -/
def activeAfter (active : Bool) : List (Operation α σ) → Bool
  | [] => active
  | .start :: rest => activeAfter true rest
  | .finish _ :: rest => activeAfter false rest
  | _ :: rest => activeAfter active rest

/-- A sequence of operations in which `StartCollection` and `FinishCollection` strictly
alternate, with the `Process` calls inside the rounds and the `ForEach` calls between
them; `active` says whether the sequence begins inside a round. -/
def alternating : Bool → List (Operation α σ) → Bool
  | _, [] => true
  | active, .start :: rest => !active && alternating true rest
  | active, .finish _ :: rest => active && alternating false rest
  | active, .process _ :: rest => active && alternating active rest
  | active, .forEach _ _ _ :: rest => !active && alternating active rest
  | active, .checkpoint _ _ :: rest => alternating active rest

/-- The number of `StartCollection` calls in a sequence of operations. -/
def starts : List (Operation α σ) → Nat
  | [] => 0
  | .start :: rest => starts rest + 1
  | _ :: rest => starts rest

/-- The number of `FinishCollection` calls in a sequence of operations. -/
def finishes : List (Operation α σ) → Nat
  | [] => 0
  | .finish _ :: rest => finishes rest + 1
  | _ :: rest => finishes rest

/-- A counter reported once, with the value 5 from the accumulator-owned aggregator 0,
in the first round of a new integrator under a pass-through export kind: the record
refers to the aggregator of the accumulator.  The aggregator 1 of a second accumulator
holds 3. -/
def aliasedCounter : Outcome Int :=
  Process sumAggregators (firstRound .PassThroughExporter) (memoryOf [5, 3])
    (accumulationOf counterDescriptor 0)

/-- A sum observer reported once, with the total 10 from the accumulator-owned
aggregator 0, in the first round of a new integrator under a delta export kind: the
record is stateful and refers to the aggregator of the accumulator. -/
def aliasedSumObserver : Outcome Int :=
  Process sumAggregators (firstRound .DeltaExporter) (memoryOf [10])
    (accumulationOf sumObserverDescriptor 0)

/-- Modelled from the spec: an aggregator that copies like the sum aggregator, whose
`Merge` refuses its operand with `ErrInconsistentType` (an operand of another type of
aggregator), and that does not implement `Subtract`. -/
def mismatchedAggregators : Aggregators Int :=
  { sumAggregators with
    kind := fun _ => "mismatched"
    merge := fun receiver _ _ => (receiver, some .ErrInconsistentType)
    subtractor := fun _ => false }

/-- An export kind selector under which every record is stateful: cumulative for the
instruments that report increments, delta for the precomputed sums. -/
def statefulSelector : ExportKindSelector :=
  fun desc _ => if desc.precomputedSum then .DeltaExporter else .CumulativeExporter

/-- The first round of a new integrator of `mismatchedAggregators` under
`statefulSelector`: a counter reports 2 from the aggregator 0, then a sum observer
reports 10 from the aggregator 1. -/
def mismatchedRound : Run Int :=
  ProcessAll mismatchedAggregators (StartCollection (New sumSelector statefulSelector 5))
    (memoryOf [2, 10])
    [accumulationOf counterDescriptor 0, accumulationOf sumObserverDescriptor 1]

/-- A sequence of operations without `StartCollection` and without `FinishCollection`:
what happens inside one round, or between two rounds. -/
def quiet : List (Operation α σ) → Bool
  | [] => true
  | .start :: _ => false
  | .finish _ :: _ => false
  | _ :: rest => quiet rest

/-- An export kind selector that returns a kind that is none of the three for the
precomputed sums and the pass-through kind for the other instruments. -/
def invalidForSums : ExportKindSelector :=
  fun desc _ => if desc.precomputedSum then .other 3 else .PassThroughExporter

/-- A new integrator of sum aggregators under a pass-through export kind after one
round, finished at time 9, in which a counter reported 2 from the aggregator 0 and then
a sum observer reported 10 from the aggregator 1. -/
def twoInstruments : Outcome Int :=
  collectRound sumAggregators (New sumSelector (constantSelector .PassThroughExporter) 5)
    (memoryOf [2, 10])
    [accumulationOf counterDescriptor 0, accumulationOf sumObserverDescriptor 1] 9

end Simple

/-! # The meter registry (`sdk/metric/meter.go`)

A `*meter` is an address in a heap of meters, so that two results of `Get` can be
compared as pointers.  The types of the instrumentation scopes (`S`) and of the
pipelines (`P`) are parameters.  The mutex is not modelled: the calls are sequential. -/

namespace Metric

/-- A `meter`: the embedded `instrumentation.Scope` and the pipelines. -/
structure meter (S P : Type) where
  Scope : S
  pipes : P

/-- A `meterRegistry`.  `meters` is the map from scopes to `*meter`, `none` for the nil
map of the zero value; a `*meter` is the address of the meter in the heap. -/
structure meterRegistry (S P : Type) where
  meters : Option (List (S × Nat))
  pipes : P

variable {S P : Type} [DecidableEq S]

/-- The map read `meters[s]` on a map that is not nil. -/
def find (s : S) : List (S × Nat) → Option Nat
  | [] => none
  | (k, p) :: rest => if k = s then some p else find s rest

/-- The map write `meters[s] = p`. -/
def put (s : S) (p : Nat) : List (S × Nat) → List (S × Nat)
  | [] => [(s, p)]
  | (k, q) :: rest => if k = s then (k, p) :: rest else (k, q) :: put s p rest

/-- The meter registered for a scope, if any; the nil map holds none. -/
def meterRegistry.registered (r : meterRegistry S P) (s : S) : Option Nat :=
  match r.meters with
  | none => none
  | some meters => find s meters

/-- What a call of `Get` leaves behind and returns: the registry, the heap of meters,
and the returned `*meter`. -/
structure Registration (S P : Type) where
  registry : meterRegistry S P
  heap : List (meter S P)
  returned : Nat

/-- The method `(*meterRegistry).Get`.  `&meter{...}` allocates at the next free address
of the heap. -/
def Get (r : meterRegistry S P) (heap : List (meter S P)) (s : S) : Registration S P :=
  match r.meters with
  | none =>
    let m := heap.length
    ⟨{ r with meters := some [(s, m)] }, heap ++ [⟨s, r.pipes⟩], m⟩
  | some meters =>
    match find s meters with
    | some m => ⟨r, heap, m⟩
    | none =>
      let m := heap.length
      ⟨{ r with meters := some (put s m meters) }, heap ++ [⟨s, r.pipes⟩], m⟩

/-- The calls `Get(s)` for each scope `s` of a list, in order: the registry and the heap
after the last one. -/
def GetAll (r : meterRegistry S P) (heap : List (meter S P)) :
    List S → meterRegistry S P × List (meter S P)
  | [] => (r, heap)
  | s :: rest => GetAll (Get r heap s).registry (Get r heap s).heap rest

/-- A registry in use: created with the pipelines `pipes` and the nil map of the zero
value while the heap was `heap`, and then asked for the scopes of `calls`, in order. -/
def inUse (pipes : P) (heap : List (meter S P)) (calls : List S) :
    meterRegistry S P × List (meter S P) :=
  GetAll ⟨none, pipes⟩ heap calls

end Metric

/-! # Tags from the environment (`exporters/trace/jaeger/env.go`)

A Go string is modelled by the list of its characters; the separators that the code
passes to `strings.Split` and `strings.SplitN` are single characters.  `os.Getenv` is
the parameter `env`, the parsers of `strconv` are the parameter `conv`, and the type of
the floating-point numbers is the parameter `F`.  A run-time panic (index out of range,
slice bounds out of range) is the result `none`. -/

namespace Jaeger

/-- A Go string, as the list of its characters. -/
abbrev Str := List Char

/-- The function `unicode.IsSpace`. -/
def IsSpace (c : Char) : Bool :=
  c.toNat = 9 || c.toNat = 10 || c.toNat = 11 || c.toNat = 12 || c.toNat = 13 ||
  c.toNat = 32 || c.toNat = 133 || c.toNat = 160 || c.toNat = 5760 ||
  (8192 ≤ c.toNat && c.toNat ≤ 8202) || c.toNat = 8232 || c.toNat = 8233 ||
  c.toNat = 8239 || c.toNat = 8287 || c.toNat = 12288

/-- The function `strings.TrimSpace`: the string without its leading and trailing white
space. -/
def TrimSpace (s : Str) : Str :=
  ((s.dropWhile IsSpace).reverse.dropWhile IsSpace).reverse

/-- The function `strings.HasPrefix`. -/
def HasPrefix : Str → Str → Bool
  | _, [] => true
  | [], _ :: _ => false
  | c :: s, d :: p => c = d && HasPrefix s p

/-- The function `strings.HasSuffix`. -/
def HasSuffix (s suffix : Str) : Bool :=
  HasPrefix s.reverse suffix.reverse

/-- The function `strings.Split` for a separator of one character: the substrings
between the separators; one empty string for the empty string. -/
def Split (sep : Char) : Str → List Str
  | [] => [[]]
  | c :: rest =>
    if c = sep then [] :: Split sep rest
    else
      match Split sep rest with
      | [] => [[c]]
      | first :: more => (c :: first) :: more

/-- The text before and the text after the first separator, if there is one. -/
def cut (sep : Char) : Str → Option (Str × Str)
  | [] => none
  | c :: rest =>
    if c = sep then some ([], rest)
    else
      match cut sep rest with
      | none => none
      | some (before, after) => some (c :: before, after)

/-- The function `strings.SplitN` for a separator of one character and a count that is
not negative: at most `n` substrings, the last one being the unsplit remainder. -/
def SplitN (sep : Char) : Nat → Str → List Str
  | 0, _ => []
  | 1, s => [s]
  | n + 2, s =>
    match cut sep s with
    | none => [s]
    | some (before, after) => before :: SplitN sep (n + 1) after

/-- The slice expression `s[low:high]`; `none` for bounds out of range. -/
def slice (s : Str) (low : Nat) (high : Int) : Option Str :=
  if (low : Int) ≤ high ∧ high ≤ s.length then some ((s.take high.toNat).drop low) else none

/-- Modelled from the spec: `value.Value` is declared outside the source files at hand.
These are the four kinds of values that `parseValue` builds. -/
inductive Value (F : Type) where
  | Int64 (v : Int)
  | Float64 (v : F)
  | Bool (v : Bool)
  | String (v : Str)
  deriving DecidableEq

/-- Modelled from the spec: `kv.KeyValue` is declared outside the source files at hand.
It pairs a key, a string, with a value. -/
structure KeyValue (F : Type) where
  Key : Str
  Value : Value F
  deriving DecidableEq

/-- The parsers of `strconv` that `parseValue` calls; `none` is a non-nil `err`. -/
structure Strconv (F : Type) where
  ParseInt : Str → Option Int
  ParseFloat : Str → Option F
  ParseBool : Str → Option Bool

variable {F : Type}

/-- The function `parseValue`. -/
def parseValue (conv : Strconv F) (str : Str) : Value F :=
  match conv.ParseInt str with
  | some v => .Int64 v
  | none =>
    match conv.ParseFloat str with
    | some v => .Float64 v
    | none =>
      match conv.ParseBool str with
      | some v => .Bool v
      | none => .String str

/-- The function `parseKeyValue`. -/
def parseKeyValue (conv : Strconv F) (k v : Str) : KeyValue F :=
  { Key := k, Value := parseValue conv v }

/-- The loop `for _, p := range pairs` of `parseTags`, with the tags appended so far. -/
def parseTagsLoop (conv : Strconv F) (env : Str → Str) :
    List Str → List (KeyValue F) → Option (List (KeyValue F))
  | [], tags => some tags
  | p :: rest, tags =>
    let field := SplitN '=' 2 p
    match field[0]?, field[1]? with
    | some field0, some field1 =>
      let k := TrimSpace field0
      let v := TrimSpace field1
      if HasPrefix v ['$', '\x7b'] && HasSuffix v ['\x7d'] then
        match slice v 2 ((v.length : Int) - 1) with
        | some inner =>
          let ed := SplitN ':' 2 inner
          match ed[0]?, ed[1]? with
          | some e, some d =>
            let v1 := env e
            let v2 := if v1 = [] ∧ d ≠ [] then d else v1
            parseTagsLoop conv env rest (tags ++ [parseKeyValue conv k v2])
          | _, _ => none
        | none => none
      else
        parseTagsLoop conv env rest (tags ++ [parseKeyValue conv k v])
    | _, _ => none

/-- The function `parseTags`. -/
def parseTags (conv : Strconv F) (env : Str → Str) (sTags : Str) : Option (List (KeyValue F)) :=
  parseTagsLoop conv env (Split ',' sTags) []

/-- Modelled from the spec: the jaeger `Process` is declared outside the source files at
hand.  `ProcessFromEnv` sets its service name and its tags. -/
structure Process (F : Type) where
  ServiceName : Str
  Tags : List (KeyValue F)

/-- The function `ProcessFromEnv`. -/
def ProcessFromEnv (conv : Strconv F) (env : Str → Str) : Option (Process F) :=
  let p : Process F := { ServiceName := [], Tags := [] }
  let p1 := if env "JAEGER_SERVICE_NAME".toList ≠ [] then
    { p with ServiceName := env "JAEGER_SERVICE_NAME".toList } else p
  if env "JAEGER_TAGS".toList ≠ [] then
    match parseTags conv env (env "JAEGER_TAGS".toList) with
    | some tags => some { p1 with Tags := tags }
    | none => none
  else
    some p1

/-! ## The format of the tags, in the words of the documentation -/

/-- The function `strings.Join` for a separator of one character. -/
def Join (sep : Char) : List Str → Str
  | [] => []
  | [s] => s
  | s :: next :: rest => s ++ sep :: Join sep (next :: rest)

/-- The text before the first separator (the whole text when there is none). -/
def textBefore (sep : Char) (s : Str) : Str :=
  s.takeWhile (fun c => c ≠ sep)

/-- The text after the first separator (empty when there is none). -/
def textAfter (sep : Char) (s : Str) : Str :=
  (s.dropWhile (fun c => c ≠ sep)).drop 1

/-- Whether a value is written `${...}`. -/
def isReference (v : Str) : Bool :=
  HasPrefix v ['$', '\x7b'] && HasSuffix v ['\x7d']

/-- The text between `${` and `}` of a value written `${...}`. -/
def reference (v : Str) : Str :=
  (v.drop 2).dropLast

/-- The value that a written value stands for: `${envVar:defaultValue}` stands for the
value of the environment variable `envVar` when that is not empty and for
`defaultValue` otherwise; any other value stands for itself. -/
def expand (env : Str → Str) (v : Str) : Str :=
  if isReference v then
    if env (textBefore ':' (reference v)) ≠ [] then env (textBefore ':' (reference v))
    else textAfter ':' (reference v)
  else v

/-- The tag that a piece `key=value` of the list stands for: its key is the trimmed
text before the first `=`, its value is `parseValue` of what the trimmed text after it
stands for. -/
def tagOf (conv : Strconv F) (env : Str → Str) (piece : Str) : KeyValue F :=
  { Key := TrimSpace (textBefore '=' piece)
    Value := parseValue conv (expand env (TrimSpace (textAfter '=' piece))) }

/-- A piece of the list that is well formed: it contains `=`, and its value, when it is
written `${...}`, contains `:` between the braces. -/
def wellFormed (piece : Str) : Bool :=
  decide ('=' ∈ piece) &&
  (!isReference (TrimSpace (textAfter '=' piece)) ||
    decide (':' ∈ reference (TrimSpace (textAfter '=' piece))))

/-! ## Fixtures -/

/-- The decimal value of a list of digits, `none` when a character is not a digit. -/
def digits : Str → Nat → Option Nat
  | [], n => some n
  | c :: rest, n => if c.isDigit then digits rest (10 * n + (c.toNat - 48)) else none

/-- Parsers for inputs that hold no floating-point literal: `ParseInt` reads an optional
sign and decimal digits into an `int64`, `ParseBool` reads the spellings that
`strconv.ParseBool` accepts, and `ParseFloat` fails. -/
def plainStrconv : Strconv Int where
  ParseInt s :=
    match s with
    | [] => none
    | '-' :: [] => none
    | '+' :: [] => none
    | '-' :: rest => (digits rest 0).bind fun n => if n ≤ 9223372036854775808 then some (-n) else none
    | '+' :: rest => (digits rest 0).bind fun n => if n < 9223372036854775808 then some n else none
    | _ => (digits s 0).bind fun n => if n < 9223372036854775808 then some n else none
  ParseFloat _ := none
  ParseBool s :=
    if s ∈ ["1".toList, "t".toList, "T".toList, "TRUE".toList, "true".toList, "True".toList]
    then some true
    else if s ∈ ["0".toList, "f".toList, "F".toList, "FALSE".toList, "false".toList,
      "False".toList]
    then some false
    else none

/-- An environment in which `REGION` is `eu` and every other variable is unset. -/
def regionEnv : Str → Str :=
  fun name => if name = "REGION".toList then "eu".toList else []

end Jaeger

/-! # Theorems -/

namespace Simple

variable {α σ : Type}

/-! ## Round boundaries -/

/-- C1: outside an active round (`startedCollection != finishedCollection+1`) `Process`
returns `ErrInconsistentState` for every accumulation and changes nothing: the record
map, both round counters, the whole integrator and the aggregator memory are as
before. -/
theorem Process_outside_round (A : Aggregators α) (b : Integrator α) (m : Memory α)
    (accum : Accumulation)
    (h : b.state.startedCollection ≠ wrapInt64 (b.state.finishedCollection + 1)) :
    (Process A b m accum).result = .err .ErrInconsistentState ∧
    (Process A b m accum).integrator.state.values = b.state.values ∧
    (Process A b m accum).integrator.state.startedCollection = b.state.startedCollection ∧
    (Process A b m accum).integrator.state.finishedCollection = b.state.finishedCollection ∧
    (Process A b m accum).integrator = b ∧
    (Process A b m accum).memory = m := by
  simp [Process, h]

/-- Instance of C1: `Process` on a new integrator, before any `StartCollection`. -/
theorem Process_outside_round_witness :
    (New sumSelector (constantSelector .CumulativeExporter) 5).state.startedCollection ≠
      wrapInt64 ((New sumSelector (constantSelector .CumulativeExporter) 5).state.finishedCollection
        + 1) ∧
    (Process sumAggregators (New sumSelector (constantSelector .CumulativeExporter) 5)
      emptyMemory (accumulationOf counterDescriptor 0)).result = .err .ErrInconsistentState :=
  ⟨by decide,
    (Process_outside_round sumAggregators (New sumSelector (constantSelector .CumulativeExporter) 5)
      emptyMemory (accumulationOf counterDescriptor 0) (by decide)).1⟩

/-- C2: mid-round (`startedCollection != finishedCollection`) `ForEach` returns
`ErrInconsistentState` for every export kind selector and every visiting function, and
the visiting function is not called: no call is recorded and its state is as before. -/
theorem ForEach_mid_round (A : Aggregators α) (b : state) (m : Memory α)
    (exporter : ExportKindSelector) (f : σ → Record α → σ × Option Error) (s : σ)
    (h : b.startedCollection ≠ b.finishedCollection) :
    (ForEach A b m exporter f s).result = .err .ErrInconsistentState ∧
    (ForEach A b m exporter f s).visited = [] ∧
    (ForEach A b m exporter f s).visitor = s := by
  simp [ForEach, h]

/-- Instance of C2: `ForEach` after `StartCollection` on a new integrator. -/
theorem ForEach_mid_round_witness :
    (StartCollection (New sumSelector (constantSelector .DeltaExporter) 5)).state.startedCollection ≠
      (StartCollection (New sumSelector (constantSelector .DeltaExporter) 5)).state.finishedCollection ∧
    (ForEach sumAggregators (StartCollection (New sumSelector (constantSelector .DeltaExporter) 5)).state
      emptyMemory (constantSelector .DeltaExporter) countingVisitor 0).visitor = 0 :=
  ⟨by decide,
    (ForEach_mid_round sumAggregators
      (StartCollection (New sumSelector (constantSelector .DeltaExporter) 5)).state
      emptyMemory (constantSelector .DeltaExporter) countingVisitor 0 (by decide)).2.2⟩

/-- C3: `FinishCollection` called in an active round (`startedCollection ==
finishedCollection+1`) increments `finishedCollection` by exactly one (the `int64`
increment, which is the integer successor below the largest `int64`) however the
reconciliation ends, and leaves `startedCollection` alone; called in any other state it
returns `ErrInconsistentState` and leaves both round counters, every record and every
aggregator unchanged. -/
theorem FinishCollection_round_counters (A : Aggregators α) (b : Integrator α) (m : Memory α)
    (now : Time) :
    (b.state.startedCollection = wrapInt64 (b.state.finishedCollection + 1) →
      (FinishCollection A b m now).integrator.state.finishedCollection
          = wrapInt64 (b.state.finishedCollection + 1) ∧
      (-9223372036854775808 ≤ b.state.finishedCollection ∧
        b.state.finishedCollection < 9223372036854775807 →
        (FinishCollection A b m now).integrator.state.finishedCollection
          = b.state.finishedCollection + 1) ∧
      (FinishCollection A b m now).integrator.state.startedCollection
          = b.state.startedCollection) ∧
    (b.state.startedCollection ≠ wrapInt64 (b.state.finishedCollection + 1) →
      (FinishCollection A b m now).result = .err .ErrInconsistentState ∧
      (FinishCollection A b m now).integrator.state.startedCollection
          = b.state.startedCollection ∧
      (FinishCollection A b m now).integrator.state.finishedCollection
          = b.state.finishedCollection ∧
      (FinishCollection A b m now).integrator.state.values = b.state.values ∧
      (FinishCollection A b m now).memory = m) := by
  constructor
  · intro h
    refine ⟨by simp [FinishCollection, h], ?_, by simp [FinishCollection, h]⟩
    intro hrange
    have hw : wrapInt64 (b.state.finishedCollection + 1) = b.state.finishedCollection + 1 := by
      unfold wrapInt64
      omega
    simp [FinishCollection, h, hw]
  · intro h
    simp [FinishCollection, h]

/-- Instance of C3: the first `FinishCollection` after the first `StartCollection` of a
new integrator leaves `finishedCollection` at 1, and a `FinishCollection` on the new
integrator itself returns `ErrInconsistentState`. -/
theorem FinishCollection_round_counters_witness :
    (FinishCollection sumAggregators
        (StartCollection (New sumSelector (constantSelector .CumulativeExporter) 5))
        emptyMemory 8).integrator.state.finishedCollection = 1 ∧
    (FinishCollection sumAggregators (New sumSelector (constantSelector .CumulativeExporter) 5)
        emptyMemory 8).result = .err .ErrInconsistentState :=
  ⟨((FinishCollection_round_counters sumAggregators
      (StartCollection (New sumSelector (constantSelector .CumulativeExporter) 5))
      emptyMemory 8).1 (by decide)).2.1 (by decide),
    ((FinishCollection_round_counters sumAggregators
      (New sumSelector (constantSelector .CumulativeExporter) 5) emptyMemory 8).2 (by decide)).1⟩

/-! ## The record map -/

theorem lookup_store_same (key : stateKey) (value : stateValue)
    (values : List (stateKey × stateValue)) :
    lookup key (store key value values) = some value := by
  induction values with
  | nil => simp [store, lookup]
  | cons entry rest ih =>
    obtain ⟨k, v⟩ := entry
    by_cases hk : k = key
    · simp [store, lookup, hk]
    · simp [store, lookup, hk, ih]

theorem lookup_store_other (key other : stateKey) (value : stateValue)
    (values : List (stateKey × stateValue)) (h : other ≠ key) :
    lookup other (store key value values) = lookup other values := by
  induction values with
  | nil =>
    have h2 : key ≠ other := fun e => h e.symm
    simp [store, lookup, h2]
  | cons entry rest ih =>
    obtain ⟨k, v⟩ := entry
    by_cases hk : k = key
    · subst hk
      have h2 : k ≠ other := fun e => h e.symm
      simp [store, lookup, h2]
    · by_cases ho : k = other
      · subst ho
        simp [store, lookup, hk]
      · simp [store, lookup, hk, ho, ih]

/-! ## The branches of `Process` -/

/-- `Process` never changes the round counters, the timestamps or the selectors. -/
theorem Process_frame (A : Aggregators α) (b : Integrator α) (m : Memory α)
    (accum : Accumulation) :
    (Process A b m accum).integrator.state.startedCollection = b.state.startedCollection ∧
    (Process A b m accum).integrator.state.finishedCollection = b.state.finishedCollection ∧
    (Process A b m accum).integrator.state.processStart = b.state.processStart ∧
    (Process A b m accum).integrator.state.intervalStart = b.state.intervalStart ∧
    (Process A b m accum).integrator.state.intervalEnd = b.state.intervalEnd ∧
    (Process A b m accum).integrator.ExportKindFor = b.ExportKindFor ∧
    (Process A b m accum).integrator.AggregatorFor = b.AggregatorFor := by
  unfold Process
  dsimp only
  split
  · simp
  · split
    · split
      · split <;> simp [Integrator.setValues]
      · simp [Integrator.setValues]
    · split
      · simp [Integrator.setValues]
      · split
        · simp [Integrator.setValues]
        · split
          · split <;> simp [Integrator.setValues]
          · simp [Integrator.setValues]

/-- `Process` for a key that is present and is either reported for the first time in
this round or belongs to an asynchronous instrument: the record takes the reference of
the incoming aggregator and nothing else happens. -/
theorem Process_reference (A : Aggregators α) (b : Integrator α) (m : Memory α)
    (accum : Accumulation) (found : stateValue)
    (hactive : b.state.startedCollection = wrapInt64 (b.state.finishedCollection + 1))
    (hfound : lookup accum.key b.state.values = some found)
    (hcase : found.updated ≠ b.state.finishedCollection ∨ accum.descriptor.asynchronous = true) :
    Process A b m accum =
      ⟨b.setValues (store accum.key
          { found with
            updated := b.state.finishedCollection
            current := .accumulator accum.aggregator } b.state.values), m, .ok⟩ := by
  unfold Process
  dsimp only
  rw [if_neg (by simpa using hactive)]
  have hfound2 := hfound
  unfold Accumulation.key at hfound2
  rw [hfound2]
  dsimp only
  by_cases hsame : b.state.finishedCollection = found.updated
  · have hasync : accum.descriptor.asynchronous = true := by
      rcases hcase with h | h
      · exact absurd hsame.symm h
      · exact h
    simp [hsame, hasync, Accumulation.key]
  · simp [hsame, Accumulation.key]

/-- `Process` for a key that is absent from the map. -/
theorem Process_absent (A : Aggregators α) (b : Integrator α) (m : Memory α)
    (accum : Accumulation)
    (hactive : b.state.startedCollection = wrapInt64 (b.state.finishedCollection + 1))
    (habsent : lookup accum.key b.state.values = none) :
    Process A b m accum =
      if (b.ExportKindFor accum.descriptor
          (A.kind (m.read (.accumulator accum.aggregator)))).MemoryRequired accum.descriptor
      then
        if accum.descriptor.precomputedSum then
          ⟨b.setValues (store accum.key
              { labels := accum.labels, resource := accum.resource,
                updated := b.state.finishedCollection, stateful := true,
                current := .accumulator accum.aggregator,
                delta := some (m.allocated + 1), cumulative := some m.allocated }
              b.state.values),
            m.AggregatorFor b.AggregatorFor accum.descriptor 2, .ok⟩
        else
          ⟨b.setValues (store accum.key
              { labels := accum.labels, resource := accum.resource,
                updated := b.state.finishedCollection, stateful := true,
                current := .accumulator accum.aggregator,
                delta := none, cumulative := some m.allocated }
              b.state.values),
            m.AggregatorFor b.AggregatorFor accum.descriptor 1, .ok⟩
      else
        ⟨b.setValues (store accum.key
            { labels := accum.labels, resource := accum.resource,
              updated := b.state.finishedCollection, stateful := false,
              current := .accumulator accum.aggregator,
              delta := none, cumulative := none }
            b.state.values), m, .ok⟩ := by
  unfold Process
  dsimp only
  rw [if_neg (by simpa using hactive)]
  have habsent2 := habsent
  unfold Accumulation.key at habsent2
  rw [habsent2]
  dsimp only
  by_cases hs : (b.ExportKindFor accum.descriptor
      (A.kind (m.read (.accumulator accum.aggregator)))).MemoryRequired accum.descriptor = true
  · by_cases hp : accum.descriptor.precomputedSum = true
    · simp [hs, hp, Accumulation.key]
    · simp [hs, hp, Accumulation.key]
  · simp [hs, Accumulation.key]

/-- `Process` for a synchronous instrument whose key was already reported in this round:
the incoming aggregator is merged into the delta aggregator of the record. -/
theorem Process_merge (A : Aggregators α) (b : Integrator α) (m : Memory α)
    (accum : Accumulation) (found : stateValue)
    (hactive : b.state.startedCollection = wrapInt64 (b.state.finishedCollection + 1))
    (hfound : lookup accum.key b.state.values = some found)
    (hsame : found.updated = b.state.finishedCollection)
    (hsync : accum.descriptor.asynchronous = false) :
    Process A b m accum =
      if found.current ≠ .integrator (found.delta.getD m.allocated) then
        match ((if found.delta = none then m.AggregatorFor b.AggregatorFor accum.descriptor 1
            else m).SynchronizedCopy A found.current
              (.integrator (found.delta.getD m.allocated)) accum.descriptor).2 with
        | some err =>
          ⟨b.setValues (store accum.key
              { found with delta := some (found.delta.getD m.allocated) } b.state.values),
            ((if found.delta = none then m.AggregatorFor b.AggregatorFor accum.descriptor 1
              else m).SynchronizedCopy A found.current
                (.integrator (found.delta.getD m.allocated)) accum.descriptor).1, .err err⟩
        | none =>
          ⟨b.setValues (store accum.key
              { found with
                delta := some (found.delta.getD m.allocated)
                current := .integrator (found.delta.getD m.allocated) } b.state.values),
            (((if found.delta = none then m.AggregatorFor b.AggregatorFor accum.descriptor 1
              else m).SynchronizedCopy A found.current
                (.integrator (found.delta.getD m.allocated)) accum.descriptor).1.Merge A
                (.integrator (found.delta.getD m.allocated))
                (.accumulator accum.aggregator) accum.descriptor).1,
            Result.ofError
              (((if found.delta = none then m.AggregatorFor b.AggregatorFor accum.descriptor 1
                else m).SynchronizedCopy A found.current
                  (.integrator (found.delta.getD m.allocated)) accum.descriptor).1.Merge A
                  (.integrator (found.delta.getD m.allocated))
                  (.accumulator accum.aggregator) accum.descriptor).2⟩
      else
        ⟨b.setValues (store accum.key
            { found with delta := some (found.delta.getD m.allocated) } b.state.values),
          ((if found.delta = none then m.AggregatorFor b.AggregatorFor accum.descriptor 1
            else m).Merge A (.integrator (found.delta.getD m.allocated))
              (.accumulator accum.aggregator) accum.descriptor).1,
          Result.ofError
            ((if found.delta = none then m.AggregatorFor b.AggregatorFor accum.descriptor 1
              else m).Merge A (.integrator (found.delta.getD m.allocated))
                (.accumulator accum.aggregator) accum.descriptor).2⟩ := by
  unfold Process
  dsimp only
  rw [if_neg (by simpa using hactive)]
  have hfound2 := hfound
  unfold Accumulation.key at hfound2
  rw [hfound2]
  have hv : ({ found with updated := b.state.finishedCollection } : stateValue) = found := by
    rw [← hsame]
  dsimp only
  simp only [hsame, hsync, decide_True, Bool.not_true, Bool.false_eq_true, if_false, hv,
    Accumulation.key]

/-! ## Asynchronous instruments: the last accumulation wins -/

/-- One `Process` call in an active round for an asynchronous instrument, or for a key
that was not yet reported in this round: it returns nil, the record refers to the
incoming aggregator, and no aggregator method is called. -/
theorem Process_keeps_reference (A : Aggregators α) (b : Integrator α) (m : Memory α)
    (accum : Accumulation)
    (hactive : b.state.startedCollection = wrapInt64 (b.state.finishedCollection + 1))
    (hcase : accum.descriptor.asynchronous = true ∨
      ∀ found, lookup accum.key b.state.values = some found →
        found.updated ≠ b.state.finishedCollection) :
    (Process A b m accum).result = .ok ∧
    (∃ value, lookup accum.key (Process A b m accum).integrator.state.values = some value ∧
      value.current = .accumulator accum.aggregator ∧
      value.updated = b.state.finishedCollection) ∧
    methodCalls (Process A b m accum).memory.calls = methodCalls m.calls ∧
    (Process A b m accum).memory.accumulator = m.accumulator ∧
    (∀ n, n < m.allocated → (Process A b m accum).memory.integrator n = m.integrator n) ∧
    m.allocated ≤ (Process A b m accum).memory.allocated := by
  cases hl : lookup accum.key b.state.values with
  | some found =>
    have hcase2 : found.updated ≠ b.state.finishedCollection ∨
        accum.descriptor.asynchronous = true := by
      rcases hcase with h | h
      · exact Or.inr h
      · exact Or.inl (h found hl)
    rw [Process_reference A b m accum found hactive hl hcase2]
    simp [Integrator.setValues, lookup_store_same]
  | none =>
    rw [Process_absent A b m accum hactive hl]
    split
    · split
      · refine ⟨rfl, ⟨_, lookup_store_same _ _ _, rfl, rfl⟩, ?_, rfl, ?_, ?_⟩
        · simp [Memory.AggregatorFor, methodCalls, List.filter_append]
        · intro n hn
          simp only [Memory.AggregatorFor]
          rw [if_neg (by omega)]
        · simp [Memory.AggregatorFor]
      · refine ⟨rfl, ⟨_, lookup_store_same _ _ _, rfl, rfl⟩, ?_, rfl, ?_, ?_⟩
        · simp [Memory.AggregatorFor, methodCalls, List.filter_append]
        · intro n hn
          simp only [Memory.AggregatorFor]
          rw [if_neg (by omega)]
        · simp [Memory.AggregatorFor]
    · simp [Integrator.setValues, lookup_store_same]

/-- One `Process` call of an asynchronous instrument in an active round: it returns nil,
the record refers to the incoming aggregator, and no aggregator method is called. -/
theorem Process_asynchronous (A : Aggregators α) (b : Integrator α) (m : Memory α)
    (accum : Accumulation)
    (hactive : b.state.startedCollection = wrapInt64 (b.state.finishedCollection + 1))
    (hasync : accum.descriptor.asynchronous = true) :
    (Process A b m accum).result = .ok ∧
    (∃ value, lookup accum.key (Process A b m accum).integrator.state.values = some value ∧
      value.current = .accumulator accum.aggregator ∧
      value.updated = b.state.finishedCollection) ∧
    methodCalls (Process A b m accum).memory.calls = methodCalls m.calls ∧
    (Process A b m accum).memory.accumulator = m.accumulator ∧
    (∀ n, n < m.allocated → (Process A b m accum).memory.integrator n = m.integrator n) ∧
    m.allocated ≤ (Process A b m accum).memory.allocated :=
  Process_keeps_reference A b m accum hactive (Or.inl hasync)

/-! ## Sequences of `Process` calls -/

theorem ProcessAll_cons_integrator (A : Aggregators α) (b : Integrator α) (m : Memory α)
    (accum : Accumulation) (rest : List Accumulation) :
    (ProcessAll A b m (accum :: rest)).integrator =
      (ProcessAll A (Process A b m accum).integrator (Process A b m accum).memory rest).integrator :=
  rfl

theorem ProcessAll_cons_memory (A : Aggregators α) (b : Integrator α) (m : Memory α)
    (accum : Accumulation) (rest : List Accumulation) :
    (ProcessAll A b m (accum :: rest)).memory =
      (ProcessAll A (Process A b m accum).integrator (Process A b m accum).memory rest).memory :=
  rfl

theorem ProcessAll_cons_results (A : Aggregators α) (b : Integrator α) (m : Memory α)
    (accum : Accumulation) (rest : List Accumulation) :
    (ProcessAll A b m (accum :: rest)).results =
      (Process A b m accum).result ::
        (ProcessAll A (Process A b m accum).integrator (Process A b m accum).memory rest).results :=
  rfl

/-- Any number of `Process` calls of asynchronous instruments in an active round, ending
with an accumulation `last`: every call returns nil, the record of `last` refers to the
aggregator of `last`, the round is still active, and no aggregator method was called. -/
theorem ProcessAll_asynchronous (A : Aggregators α) (accums : List Accumulation) :
    ∀ (b : Integrator α) (m : Memory α) (last : Accumulation),
    b.state.startedCollection = wrapInt64 (b.state.finishedCollection + 1) →
    (∀ a ∈ accums ++ [last], a.descriptor.asynchronous = true) →
    (∀ r ∈ (ProcessAll A b m (accums ++ [last])).results, r = .ok) ∧
    (∃ value, lookup last.key (ProcessAll A b m (accums ++ [last])).integrator.state.values
        = some value ∧
      value.current = .accumulator last.aggregator ∧
      value.updated = b.state.finishedCollection) ∧
    methodCalls (ProcessAll A b m (accums ++ [last])).memory.calls = methodCalls m.calls ∧
    (ProcessAll A b m (accums ++ [last])).memory.accumulator = m.accumulator ∧
    (∀ n, n < m.allocated →
      (ProcessAll A b m (accums ++ [last])).memory.integrator n = m.integrator n) ∧
    m.allocated ≤ (ProcessAll A b m (accums ++ [last])).memory.allocated := by
  induction accums with
  | nil =>
    intro b m last hactive hasync
    have h := Process_asynchronous A b m last hactive (hasync last (by simp))
    simpa [ProcessAll] using h
  | cons first rest ih =>
    intro b m last hactive hasync
    have h1 := Process_asynchronous A b m first hactive (hasync first (by simp))
    have hframe := Process_frame A b m first
    have hactive1 : (Process A b m first).integrator.state.startedCollection
        = wrapInt64 ((Process A b m first).integrator.state.finishedCollection + 1) := by
      rw [hframe.1, hframe.2.1]
      exact hactive
    have h2 := ih (Process A b m first).integrator (Process A b m first).memory last hactive1
      (fun a ha => hasync a (by simp at ha ⊢; tauto))
    obtain ⟨hok1, -, hcalls1, hacc1, hint1, halloc1⟩ := h1
    obtain ⟨hok2, ⟨value, hlook, hcur, hupd⟩, hcalls2, hacc2, hint2, halloc2⟩ := h2
    refine ⟨?_, ⟨value, ?_, hcur, ?_⟩, ?_, ?_, ?_, ?_⟩
    · intro r hr
      rw [List.cons_append, ProcessAll_cons_results, List.mem_cons] at hr
      rcases hr with hr | hr
      · rw [hr, hok1]
      · exact hok2 r hr
    · rw [List.cons_append, ProcessAll_cons_integrator]
      exact hlook
    · rw [hupd, hframe.2.1]
    · rw [List.cons_append, ProcessAll_cons_memory, hcalls2, hcalls1]
    · rw [List.cons_append, ProcessAll_cons_memory, hacc2, hacc1]
    · intro n hn
      rw [List.cons_append, ProcessAll_cons_memory, hint2 n (by omega), hint1 n hn]
    · rw [List.cons_append, ProcessAll_cons_memory]
      omega

/-- C5: an asynchronous (observer) instrument is reported two or more times with the
same identity key inside one active round.  After the `Process` calls, which all
return nil, the current aggregator of the record is the aggregator of the last
accumulation processed, and no `Merge`, `SynchronizedCopy` or `Subtract` was performed:
the log holds no new method call and the state of every aggregator that existed before
is unchanged. -/
theorem Process_asynchronous_last_wins (A : Aggregators α) (b : Integrator α) (m : Memory α)
    (key : stateKey) (accums : List Accumulation) (last : Accumulation)
    (hactive : b.state.startedCollection = wrapInt64 (b.state.finishedCollection + 1))
    (hasync : key.descriptor.asynchronous = true)
    (hkey : ∀ a ∈ accums, a.key = key)
    (hlen : 2 ≤ accums.length)
    (hlast : accums.getLast? = some last) :
    (∀ r ∈ (ProcessAll A b m accums).results, r = .ok) ∧
    (∃ value, lookup key (ProcessAll A b m accums).integrator.state.values = some value ∧
      value.current = .accumulator last.aggregator) ∧
    methodCalls (ProcessAll A b m accums).memory.calls = methodCalls m.calls ∧
    (ProcessAll A b m accums).memory.accumulator = m.accumulator ∧
    (∀ n, n < m.allocated → (ProcessAll A b m accums).memory.integrator n = m.integrator n) := by
  obtain ⟨init, hsplit⟩ : ∃ init, accums = init ++ [last] := by
    rcases List.eq_nil_or_concat accums with h | ⟨init, x, h⟩
    · subst h
      simp at hlen
    · subst h
      simp at hlast
      exact ⟨init, by rw [hlast, List.concat_eq_append]⟩
  subst hsplit
  have hd : ∀ a ∈ init ++ [last], a.descriptor.asynchronous = true := by
    intro a ha
    have hk := hkey a ha
    have : a.descriptor = key.descriptor := by rw [← hk]; rfl
    rw [this]
    exact hasync
  obtain ⟨hok, ⟨value, hlook, hcur, -⟩, hcalls, hacc, hint, -⟩ :=
    ProcessAll_asynchronous A init b m last hactive hd
  refine ⟨hok, ⟨value, ?_, hcur⟩, hcalls, hacc, hint⟩
  rw [← hkey last (by simp)]
  exact hlook

/-- Instance of C5: a sum observer reported from the aggregators 0 and 1 in the first
round of a new integrator; the record refers to aggregator 1. -/
theorem Process_asynchronous_last_wins_witness :
    ∃ value,
      lookup (accumulationOf sumObserverDescriptor 0).key
        (ProcessAll sumAggregators (firstRound .PassThroughExporter) (memoryOf [3, 4])
          [accumulationOf sumObserverDescriptor 0,
            accumulationOf sumObserverDescriptor 1]).integrator.state.values = some value ∧
      value.current = .accumulator 1 :=
  (Process_asynchronous_last_wins sumAggregators (firstRound .PassThroughExporter)
    (memoryOf [3, 4]) (accumulationOf sumObserverDescriptor 0).key
    [accumulationOf sumObserverDescriptor 0, accumulationOf sumObserverDescriptor 1]
    (accumulationOf sumObserverDescriptor 1)
    (by decide) (by decide) (by decide) (by decide) (by decide)).2.1

/-! ## Synchronous instruments: accumulations of one round are merged -/

/-- The second accumulation of a round for a synchronous instrument: the aggregator the
record refers to is copied into the delta aggregator, which becomes current, and the
incoming aggregator is merged into it. -/
theorem Process_merge_second (A : Aggregators α) (op : α → α → α) (b : Integrator α)
    (m : Memory α) (accum : Accumulation) (found : stateValue) (p : Nat)
    (hmerge : ∀ r o d, A.merge r o d = (op r o, none))
    (hcopy : ∀ r dst d, (A.synchronizedCopy r dst d).2 = (r, none))
    (hactive : b.state.startedCollection = wrapInt64 (b.state.finishedCollection + 1))
    (hsync : accum.descriptor.asynchronous = false)
    (hfound : lookup accum.key b.state.values = some found)
    (hsame : found.updated = b.state.finishedCollection)
    (hcur : found.current = .accumulator p)
    (hne : p ≠ accum.aggregator) :
    (Process A b m accum).result = .ok ∧
    (∃ value d, lookup accum.key (Process A b m accum).integrator.state.values = some value ∧
      value.current = .integrator d ∧ value.delta = some d ∧
      value.updated = b.state.finishedCollection ∧
      (Process A b m accum).memory.integrator d
        = op (m.accumulator p) (m.accumulator accum.aggregator)) ∧
    (∀ q, q ≠ p → (Process A b m accum).memory.accumulator q = m.accumulator q) := by
  rw [Process_merge A b m accum found hactive hfound hsame hsync]
  have hc : found.current ≠ .integrator (found.delta.getD m.allocated) := by
    rw [hcur]
    exact fun h => AggRef.noConfusion h
  rw [if_pos hc]
  have hne2 : accum.aggregator ≠ p := fun h => hne h.symm
  have h2 : ∀ mm : Memory α, (mm.SynchronizedCopy A found.current
      (.integrator (found.delta.getD m.allocated)) accum.descriptor).2 = none := by
    intro mm
    simp [Memory.SynchronizedCopy, hcopy]
  rw [h2]
  dsimp only
  refine ⟨by simp [Memory.Merge, hmerge, Result.ofError], ⟨_, found.delta.getD m.allocated,
    lookup_store_same _ _ _, rfl, rfl, hsame, ?_⟩, ?_⟩
  · by_cases hd : found.delta = none
    · simp [hd, hcur, Memory.Merge, Memory.SynchronizedCopy, Memory.write, Memory.log,
        Memory.read, Memory.AggregatorFor, hmerge, hcopy, Function.update, hne2]
    · simp [hd, hcur, Memory.Merge, Memory.SynchronizedCopy, Memory.write, Memory.log,
        Memory.read, hmerge, hcopy, Function.update, hne2]
  · intro q hq
    by_cases hd : found.delta = none
    · simp [hd, hcur, Memory.Merge, Memory.SynchronizedCopy, Memory.write, Memory.log,
        Memory.read, Memory.AggregatorFor, hmerge, hcopy, Function.update, hq]
    · simp [hd, hcur, Memory.Merge, Memory.SynchronizedCopy, Memory.write, Memory.log,
        Memory.read, hmerge, hcopy, Function.update, hq]

/-- A later accumulation of a round for a synchronous instrument whose record already
refers to its delta aggregator: the incoming aggregator is merged into it. -/
theorem Process_merge_later (A : Aggregators α) (op : α → α → α) (b : Integrator α)
    (m : Memory α) (accum : Accumulation) (found : stateValue) (d : Nat)
    (hmerge : ∀ r o d, A.merge r o d = (op r o, none))
    (hactive : b.state.startedCollection = wrapInt64 (b.state.finishedCollection + 1))
    (hsync : accum.descriptor.asynchronous = false)
    (hfound : lookup accum.key b.state.values = some found)
    (hsame : found.updated = b.state.finishedCollection)
    (hcur : found.current = .integrator d)
    (hdelta : found.delta = some d) :
    (Process A b m accum).result = .ok ∧
    lookup accum.key (Process A b m accum).integrator.state.values = some found ∧
    (Process A b m accum).memory.integrator d
      = op (m.integrator d) (m.accumulator accum.aggregator) ∧
    (Process A b m accum).memory.accumulator = m.accumulator := by
  rw [Process_merge A b m accum found hactive hfound hsame hsync]
  have hc : ¬ found.current ≠ .integrator (found.delta.getD m.allocated) := by
    simp [hcur, hdelta]
  rw [if_neg hc]
  have hv : ({ found with delta := some (found.delta.getD m.allocated) } : stateValue)
      = found := by
    cases found
    simp_all
  rw [hv]
  refine ⟨by simp [Memory.Merge, hmerge, Result.ofError], lookup_store_same _ _ _, ?_, ?_⟩
  · simp [hdelta, Memory.Merge, Memory.write, Memory.log, Memory.read, hmerge]
  · simp [hdelta, Memory.Merge, Memory.write, Memory.log, Memory.read, hmerge]

theorem foldl_mergeInto (op : α → α → α) (l : List α) :
    ∀ x, l.foldl (mergeInto op) (some x) = some (l.foldl op x) := by
  induction l with
  | nil => intro x; rfl
  | cons y rest ih => intro x; simp [List.foldl, mergeInto, ih]

theorem mergeAll_eq_foldl (op : α → α → α) (l : List α) :
    mergeAll op l = l.foldl (mergeInto op) none := by
  cases l with
  | nil => rfl
  | cons x rest => simp [mergeAll, List.foldl, mergeInto, foldl_mergeInto]

/-- The merge of a list of contributions does not depend on their order when the merge
operation is commutative and associative. -/
theorem mergeAll_perm (op : α → α → α) (hcomm : ∀ x y, op x y = op y x)
    (hassoc : ∀ x y z, op (op x y) z = op x (op y z)) {l l2 : List α} (h : l.Perm l2) :
    mergeAll op l = mergeAll op l2 := by
  rw [mergeAll_eq_foldl, mergeAll_eq_foldl]
  apply List.Perm.foldl_eq' h
  intro x _ y _ z
  cases z with
  | none => simp [mergeInto, hcomm x y]
  | some a =>
    simp only [mergeInto]
    rw [hassoc, hassoc, hcomm x y]

/-- The later accumulations of a round for a synchronous instrument, one after the
other: each is merged into the delta aggregator, which stays current. -/
theorem ProcessAll_merge_later (A : Aggregators α) (op : α → α → α) (key : stateKey)
    (found : stateValue) (d : Nat) (hmerge : ∀ r o d, A.merge r o d = (op r o, none))
    (hsync : key.descriptor.asynchronous = false)
    (hcur : found.current = .integrator d) (hdelta : found.delta = some d)
    (rest : List Accumulation) :
    ∀ (b : Integrator α) (m : Memory α),
    b.state.startedCollection = wrapInt64 (b.state.finishedCollection + 1) →
    lookup key b.state.values = some found →
    found.updated = b.state.finishedCollection →
    (∀ a ∈ rest, a.key = key) →
    (∀ r ∈ (ProcessAll A b m rest).results, r = .ok) ∧
    lookup key (ProcessAll A b m rest).integrator.state.values = some found ∧
    (ProcessAll A b m rest).memory.integrator d
      = rest.foldl (fun merged a => op merged (m.accumulator a.aggregator)) (m.integrator d) ∧
    (ProcessAll A b m rest).memory.accumulator = m.accumulator := by
  induction rest with
  | nil =>
    intro b m _ hfound _ _
    exact ⟨by simp [ProcessAll], hfound, rfl, rfl⟩
  | cons accum rest ih =>
    intro b m hactive hfound hsame hkey
    have hk : accum.key = key := hkey accum (by simp)
    have hs : accum.descriptor.asynchronous = false := by
      have : accum.descriptor = key.descriptor := by rw [← hk]; rfl
      rw [this]
      exact hsync
    obtain ⟨hok1, hl1, hint1, hacc1⟩ := Process_merge_later A op b m accum found d hmerge hactive hs
      (by rw [hk]; exact hfound) hsame hcur hdelta
    have hframe := Process_frame A b m accum
    obtain ⟨hok2, hl2, hint2, hacc2⟩ := ih (Process A b m accum).integrator
      (Process A b m accum).memory
      (by rw [hframe.1, hframe.2.1]; exact hactive)
      (by rw [← hk]; exact hl1)
      (by rw [hframe.2.1]; exact hsame)
      (fun a ha => hkey a (by simp [ha]))
    refine ⟨?_, ?_, ?_, ?_⟩
    · intro r hr
      rw [ProcessAll_cons_results, List.mem_cons] at hr
      rcases hr with hr | hr
      · rw [hr, hok1]
      · exact hok2 r hr
    · rw [ProcessAll_cons_integrator]
      exact hl2
    · rw [ProcessAll_cons_memory, hint2, hint1, hacc1]
      rfl
    · rw [ProcessAll_cons_memory, hacc2, hacc1]

/-- Two or more accumulations of a synchronous instrument with one key, from distinct
aggregators, in a round that had not seen the key: the record ends up referring to its
delta aggregator, which holds the merge of the contributions in arrival order. -/
theorem ProcessAll_merge (A : Aggregators α) (op : α → α → α) (b : Integrator α)
    (m : Memory α) (key : stateKey) (first second : Accumulation) (rest : List Accumulation)
    (hmerge : ∀ r o d, A.merge r o d = (op r o, none))
    (hcopy : ∀ r dst d, (A.synchronizedCopy r dst d).2 = (r, none))
    (hactive : b.state.startedCollection = wrapInt64 (b.state.finishedCollection + 1))
    (hsync : key.descriptor.asynchronous = false)
    (hfresh : ∀ found, lookup key b.state.values = some found →
      found.updated ≠ b.state.finishedCollection)
    (hkey : ∀ a ∈ first :: second :: rest, a.key = key)
    (hdistinct : ((first :: second :: rest).map fun a => a.aggregator).Nodup) :
    (∀ r ∈ (ProcessAll A b m (first :: second :: rest)).results, r = .ok) ∧
    ∃ value d,
      lookup key (ProcessAll A b m (first :: second :: rest)).integrator.state.values
        = some value ∧
      value.current = .integrator d ∧ value.delta = some d ∧
      (ProcessAll A b m (first :: second :: rest)).memory.integrator d
        = (second :: rest).foldl (fun merged a => op merged (m.accumulator a.aggregator))
            (m.accumulator first.aggregator) := by
  have hk1 : first.key = key := hkey first (by simp)
  have hk2 : second.key = key := hkey second (by simp)
  have hdesc : ∀ a : Accumulation, a.key = key → a.descriptor.asynchronous = false := by
    intro a hk
    have : a.descriptor = key.descriptor := by rw [← hk]; rfl
    rw [this]
    exact hsync
  simp only [List.map_cons, List.nodup_cons, List.mem_cons, List.mem_map, not_or,
    not_exists, not_and] at hdistinct
  obtain ⟨⟨hne12, hne1r⟩, -, -⟩ := hdistinct
  -- the first accumulation leaves a reference
  obtain ⟨hok1, ⟨v1, hl1, hcur1, hupd1⟩, -, hacc1, -, -⟩ :=
    Process_keeps_reference A b m first hactive (Or.inr (by rw [hk1]; exact hfresh))
  have hframe1 := Process_frame A b m first
  have hactive1 : (Process A b m first).integrator.state.startedCollection
      = wrapInt64 ((Process A b m first).integrator.state.finishedCollection + 1) := by
    rw [hframe1.1, hframe1.2.1]
    exact hactive
  -- the second accumulation copies and merges
  obtain ⟨hok2, ⟨v2, d, hl2, hcur2, hdelta2, hupd2, hint2⟩, hacc2⟩ :=
    Process_merge_second A op (Process A b m first).integrator (Process A b m first).memory
      second v1 first.aggregator hmerge hcopy hactive1 (hdesc second hk2)
      (by rw [hk2, ← hk1]; exact hl1) (by rw [hupd1, hframe1.2.1]) hcur1 hne12
  have hframe2 := Process_frame A (Process A b m first).integrator
    (Process A b m first).memory second
  -- the other accumulations merge
  obtain ⟨hok3, hl3, hint3, -⟩ :=
    ProcessAll_merge_later A op key v2 d hmerge hsync hcur2 hdelta2 rest
      (Process A (Process A b m first).integrator (Process A b m first).memory second).integrator
      (Process A (Process A b m first).integrator (Process A b m first).memory second).memory
      (by rw [hframe2.1, hframe2.2.1]; exact hactive1)
      (by rw [← hk2]; exact hl2)
      (by rw [hupd2, hframe2.2.1])
      (fun a ha => hkey a (by simp [ha]))
  refine ⟨?_, v2, d, ?_, hcur2, hdelta2, ?_⟩
  · intro r hr
    rw [ProcessAll_cons_results, ProcessAll_cons_results, List.mem_cons, List.mem_cons] at hr
    rcases hr with hr | hr | hr
    · rw [hr, hok1]
    · rw [hr, hok2]
    · exact hok3 r hr
  · rw [ProcessAll_cons_integrator, ProcessAll_cons_integrator]
    exact hl3
  · rw [ProcessAll_cons_memory, ProcessAll_cons_memory, hint3, hint2, hacc1, List.foldl_cons]
    apply List.foldl_ext
    intro merged a ha
    rw [hacc2 a.aggregator (fun h => hne1r a ha h), hacc1]
/-- The value the record refers to after two or more accumulations of a synchronous
instrument in one round is the merge of the contributions in arrival order. -/
theorem ProcessAll_merge_value (A : Aggregators α) (op : α → α → α) (b : Integrator α)
    (m : Memory α) (key : stateKey) (accums : List Accumulation)
    (hmerge : ∀ r o d, A.merge r o d = (op r o, none))
    (hcopy : ∀ r dst d, (A.synchronizedCopy r dst d).2 = (r, none))
    (hactive : b.state.startedCollection = wrapInt64 (b.state.finishedCollection + 1))
    (hsync : key.descriptor.asynchronous = false)
    (hfresh : ∀ found, lookup key b.state.values = some found →
      found.updated ≠ b.state.finishedCollection)
    (hkey : ∀ a ∈ accums, a.key = key)
    (hlen : 2 ≤ accums.length)
    (hdistinct : (accums.map fun a => a.aggregator).Nodup) :
    (∀ r ∈ (ProcessAll A b m accums).results, r = .ok) ∧
    (∃ value d, lookup key (ProcessAll A b m accums).integrator.state.values = some value ∧
      value.current = .integrator d ∧ value.delta = some d) ∧
    currentValue (ProcessAll A b m accums).integrator (ProcessAll A b m accums).memory key
      = mergeAll op (accums.map fun a => m.accumulator a.aggregator) := by
  match accums, hlen with
  | first :: second :: rest, _ =>
    obtain ⟨hok, value, d, hl, hcur, hdelta, hval⟩ :=
      ProcessAll_merge A op b m key first second rest hmerge hcopy hactive hsync hfresh hkey
        hdistinct
    refine ⟨hok, ⟨value, d, hl, hcur, hdelta⟩, ?_⟩
    simp only [currentValue, hl, Option.map_some', hcur, Memory.read, hval, List.map_cons,
      mergeAll, List.foldl_cons, List.foldl_map]

/-- C4: a synchronous instrument, `N >= 2` accumulations with the same identity key
coming from distinct producer aggregators, processed inside one active round that had
not seen the key before.  Assuming `Merge` is a commutative and associative operation
`op` and `SynchronizedCopy` copies the state of the receiver into the destination:
every `Process` call returns nil, the current aggregator of the record is the
integrator-owned delta aggregator, its value is the merge of the `N` contributions, and
that value is the same for every arrival order. -/
theorem Process_synchronous_merge (A : Aggregators α) (op : α → α → α) (b : Integrator α)
    (m : Memory α) (key : stateKey) (accums : List Accumulation)
    (hmerge : ∀ r o d, A.merge r o d = (op r o, none))
    (hcomm : ∀ x y, op x y = op y x)
    (hassoc : ∀ x y z, op (op x y) z = op x (op y z))
    (hcopy : ∀ r dst d, (A.synchronizedCopy r dst d).2 = (r, none))
    (hactive : b.state.startedCollection = wrapInt64 (b.state.finishedCollection + 1))
    (hsync : key.descriptor.asynchronous = false)
    (hfresh : ∀ found, lookup key b.state.values = some found →
      found.updated ≠ b.state.finishedCollection)
    (hkey : ∀ a ∈ accums, a.key = key)
    (hlen : 2 ≤ accums.length)
    (hdistinct : (accums.map fun a => a.aggregator).Nodup) :
    (∀ r ∈ (ProcessAll A b m accums).results, r = .ok) ∧
    (∃ value d, lookup key (ProcessAll A b m accums).integrator.state.values = some value ∧
      value.current = .integrator d ∧ value.delta = some d) ∧
    currentValue (ProcessAll A b m accums).integrator (ProcessAll A b m accums).memory key
      = mergeAll op (accums.map fun a => m.accumulator a.aggregator) ∧
    ∀ arrival : List Accumulation, arrival.Perm accums →
      currentValue (ProcessAll A b m arrival).integrator (ProcessAll A b m arrival).memory key
        = currentValue (ProcessAll A b m accums).integrator
            (ProcessAll A b m accums).memory key := by
  obtain ⟨hok, hrec, hval⟩ := ProcessAll_merge_value A op b m key accums hmerge hcopy hactive
    hsync hfresh hkey hlen hdistinct
  refine ⟨hok, hrec, hval, ?_⟩
  intro arrival hperm
  obtain ⟨-, -, hval2⟩ := ProcessAll_merge_value A op b m key arrival hmerge hcopy hactive
    hsync hfresh (fun a ha => hkey a (hperm.subset ha)) (by rw [hperm.length_eq]; exact hlen)
    (((hperm.map fun a => a.aggregator).nodup_iff).mpr hdistinct)
  rw [hval, hval2]
  exact mergeAll_perm op hcomm hassoc (hperm.map fun a => m.accumulator a.aggregator)

/-- Instance of C4: a counter reported from the aggregators 0, 1 and 2, holding 3, 4 and
5, in the first round of a new integrator; the record refers to a delta aggregator
holding 12. -/
theorem Process_synchronous_merge_witness :
    currentValue
      (ProcessAll sumAggregators (firstRound .PassThroughExporter) (memoryOf [3, 4, 5])
        [accumulationOf counterDescriptor 0, accumulationOf counterDescriptor 1,
          accumulationOf counterDescriptor 2]).integrator
      (ProcessAll sumAggregators (firstRound .PassThroughExporter) (memoryOf [3, 4, 5])
        [accumulationOf counterDescriptor 0, accumulationOf counterDescriptor 1,
          accumulationOf counterDescriptor 2]).memory
      (accumulationOf counterDescriptor 0).key
    = mergeAll (fun x y : Int => x + y)
        ([accumulationOf counterDescriptor 0, accumulationOf counterDescriptor 1,
          accumulationOf counterDescriptor 2].map
            fun a => (memoryOf [3, 4, 5]).accumulator a.aggregator) ∧
    mergeAll (fun x y : Int => x + y)
        ([accumulationOf counterDescriptor 0, accumulationOf counterDescriptor 1,
          accumulationOf counterDescriptor 2].map
            fun a => (memoryOf [3, 4, 5]).accumulator a.aggregator) = some 12 :=
  ⟨(Process_synchronous_merge sumAggregators (fun x y : Int => x + y)
    (firstRound .PassThroughExporter) (memoryOf [3, 4, 5])
    (accumulationOf counterDescriptor 0).key
    [accumulationOf counterDescriptor 0, accumulationOf counterDescriptor 1,
      accumulationOf counterDescriptor 2]
    (fun _ _ _ => rfl) (fun x y => Int.add_comm x y) (fun x y z => Int.add_assoc x y z)
    (fun _ _ _ => rfl) (by decide) (by decide) (by decide) (by decide) (by decide)
    (by decide)).2.2.1, by decide⟩

/-! ## Reads and writes of the aggregator memory -/

theorem finishLoop_delete (A : Aggregators α) (finished : Int) (key : stateKey)
    (value : stateValue) (rest : List (stateKey × stateValue)) (m : Memory α)
    (hs : value.stateful = false) (hu : value.updated ≠ finished) :
    finishLoop A finished ((key, value) :: rest) m = finishLoop A finished rest m := by
  simp [finishLoop, hs, hu]

theorem finishLoop_keep (A : Aggregators α) (finished : Int) (key : stateKey)
    (value : stateValue) (rest : List (stateKey × stateValue)) (m : Memory α)
    (hs : value.stateful = false) (hu : value.updated = finished) :
    finishLoop A finished ((key, value) :: rest) m =
      ((key, value) :: (finishLoop A finished rest m).1, (finishLoop A finished rest m).2) := by
  simp [finishLoop, hs, hu]

theorem finishLoop_continue (A : Aggregators α) (finished : Int) (key : stateKey)
    (value : stateValue) (rest : List (stateKey × stateValue)) (m : Memory α)
    (hs : value.stateful = true) (hr : (reconcile A key value m).2 = .ok) :
    finishLoop A finished ((key, value) :: rest) m =
      ((key, value) :: (finishLoop A finished rest (reconcile A key value m).1).1,
        (finishLoop A finished rest (reconcile A key value m).1).2) := by
  simp [finishLoop, hs, hr]

theorem finishLoop_stop (A : Aggregators α) (finished : Int) (key : stateKey)
    (value : stateValue) (rest : List (stateKey × stateValue)) (m : Memory α)
    (hs : value.stateful = true) (hr : (reconcile A key value m).2 ≠ .ok) :
    finishLoop A finished ((key, value) :: rest) m =
      ((key, value) :: rest, (reconcile A key value m).1, (reconcile A key value m).2) := by
  simp only [finishLoop, hs, Bool.not_true, Bool.false_eq_true, if_false]

/-- The four ways one iteration of the loop of `FinishCollection` can go. -/
theorem finishLoop_cases (A : Aggregators α) (finished : Int) (key : stateKey)
    (value : stateValue) (m : Memory α) :
    (value.stateful = false ∧ value.updated ≠ finished) ∨
    (value.stateful = false ∧ value.updated = finished) ∨
    (value.stateful = true ∧ (reconcile A key value m).2 = .ok) ∨
    (value.stateful = true ∧ (reconcile A key value m).2 ≠ .ok) := by
  cases hs : value.stateful
  · by_cases hu : value.updated = finished
    · exact Or.inr (Or.inl ⟨rfl, hu⟩)
    · exact Or.inl ⟨rfl, hu⟩
  · by_cases hr : (reconcile A key value m).2 = .ok
    · exact Or.inr (Or.inr (Or.inl ⟨rfl, hr⟩))
    · exact Or.inr (Or.inr (Or.inr ⟨rfl, hr⟩))

/-- The loop of `FinishCollection` only deletes records: what is left is a sublist of
the records in iteration order, each as it was. -/
theorem finishLoop_sublist (A : Aggregators α) (finished : Int)
    (values : List (stateKey × stateValue)) :
    ∀ m : Memory α, (finishLoop A finished values m).1.Sublist values := by
  induction values with
  | nil => intro m; simp [finishLoop]
  | cons entry rest ih =>
    intro m
    obtain ⟨key, value⟩ := entry
    rcases finishLoop_cases A finished key value m with h | h | h | h
    · rw [finishLoop_delete A finished key value rest m h.1 h.2]
      exact (ih m).cons _
    · rw [finishLoop_keep A finished key value rest m h.1 h.2]
      exact (ih m).cons₂ _
    · rw [finishLoop_continue A finished key value rest m h.1 h.2]
      exact (ih _).cons₂ _
    · rw [finishLoop_stop A finished key value rest m h.1 h.2]

/-- A record that is stateful, or was reported in the round being finished, is still in
the map after the loop of `FinishCollection`, as it was. -/
theorem finishLoop_lookup_kept (A : Aggregators α) (finished : Int) (key : stateKey)
    (value : stateValue) (hkeep : value.stateful = true ∨ value.updated = finished)
    (values : List (stateKey × stateValue)) :
    ∀ m : Memory α, lookup key values = some value →
    lookup key (finishLoop A finished values m).1 = some value := by
  induction values with
  | nil => intro m h; simp [lookup] at h
  | cons entry rest ih =>
    intro m hl
    obtain ⟨k, v⟩ := entry
    by_cases hk : k = key
    · subst hk
      have hv : v = value := by simpa [lookup] using hl
      subst hv
      rcases finishLoop_cases A finished k v m with h | h | h | h
      · rcases hkeep with hs | hu
        · rw [hs] at h
          exact absurd h.1 (by simp)
        · exact absurd hu h.2
      · rw [finishLoop_keep A finished k v rest m h.1 h.2]
        simp [lookup]
      · rw [finishLoop_continue A finished k v rest m h.1 h.2]
        simp [lookup]
      · rw [finishLoop_stop A finished k v rest m h.1 h.2]
        simp [lookup]
    · have hl2 : lookup key rest = some value := by simpa [lookup, hk] using hl
      rcases finishLoop_cases A finished k v m with h | h | h | h
      · rw [finishLoop_delete A finished k v rest m h.1 h.2]
        exact ih m hl2
      · rw [finishLoop_keep A finished k v rest m h.1 h.2]
        simpa [lookup, hk] using ih m hl2
      · rw [finishLoop_continue A finished k v rest m h.1 h.2]
        simpa [lookup, hk] using ih _ hl2
      · rw [finishLoop_stop A finished k v rest m h.1 h.2]
        simpa [lookup, hk] using hl2

theorem mem_store (key : stateKey) (value : stateValue)
    (values : List (stateKey × stateValue)) (e : stateKey × stateValue)
    (h : e ∈ store key value values) : e = (key, value) ∨ e ∈ values := by
  induction values with
  | nil => simpa [store] using h
  | cons entry rest ih =>
    obtain ⟨k, v⟩ := entry
    by_cases hk : k = key
    · simp only [store, hk, if_true, List.mem_cons] at h
      rcases h with h | h
      · exact Or.inl h
      · exact Or.inr (List.mem_cons_of_mem _ h)
    · simp only [store, hk, if_false, List.mem_cons] at h
      rcases h with h | h
      · exact Or.inr (by rw [h]; exact List.mem_cons_self _ _)
      · rcases ih h with h2 | h2
        · exact Or.inl h2
        · exact Or.inr (List.mem_cons_of_mem _ h2)

theorem store_keys (key : stateKey) (value : stateValue)
    (values : List (stateKey × stateValue)) :
    (store key value values).map Prod.fst =
      if (lookup key values).isSome then values.map Prod.fst
      else values.map Prod.fst ++ [key] := by
  induction values with
  | nil => simp [store, lookup]
  | cons entry rest ih =>
    obtain ⟨k, v⟩ := entry
    by_cases hk : k = key
    · simp [store, lookup, hk]
    · simp only [store, lookup, hk, if_false, List.map_cons, ih]
      split <;> simp

theorem lookup_none_not_mem (key : stateKey) (values : List (stateKey × stateValue))
    (h : lookup key values = none) : key ∉ values.map Prod.fst := by
  induction values with
  | nil => simp
  | cons entry rest ih =>
    obtain ⟨k, v⟩ := entry
    by_cases hk : k = key
    · simp [lookup, hk] at h
    · simp only [lookup, hk, if_false] at h
      simp only [List.map_cons, List.mem_cons, not_or]
      exact ⟨fun e => hk e.symm, ih h⟩

/-- Writing a record into the map keeps the keys of the map distinct. -/
theorem store_nodup (key : stateKey) (value : stateValue)
    (values : List (stateKey × stateValue)) (h : (values.map Prod.fst).Nodup) :
    ((store key value values).map Prod.fst).Nodup := by
  rw [store_keys]
  cases hl : lookup key values with
  | some found => simpa using h
  | none =>
    simp only [Option.isSome_none, Bool.false_eq_true, if_false]
    rw [List.nodup_append]
    refine ⟨h, by simp, ?_⟩
    intro a ha hb
    simp only [List.mem_singleton] at hb
    subst hb
    exact lookup_none_not_mem _ values hl ha

/-- An `int64` counter differs from its successor. -/
theorem ne_wrapInt64_succ (x : Int) : x ≠ wrapInt64 (x + 1) := by
  unfold wrapInt64
  omega

/-- The call `FinishCollection` in an active round. -/
theorem FinishCollection_active (A : Aggregators α) (b : Integrator α) (m : Memory α)
    (now : Time)
    (hactive : b.state.startedCollection = wrapInt64 (b.state.finishedCollection + 1)) :
    FinishCollection A b m now =
      ⟨{ b with state :=
          { b.state with
            intervalEnd := now
            values := (finishLoop A b.state.finishedCollection b.state.values m).1
            finishedCollection := wrapInt64 (b.state.finishedCollection + 1) } },
        (finishLoop A b.state.finishedCollection b.state.values m).2.1,
        (finishLoop A b.state.finishedCollection b.state.values m).2.2⟩ := by
  simp [FinishCollection, hactive]

/-- What `StartCollection` changes: the start counter is incremented; and what it does
not change. -/
theorem StartCollection_frame (b : Integrator α) :
    (StartCollection b).state.startedCollection = wrapInt64 (b.state.startedCollection + 1) ∧
    (StartCollection b).state.finishedCollection = b.state.finishedCollection ∧
    (StartCollection b).state.values = b.state.values ∧
    (StartCollection b).state.processStart = b.state.processStart ∧
    (StartCollection b).state.intervalEnd = b.state.intervalEnd ∧
    (StartCollection b).ExportKindFor = b.ExportKindFor ∧
    (StartCollection b).AggregatorFor = b.AggregatorFor :=
  ⟨rfl, rfl, rfl, rfl, rfl, rfl, rfl⟩

/-- When the `switch` of `ForEach` selects an aggregation and a start time for an entry,
the record built from them is the one the specification describes. -/
theorem selectAggregation_exported (A : Aggregators α) (b : state) (m : Memory α)
    (exporter : ExportKindSelector) (key : stateKey) (value : stateValue)
    (agg : Aggregation α) (start : Time)
    (h : selectAggregation b m (exporter key.descriptor (A.kind (m.read value.current)))
      key value = .ok (agg, start)) :
    Exported A b m exporter (key, value)
      (key, NewRecord key.descriptor value.labels value.resource agg start b.intervalEnd) := by
  refine ⟨rfl, rfl, rfl, rfl, rfl, ?_⟩
  dsimp only
  cases hk : exporter key.descriptor (A.kind (m.read value.current)) with
  | PassThroughExporter =>
    rw [hk] at h
    dsimp only
    simp only [selectAggregation, Except.ok.injEq, Prod.mk.injEq] at h
    exact ⟨h.1.symm, h.2.symm⟩
  | CumulativeExporter =>
    rw [hk] at h
    dsimp only
    simp only [selectAggregation] at h
    by_cases hs : value.stateful = true
    · rw [if_pos hs] at h
      rw [if_pos hs]
      cases hc : value.cumulative with
      | none => rw [hc] at h; simp [Memory.viewOf, Except.map] at h
      | some c =>
        rw [hc] at h
        simp only [Memory.viewOf, Except.map, Except.ok.injEq, Prod.mk.injEq] at h
        exact ⟨⟨c, rfl, h.1.symm⟩, h.2.symm⟩
    · rw [if_neg hs] at h
      rw [if_neg hs]
      simp only [Except.ok.injEq, Prod.mk.injEq] at h
      exact ⟨h.1.symm, h.2.symm⟩
  | DeltaExporter =>
    rw [hk] at h
    dsimp only
    simp only [selectAggregation] at h
    by_cases hp : key.descriptor.precomputedSum = true
    · rw [if_pos hp] at h
      rw [if_pos hp]
      cases hd : value.delta with
      | none => rw [hd] at h; simp [Memory.viewOf, Except.map] at h
      | some d =>
        rw [hd] at h
        simp only [Memory.viewOf, Except.map, Except.ok.injEq, Prod.mk.injEq] at h
        exact ⟨⟨d, rfl, h.1.symm⟩, h.2.symm⟩
    · rw [if_neg hp] at h
      rw [if_neg hp]
      simp only [Except.ok.injEq, Prod.mk.injEq] at h
      exact ⟨h.1.symm, h.2.symm⟩
  | other code =>
    rw [hk] at h
    simp [selectAggregation] at h

/-- When the specification describes a record for an entry, the `switch` of `ForEach`
selects an aggregation and a start time for it. -/
theorem selectAggregation_of_exported (A : Aggregators α) (b : state) (m : Memory α)
    (exporter : ExportKindSelector) (key : stateKey) (value : stateValue)
    (call : stateKey × Record α) (h : Exported A b m exporter (key, value) call) :
    ∃ selected, selectAggregation b m
      (exporter key.descriptor (A.kind (m.read value.current))) key value = .ok selected := by
  obtain ⟨-, -, -, -, -, h⟩ := h
  dsimp only at h
  cases hk : exporter key.descriptor (A.kind (m.read value.current)) with
  | PassThroughExporter => exact ⟨_, rfl⟩
  | CumulativeExporter =>
    rw [hk] at h
    dsimp only at h
    by_cases hs : value.stateful = true
    · rw [if_pos hs] at h
      obtain ⟨⟨c, hc, -⟩, -⟩ := h
      simp [selectAggregation, hs, hc, Memory.viewOf, Except.map]
    · simp [selectAggregation, hs]
  | DeltaExporter =>
    rw [hk] at h
    dsimp only at h
    by_cases hp : key.descriptor.precomputedSum = true
    · rw [if_pos hp] at h
      obtain ⟨⟨d, hd, -⟩, -⟩ := h
      simp [selectAggregation, hp, hd, Memory.viewOf, Except.map]
    · simp [selectAggregation, hp]
  | other code =>
    rw [hk] at h
    exact h.elim

/-- The calls that the loop of `ForEach` makes are, in order, for the first entries of
the iteration, one call per entry, each with the record the specification describes. -/
theorem forEachLoop_exports (A : Aggregators α) (b : state) (m : Memory α)
    (exporter : ExportKindSelector) (f : σ → Record α → σ × Option Error)
    (values : List (stateKey × stateValue)) :
    ∀ s : σ, List.Forall₂ (Exported A b m exporter)
      (values.take (forEachLoop A b m exporter f values s).visited.length)
      (forEachLoop A b m exporter f values s).visited := by
  induction values with
  | nil => intro s; simp [forEachLoop]
  | cons entry rest ih =>
    intro s
    obtain ⟨key, value⟩ := entry
    cases hsel : selectAggregation b m (exporter key.descriptor (A.kind (m.read value.current)))
        key value with
    | error stop => simp [forEachLoop, hsel]
    | ok selected =>
      obtain ⟨agg, start⟩ := selected
      have hexp := selectAggregation_exported A b m exporter key value agg start hsel
      cases hcall : (f s (NewRecord key.descriptor value.labels value.resource agg start
          b.intervalEnd)).2 with
      | none =>
        simp only [forEachLoop, hsel, hcall, List.length_cons, List.take_succ_cons]
        exact List.Forall₂.cons hexp (ih _)
      | some err =>
        by_cases hno : err.is .ErrNoData = true
        · simp only [forEachLoop, hsel, hcall, hno, Bool.not_true, Bool.false_eq_true,
            if_false, List.length_cons, List.take_succ_cons]
          exact List.Forall₂.cons hexp (ih _)
        · simp only [forEachLoop, hsel, hcall, hno, Bool.not_false, if_true,
            List.length_cons, List.length_nil, List.take_succ_cons, List.take_zero]
          exact List.Forall₂.cons hexp List.Forall₂.nil

/-- When the visiting function returns nothing but nil and `ErrNoData`, and the
specification describes a record for every entry, the loop of `ForEach` calls the
visiting function for every entry and returns nil. -/
theorem forEachLoop_complete (A : Aggregators α) (b : state) (m : Memory α)
    (exporter : ExportKindSelector) (f : σ → Record α → σ × Option Error)
    (hvisit : ∀ s record e, (f s record).2 = some e → e.is .ErrNoData = true)
    (values : List (stateKey × stateValue)) :
    ∀ s : σ, (∀ entry ∈ values, ∃ call, Exported A b m exporter entry call) →
      (forEachLoop A b m exporter f values s).visited.length = values.length ∧
      (forEachLoop A b m exporter f values s).result = .ok := by
  induction values with
  | nil => intro s _; simp [forEachLoop]
  | cons entry rest ih =>
    intro s hall
    obtain ⟨key, value⟩ := entry
    obtain ⟨call, hcallexp⟩ := hall (key, value) (List.mem_cons_self _ _)
    obtain ⟨selected, hsel⟩ := selectAggregation_of_exported A b m exporter key value call
      hcallexp
    obtain ⟨agg, start⟩ := selected
    have hrest := fun s2 => ih s2 (fun e he => hall e (List.mem_cons_of_mem _ he))
    cases hcall : (f s (NewRecord key.descriptor value.labels value.resource agg start
        b.intervalEnd)).2 with
    | none =>
      simp only [forEachLoop, hsel, hcall, List.length_cons]
      exact ⟨by rw [(hrest _).1], (hrest _).2⟩
    | some err =>
      have hno := hvisit _ _ _ hcall
      simp only [forEachLoop, hsel, hcall, hno, Bool.not_true, Bool.false_eq_true,
        if_false, List.length_cons]
      exact ⟨by rw [(hrest _).1], (hrest _).2⟩

/-- C10: between rounds (`startedCollection == finishedCollection`) the calls that
`ForEach` makes to the visiting function are, in iteration order, one per record, each
with the record that the specification describes (`Exported`): descriptor of the key,
labels and resource of the record, end = `intervalEnd`, and the aggregation and start
time chosen by export kind.  When nothing stops the iteration (the visiting function
returns only nil or `ErrNoData`, the kinds are among the three and the aggregators
selected exist), every record of the map is passed so and `ForEach` returns nil. -/
theorem ForEach_exports (A : Aggregators α) (b : state) (m : Memory α)
    (exporter : ExportKindSelector) (f : σ → Record α → σ × Option Error) (s : σ)
    (hbetween : b.startedCollection = b.finishedCollection) :
    List.Forall₂ (Exported A b m exporter)
      (b.values.take (ForEach A b m exporter f s).visited.length)
      (ForEach A b m exporter f s).visited ∧
    ((∀ s2 record e, (f s2 record).2 = some e → e.is .ErrNoData = true) →
      (∀ entry ∈ b.values, ∃ call, Exported A b m exporter entry call) →
      List.Forall₂ (Exported A b m exporter) b.values (ForEach A b m exporter f s).visited ∧
      (ForEach A b m exporter f s).result = .ok) := by
  have hrun : ForEach A b m exporter f s = forEachLoop A b m exporter f b.values s := by
    simp [ForEach, hbetween]
  rw [hrun]
  refine ⟨forEachLoop_exports A b m exporter f b.values s, ?_⟩
  intro hvisit hall
  obtain ⟨hlen, hres⟩ := forEachLoop_complete A b m exporter f hvisit b.values s hall
  refine ⟨?_, hres⟩
  have h := forEachLoop_exports A b m exporter f b.values s
  rw [hlen, List.take_length] at h
  exact h

/-- Instance of C10: after a first round in which a counter reported, `ForEach` with a
pass-through kind makes its calls with the records the specification describes. -/
theorem ForEach_exports_witness :
    List.Forall₂
      (Exported sumAggregators
        (afterOneRound .PassThroughExporter counterDescriptor).integrator.state
        (afterOneRound .PassThroughExporter counterDescriptor).memory
        (constantSelector .PassThroughExporter))
      ((afterOneRound .PassThroughExporter counterDescriptor).integrator.state.values.take
        (ForEach sumAggregators
          (afterOneRound .PassThroughExporter counterDescriptor).integrator.state
          (afterOneRound .PassThroughExporter counterDescriptor).memory
          (constantSelector .PassThroughExporter) countingVisitor 0).visited.length)
      (ForEach sumAggregators
        (afterOneRound .PassThroughExporter counterDescriptor).integrator.state
        (afterOneRound .PassThroughExporter counterDescriptor).memory
        (constantSelector .PassThroughExporter) countingVisitor 0).visited ∧
    (ForEach sumAggregators
        (afterOneRound .PassThroughExporter counterDescriptor).integrator.state
        (afterOneRound .PassThroughExporter counterDescriptor).memory
        (constantSelector .PassThroughExporter) countingVisitor 0).visitor = 1 :=
  ⟨(ForEach_exports sumAggregators
      (afterOneRound .PassThroughExporter counterDescriptor).integrator.state
      (afterOneRound .PassThroughExporter counterDescriptor).memory
      (constantSelector .PassThroughExporter) countingVisitor 0 (by decide)).1, by decide⟩

/-! ## Records that were not reported in the round -/

theorem lookup_eq_none_of_not_mem (key : stateKey) (values : List (stateKey × stateValue))
    (h : key ∉ values.map Prod.fst) : lookup key values = none := by
  induction values with
  | nil => rfl
  | cons entry rest ih =>
    obtain ⟨k, v⟩ := entry
    simp only [List.map_cons, List.mem_cons, not_or] at h
    have hk : ¬ k = key := fun e => h.1 e.symm
    simp only [lookup, hk, if_false]
    exact ih h.2

/-- The loop of `FinishCollection`, when it runs to its end, deletes a record that is
not stateful and was not reported in the round being finished. -/
theorem finishLoop_deleted (A : Aggregators α) (finished : Int) (key : stateKey)
    (value : stateValue) (hs : value.stateful = false) (hu : value.updated ≠ finished)
    (values : List (stateKey × stateValue)) :
    ∀ m : Memory α, lookup key values = some value →
    (values.map Prod.fst).Nodup →
    (finishLoop A finished values m).2.2 = .ok →
    lookup key (finishLoop A finished values m).1 = none := by
  induction values with
  | nil => intro m h; simp [lookup] at h
  | cons entry rest ih =>
    intro m hl hnodup hres
    obtain ⟨k, v⟩ := entry
    simp only [List.map_cons, List.nodup_cons] at hnodup
    obtain ⟨hnotin, hnodup2⟩ := hnodup
    by_cases hk : k = key
    · subst hk
      have hv : v = value := by simpa [lookup] using hl
      subst hv
      rw [finishLoop_delete A finished k v rest m hs hu]
      apply lookup_eq_none_of_not_mem
      intro hin
      exact hnotin (((finishLoop_sublist A finished rest m).map Prod.fst).subset hin)
    · have hl2 : lookup key rest = some value := by simpa [lookup, hk] using hl
      rcases finishLoop_cases A finished k v m with h | h | h | h
      · rw [finishLoop_delete A finished k v rest m h.1 h.2] at hres ⊢
        exact ih m hl2 hnodup2 hres
      · rw [finishLoop_keep A finished k v rest m h.1 h.2] at hres ⊢
        simpa [lookup, hk] using ih m hl2 hnodup2 hres
      · rw [finishLoop_continue A finished k v rest m h.1 h.2] at hres ⊢
        simpa [lookup, hk] using ih _ hl2 hnodup2 hres
      · rw [finishLoop_stop A finished k v rest m h.1 h.2] at hres
        exact absurd hres h.2

/-- The only change `Process` makes to the map is a write under the key of the
accumulation. -/
theorem Process_values (A : Aggregators α) (b : Integrator α) (m : Memory α)
    (accum : Accumulation) :
    (Process A b m accum).integrator.state.values = b.state.values ∨
    ∃ value, (Process A b m accum).integrator.state.values
      = store accum.key value b.state.values := by
  unfold Process
  dsimp only
  split
  · exact Or.inl rfl
  · split
    · split
      · split <;> exact Or.inr ⟨_, rfl⟩
      · exact Or.inr ⟨_, rfl⟩
    · split
      · exact Or.inr ⟨_, rfl⟩
      · split
        · exact Or.inr ⟨_, rfl⟩
        · split
          · split <;> exact Or.inr ⟨_, rfl⟩
          · exact Or.inr ⟨_, rfl⟩

/-- `Process` leaves the records of the other keys as they are. -/
theorem Process_other_key (A : Aggregators α) (b : Integrator α) (m : Memory α)
    (accum : Accumulation) (key : stateKey) (h : key ≠ accum.key) :
    lookup key (Process A b m accum).integrator.state.values = lookup key b.state.values := by
  rcases Process_values A b m accum with hv | ⟨value, hv⟩
  · rw [hv]
  · rw [hv]
    exact lookup_store_other _ _ _ _ h

/-- `Process` keeps the keys of the map distinct. -/
theorem Process_nodup (A : Aggregators α) (b : Integrator α) (m : Memory α)
    (accum : Accumulation) (h : (b.state.values.map Prod.fst).Nodup) :
    ((Process A b m accum).integrator.state.values.map Prod.fst).Nodup := by
  rcases Process_values A b m accum with hv | ⟨value, hv⟩
  · rw [hv]
    exact h
  · rw [hv]
    exact store_nodup _ _ _ h

/-- In an active round `Process` leaves a record under the key of the accumulation whose
`updated` is the number of the round. -/
theorem Process_sets_updated (A : Aggregators α) (b : Integrator α) (m : Memory α)
    (accum : Accumulation)
    (hactive : b.state.startedCollection = wrapInt64 (b.state.finishedCollection + 1)) :
    ∃ value, lookup accum.key (Process A b m accum).integrator.state.values = some value ∧
      value.updated = b.state.finishedCollection := by
  by_cases hcase : accum.descriptor.asynchronous = true ∨
      ∀ found, lookup accum.key b.state.values = some found →
        found.updated ≠ b.state.finishedCollection
  · obtain ⟨-, ⟨value, h1, -, h2⟩, -⟩ := Process_keeps_reference A b m accum hactive hcase
    exact ⟨value, h1, h2⟩
  · simp only [not_or, not_forall, Bool.not_eq_true, Classical.not_imp, not_not] at hcase
    obtain ⟨hsync, found, hfound, hsame⟩ := hcase
    rw [Process_merge A b m accum found hactive hfound hsame hsync]
    split
    · split
      · exact ⟨_, lookup_store_same _ _ _, hsame⟩
      · exact ⟨_, lookup_store_same _ _ _, hsame⟩
    · exact ⟨_, lookup_store_same _ _ _, hsame⟩

theorem ProcessAll_frame (A : Aggregators α) (accums : List Accumulation) :
    ∀ (b : Integrator α) (m : Memory α),
    (ProcessAll A b m accums).integrator.state.startedCollection = b.state.startedCollection ∧
    (ProcessAll A b m accums).integrator.state.finishedCollection
      = b.state.finishedCollection := by
  induction accums with
  | nil => intro b m; exact ⟨rfl, rfl⟩
  | cons accum rest ih =>
    intro b m
    rw [ProcessAll_cons_integrator]
    have h := ih (Process A b m accum).integrator (Process A b m accum).memory
    have hf := Process_frame A b m accum
    exact ⟨h.1.trans hf.1, h.2.trans hf.2.1⟩

theorem ProcessAll_nodup (A : Aggregators α) (accums : List Accumulation) :
    ∀ (b : Integrator α) (m : Memory α), (b.state.values.map Prod.fst).Nodup →
    ((ProcessAll A b m accums).integrator.state.values.map Prod.fst).Nodup := by
  induction accums with
  | nil => intro b m h; exact h
  | cons accum rest ih =>
    intro b m h
    rw [ProcessAll_cons_integrator]
    exact ih _ _ (Process_nodup A b m accum h)

theorem ProcessAll_other_key (A : Aggregators α) (key : stateKey)
    (accums : List Accumulation) :
    ∀ (b : Integrator α) (m : Memory α), (∀ a ∈ accums, a.key ≠ key) →
    lookup key (ProcessAll A b m accums).integrator.state.values
      = lookup key b.state.values := by
  induction accums with
  | nil => intro b m _; rfl
  | cons accum rest ih =>
    intro b m h
    rw [ProcessAll_cons_integrator, ih _ _ (fun a ha => h a (List.mem_cons_of_mem _ ha))]
    exact Process_other_key A b m accum key (fun e => h accum (List.mem_cons_self _ _) e.symm)

/-- After the `Process` calls of an active round, a key that was reported has a record
whose `updated` is the number of the round. -/
theorem ProcessAll_reported (A : Aggregators α) (key : stateKey)
    (accums : List Accumulation) :
    ∀ (b : Integrator α) (m : Memory α),
    b.state.startedCollection = wrapInt64 (b.state.finishedCollection + 1) →
    (∃ a ∈ accums, a.key = key) →
    ∃ value, lookup key (ProcessAll A b m accums).integrator.state.values = some value ∧
      value.updated = b.state.finishedCollection := by
  induction accums with
  | nil => intro b m _ h; simp at h
  | cons accum rest ih =>
    intro b m hactive hin
    have hf := Process_frame A b m accum
    rw [ProcessAll_cons_integrator]
    by_cases hrest : ∃ a ∈ rest, a.key = key
    · obtain ⟨value, h1, h2⟩ := ih (Process A b m accum).integrator
        (Process A b m accum).memory (by rw [hf.1, hf.2.1]; exact hactive) hrest
      exact ⟨value, h1, by rw [h2, hf.2.1]⟩
    · have hk : accum.key = key := by
        obtain ⟨a, ha, hak⟩ := hin
        rcases List.mem_cons.mp ha with h | h
        · rw [← h]; exact hak
        · exact absurd ⟨a, h, hak⟩ hrest
      rw [ProcessAll_other_key A key rest _ _ (fun a ha hak => hrest ⟨a, ha, hak⟩)]
      rw [← hk]
      exact Process_sets_updated A b m accum hactive

/-- The keys for which the visiting function is called are the keys of the first
entries of the map, in iteration order. -/
theorem ForEach_visited_keys (A : Aggregators α) (b : state) (m : Memory α)
    (exporter : ExportKindSelector) (f : σ → Record α → σ × Option Error) (s : σ) :
    (ForEach A b m exporter f s).visited.map Prod.fst
      = (b.values.take (ForEach A b m exporter f s).visited.length).map Prod.fst := by
  by_cases hbetween : b.startedCollection = b.finishedCollection
  · have hrun : ForEach A b m exporter f s = forEachLoop A b m exporter f b.values s := by
      simp [ForEach, hbetween]
    have hexp := forEachLoop_exports A b m exporter f b.values s
    rw [← hrun] at hexp
    generalize (ForEach A b m exporter f s).visited = calls at hexp ⊢
    generalize b.values.take calls.length = entries at hexp
    induction hexp with
    | nil => rfl
    | cons hrel _ ih => simp only [List.map_cons, ih, hrel.1]
  · simp [ForEach, hbetween]

/-- The visiting function is not called for a key that the map does not hold. -/
theorem ForEach_not_visited (A : Aggregators α) (b : state) (m : Memory α)
    (exporter : ExportKindSelector) (f : σ → Record α → σ × Option Error) (s : σ)
    (key : stateKey) (h : lookup key b.values = none) :
    key ∉ (ForEach A b m exporter f s).visited.map Prod.fst := by
  rw [ForEach_visited_keys]
  intro hin
  exact lookup_none_not_mem key b.values h
    (((List.take_sublist _ _).map Prod.fst).subset hin)

/-- C8, as amended: when `FinishCollection` of an active round returns nil, every record
that is not stateful is deleted if it was not reported in that round (`updated !=
finishedCollection`) and is kept untouched otherwise.  Hence an identity that is
reported in one round and not in the next, and whose record is not stateful, has no
record after a `FinishCollection` of the next round that returns nil, and `ForEach`
does not call the visiting function for it.  (When the reconciliation of another
record fails, the loop stops and the records after it are not examined.) -/
theorem FinishCollection_evicts (A : Aggregators α) :
    (∀ (b : Integrator α) (m : Memory α) (now : Time) (key : stateKey) (value : stateValue),
      b.state.startedCollection = wrapInt64 (b.state.finishedCollection + 1) →
      (b.state.values.map Prod.fst).Nodup →
      lookup key b.state.values = some value →
      value.stateful = false →
      (FinishCollection A b m now).result = .ok →
      (value.updated ≠ b.state.finishedCollection →
        lookup key (FinishCollection A b m now).integrator.state.values = none) ∧
      (value.updated = b.state.finishedCollection →
        lookup key (FinishCollection A b m now).integrator.state.values = some value)) ∧
    (∀ (b : Integrator α) (m1 m2 : Memory α) (reported skipped : List Accumulation)
      (now1 now2 : Time) (key : stateKey),
      b.state.startedCollection = b.state.finishedCollection →
      (b.state.values.map Prod.fst).Nodup →
      (∃ a ∈ reported, a.key = key) →
      (∀ a ∈ skipped, a.key ≠ key) →
      (∀ value, lookup key (collectRound A b m1 reported now1).integrator.state.values
        = some value → value.stateful = false) →
      (collectRound A (collectRound A b m1 reported now1).integrator m2 skipped now2).result
        = .ok →
      lookup key (collectRound A (collectRound A b m1 reported now1).integrator m2 skipped
        now2).integrator.state.values = none ∧
      ∀ (τ : Type) (m3 : Memory α) (exporter : ExportKindSelector)
        (f : τ → Record α → τ × Option Error) (s : τ),
        key ∉ (ForEach A (collectRound A (collectRound A b m1 reported now1).integrator m2
          skipped now2).integrator.state m3 exporter f s).visited.map Prod.fst) := by
  have part1 : ∀ (b : Integrator α) (m : Memory α) (now : Time) (key : stateKey)
      (value : stateValue),
      b.state.startedCollection = wrapInt64 (b.state.finishedCollection + 1) →
      (b.state.values.map Prod.fst).Nodup →
      lookup key b.state.values = some value →
      value.stateful = false →
      (FinishCollection A b m now).result = .ok →
      (value.updated ≠ b.state.finishedCollection →
        lookup key (FinishCollection A b m now).integrator.state.values = none) ∧
      (value.updated = b.state.finishedCollection →
        lookup key (FinishCollection A b m now).integrator.state.values = some value) := by
    intro b m now key value hactive hnodup hfound hs hok
    rw [FinishCollection_active A b m now hactive] at hok ⊢
    dsimp only at hok ⊢
    exact ⟨fun hu => finishLoop_deleted A _ key value hs hu _ m hfound hnodup hok,
      fun hu => finishLoop_lookup_kept A _ key value (Or.inr hu) _ m hfound⟩
  refine ⟨part1, ?_⟩
  intro b m1 m2 reported skipped now1 now2 key hbetween hnodup hreported hskipped hplain hok
  -- the first round
  have hstart := StartCollection_frame b
  have hactive1 : (StartCollection b).state.startedCollection
      = wrapInt64 ((StartCollection b).state.finishedCollection + 1) := by
    rw [hstart.1, hstart.2.1, hbetween]
  obtain ⟨value, hl1, hu1⟩ := ProcessAll_reported A key reported (StartCollection b) m1
    hactive1 hreported
  have hf1 := ProcessAll_frame A reported (StartCollection b) m1
  have hn1 := ProcessAll_nodup A reported (StartCollection b) m1
    (by rw [hstart.2.2.1]; exact hnodup)
  have hactive1b : (ProcessAll A (StartCollection b) m1 reported).integrator.state.startedCollection
      = wrapInt64 ((ProcessAll A (StartCollection b) m1
        reported).integrator.state.finishedCollection + 1) := by
    rw [hf1.1, hf1.2]
    exact hactive1
  have hround1 : collectRound A b m1 reported now1 = FinishCollection A
      (ProcessAll A (StartCollection b) m1 reported).integrator
      (ProcessAll A (StartCollection b) m1 reported).memory now1 := rfl
  have hfin1 := FinishCollection_active A _ (ProcessAll A (StartCollection b) m1
    reported).memory now1 hactive1b
  rw [← hround1] at hfin1
  have hkept : lookup key (collectRound A b m1 reported now1).integrator.state.values
      = some value := by
    rw [hfin1]
    exact finishLoop_lookup_kept A _ key value (Or.inr (by rw [hu1, hf1.2])) _ _ hl1
  have hbetween2 : (collectRound A b m1 reported now1).integrator.state.startedCollection
      = (collectRound A b m1 reported now1).integrator.state.finishedCollection := by
    rw [hfin1]
    exact hactive1b
  have hfinished2 : (collectRound A b m1 reported now1).integrator.state.finishedCollection
      = wrapInt64 (b.state.finishedCollection + 1) := by
    rw [hfin1]
    dsimp only
    rw [hf1.2, hstart.2.1]
  have hnodup2 : ((collectRound A b m1 reported now1).integrator.state.values.map
      Prod.fst).Nodup := by
    rw [hfin1]
    exact ((finishLoop_sublist A _ _ _).map Prod.fst).nodup hn1
  -- the second round
  generalize collectRound A b m1 reported now1 = after at hkept hbetween2 hfinished2 hnodup2 hplain hok ⊢
  have hstart2 := StartCollection_frame after.integrator
  have hactive2 : (StartCollection after.integrator).state.startedCollection
      = wrapInt64 ((StartCollection after.integrator).state.finishedCollection + 1) := by
    rw [hstart2.1, hstart2.2.1, hbetween2]
  have hf2 := ProcessAll_frame A skipped (StartCollection after.integrator) m2
  have hl2 : lookup key (ProcessAll A (StartCollection after.integrator) m2
      skipped).integrator.state.values = some value := by
    rw [ProcessAll_other_key A key skipped _ _ hskipped, hstart2.2.2.1]
    exact hkept
  have hn2 := ProcessAll_nodup A skipped (StartCollection after.integrator) m2
    (by rw [hstart2.2.2.1]; exact hnodup2)
  have hround2 : collectRound A after.integrator m2 skipped now2 = FinishCollection A
      (ProcessAll A (StartCollection after.integrator) m2 skipped).integrator
      (ProcessAll A (StartCollection after.integrator) m2 skipped).memory now2 := rfl
  rw [hround2] at hok ⊢
  have hgone := (part1 _ _ now2 key value (by rw [hf2.1, hf2.2]; exact hactive2) hn2 hl2
    (hplain value hkept) hok).1
    (by
      rw [hf2.2, hstart2.2.1, hfinished2, hu1, hstart.2.1]
      exact ne_wrapInt64_succ _)
  exact ⟨hgone, fun τ m3 exporter f s => ForEach_not_visited A _ m3 exporter f s key hgone⟩

/-- Counterexample to C8 as stated: in `staleRoundStarted` the round is active and the
record of the counter is not stateful and was not reported in the round, yet
`FinishCollection` keeps it: the reconciliation of the sum observer, which comes first,
fails with `ErrNoSubtraction` and the loop returns before the counter is examined.
`ForEach` then calls the visiting function for the counter. -/
theorem FinishCollection_evicts_counterexample :
    staleRoundStarted.integrator.state.startedCollection
      = wrapInt64 (staleRoundStarted.integrator.state.finishedCollection + 1) ∧
    lookup (accumulationOf counterDescriptor 1).key
      staleRoundStarted.integrator.state.values = some staleCounterRecord ∧
    staleCounterRecord.stateful = false ∧
    staleCounterRecord.updated ≠ staleRoundStarted.integrator.state.finishedCollection ∧
    staleRoundFinished.result = .err .ErrNoSubtraction ∧
    lookup (accumulationOf counterDescriptor 1).key
      staleRoundFinished.integrator.state.values = some staleCounterRecord ∧
    (accumulationOf counterDescriptor 1).key ∈
      (ForEach plainAggregators staleRoundFinished.integrator.state staleRoundFinished.memory
        (constantSelector .DeltaExporter) countingVisitor 0).visited.map Prod.fst := by
  refine ⟨by decide, by decide, by decide, by decide, by decide, by decide, by decide⟩

/-- Instance of C8 as amended: a counter under a pass-through kind is reported in the
first round of a new integrator and not in the second; after the second round it has no
record and `ForEach` does not visit it. -/
theorem FinishCollection_evicts_witness :
    lookup (accumulationOf counterDescriptor 0).key
      (collectRound sumAggregators
        (collectRound sumAggregators (New sumSelector (constantSelector .PassThroughExporter) 5)
          (memoryOf [2]) [accumulationOf counterDescriptor 0] 10).integrator
        (memoryOf [2]) [] 20).integrator.state.values = none ∧
    (accumulationOf counterDescriptor 0).key ∉
      (ForEach sumAggregators
        (collectRound sumAggregators
          (collectRound sumAggregators
            (New sumSelector (constantSelector .PassThroughExporter) 5)
            (memoryOf [2]) [accumulationOf counterDescriptor 0] 10).integrator
          (memoryOf [2]) [] 20).integrator.state
        (memoryOf [2]) (constantSelector .PassThroughExporter) countingVisitor
        0).visited.map Prod.fst :=
  ⟨((FinishCollection_evicts sumAggregators).2
      (New sumSelector (constantSelector .PassThroughExporter) 5) (memoryOf [2]) (memoryOf [2])
      [accumulationOf counterDescriptor 0] [] 10 20 (accumulationOf counterDescriptor 0).key
      (by decide) (by decide) (by decide) (by decide)
      (by
        intro value h
        have h2 : some { staleCounterRecord with current := .accumulator 0 } = some value := by
          rw [← h]
          decide
        rw [← Option.some.inj h2]
        rfl)
      (by decide)).1,
    ((FinishCollection_evicts sumAggregators).2
      (New sumSelector (constantSelector .PassThroughExporter) 5) (memoryOf [2]) (memoryOf [2])
      [accumulationOf counterDescriptor 0] [] 10 20 (accumulationOf counterDescriptor 0).key
      (by decide) (by decide) (by decide) (by decide)
      (by
        intro value h
        have h2 : some { staleCounterRecord with current := .accumulator 0 } = some value := by
          rw [← h]
          decide
        rw [← Option.some.inj h2]
        rfl)
      (by decide)).2 Nat (memoryOf [2]) (constantSelector .PassThroughExporter)
      countingVisitor 0⟩

/-! ## Stateful records that were not reported in the round -/

/-- C9, evaluated on the code.  A counter under a cumulative export kind reports 2 in the
first round of a new integrator and nothing in the second.  Its record is stateful and
is still present after the second `FinishCollection`, which returns nil, but the
cumulative aggregator (number 0) holds 2 after the first round and 4 after the second:
the loop of `FinishCollection` merges the aggregator that the record still refers to
from the first round once more.  For a sum observer under a delta export kind that
reports 2 and then nothing, the cumulative aggregator holds 2 after the first round and
0 after the second. -/
theorem FinishCollection_stale_cumulative :
    (lookup (accumulationOf counterDescriptor 0).key
        (afterOneRound .CumulativeExporter counterDescriptor).integrator.state.values).map
      (fun value => (value.stateful, value.cumulative)) = some (true, some 0) ∧
    (afterOneRound .CumulativeExporter counterDescriptor).result = .ok ∧
    (afterOneRound .CumulativeExporter counterDescriptor).memory.integrator 0 = 2 ∧
    (afterStaleRound .CumulativeExporter counterDescriptor).result = .ok ∧
    lookup (accumulationOf counterDescriptor 0).key
        (afterStaleRound .CumulativeExporter counterDescriptor).integrator.state.values
      = lookup (accumulationOf counterDescriptor 0).key
        (afterOneRound .CumulativeExporter counterDescriptor).integrator.state.values ∧
    (afterStaleRound .CumulativeExporter counterDescriptor).memory.integrator 0 = 4 ∧
    (lookup (accumulationOf sumObserverDescriptor 0).key
        (afterStaleRound .DeltaExporter sumObserverDescriptor).integrator.state.values).map
      (fun value => (value.stateful, value.cumulative)) = some (true, some 0) ∧
    (afterStaleRound .DeltaExporter sumObserverDescriptor).result = .ok ∧
    (afterOneRound .DeltaExporter sumObserverDescriptor).memory.integrator 0 = 2 ∧
    (afterStaleRound .DeltaExporter sumObserverDescriptor).memory.integrator 0 = 0 := by
  refine ⟨by decide, by decide, by decide, by decide, by decide, by decide, by decide,
    by decide, by decide, by decide⟩

/-! ## Errors of the visiting function -/

/-- One iteration of the loop of `ForEach` for which the `switch` ends the call. -/
theorem forEachLoop_cons_error (A : Aggregators α) (b : state) (m : Memory α)
    (exporter : ExportKindSelector) (f : σ → Record α → σ × Option Error)
    (key : stateKey) (value : stateValue) (rest : List (stateKey × stateValue)) (s : σ)
    (stop : Result)
    (hsel : selectAggregation b m (exporter key.descriptor (A.kind (m.read value.current)))
      key value = .error stop) :
    forEachLoop A b m exporter f ((key, value) :: rest) s = ⟨s, [], stop⟩ := by
  simp [forEachLoop, hsel]

/-- One iteration of the loop of `ForEach` in which the visiting function returns nil or
an error that is `ErrNoData`: the loop goes on with the next record. -/
theorem forEachLoop_cons_continue (A : Aggregators α) (b : state) (m : Memory α)
    (exporter : ExportKindSelector) (f : σ → Record α → σ × Option Error)
    (key : stateKey) (value : stateValue) (rest : List (stateKey × stateValue)) (s : σ)
    (agg : Aggregation α) (start : Time)
    (hsel : selectAggregation b m (exporter key.descriptor (A.kind (m.read value.current)))
      key value = .ok (agg, start))
    (hcall : ∀ e, (f s (NewRecord key.descriptor value.labels value.resource agg start
      b.intervalEnd)).2 = some e → e.is .ErrNoData = true) :
    forEachLoop A b m exporter f ((key, value) :: rest) s =
      ⟨(forEachLoop A b m exporter f rest
          (f s (NewRecord key.descriptor value.labels value.resource agg start
            b.intervalEnd)).1).visitor,
        (key, NewRecord key.descriptor value.labels value.resource agg start b.intervalEnd) ::
          (forEachLoop A b m exporter f rest
            (f s (NewRecord key.descriptor value.labels value.resource agg start
              b.intervalEnd)).1).visited,
        (forEachLoop A b m exporter f rest
          (f s (NewRecord key.descriptor value.labels value.resource agg start
            b.intervalEnd)).1).result⟩ := by
  cases hc : (f s (NewRecord key.descriptor value.labels value.resource agg start
      b.intervalEnd)).2 with
  | none => simp [forEachLoop, hsel, hc]
  | some e => simp [forEachLoop, hsel, hc, hcall e hc]

/-- One iteration of the loop of `ForEach` in which the visiting function returns an
error that is not `ErrNoData`: the loop ends with that error. -/
theorem forEachLoop_cons_stop (A : Aggregators α) (b : state) (m : Memory α)
    (exporter : ExportKindSelector) (f : σ → Record α → σ × Option Error)
    (key : stateKey) (value : stateValue) (rest : List (stateKey × stateValue)) (s : σ)
    (agg : Aggregation α) (start : Time) (e : Error)
    (hsel : selectAggregation b m (exporter key.descriptor (A.kind (m.read value.current)))
      key value = .ok (agg, start))
    (hcall : (f s (NewRecord key.descriptor value.labels value.resource agg start
      b.intervalEnd)).2 = some e)
    (hno : e.is .ErrNoData = false) :
    forEachLoop A b m exporter f ((key, value) :: rest) s =
      ⟨(f s (NewRecord key.descriptor value.labels value.resource agg start
          b.intervalEnd)).1,
        [(key, NewRecord key.descriptor value.labels value.resource agg start b.intervalEnd)],
        .err e⟩ := by
  simp [forEachLoop, hsel, hcall, hno]

/-- The loop of `ForEach` over two stretches of records: when the first stretch is run
to its end the loop goes on with the second, otherwise it ends where the first stretch
ends it. -/
theorem forEachLoop_append (A : Aggregators α) (b : state) (m : Memory α)
    (exporter : ExportKindSelector) (f : σ → Record α → σ × Option Error)
    (pre rest : List (stateKey × stateValue)) :
    ∀ s : σ, forEachLoop A b m exporter f (pre ++ rest) s =
      if (forEachLoop A b m exporter f pre s).result = .ok then
        ⟨(forEachLoop A b m exporter f rest
            (forEachLoop A b m exporter f pre s).visitor).visitor,
          (forEachLoop A b m exporter f pre s).visited ++
            (forEachLoop A b m exporter f rest
              (forEachLoop A b m exporter f pre s).visitor).visited,
          (forEachLoop A b m exporter f rest
            (forEachLoop A b m exporter f pre s).visitor).result⟩
      else forEachLoop A b m exporter f pre s := by
  induction pre with
  | nil => intro s; simp [forEachLoop]
  | cons entry pre ih =>
    intro s
    obtain ⟨key, value⟩ := entry
    rw [List.cons_append]
    cases hsel : selectAggregation b m (exporter key.descriptor (A.kind (m.read value.current)))
        key value with
    | error stop =>
      rw [forEachLoop_cons_error A b m exporter f key value _ s stop hsel,
        forEachLoop_cons_error A b m exporter f key value _ s stop hsel]
      by_cases hstop : stop = .ok
      · subst hstop
        exfalso
        unfold selectAggregation at hsel
        split at hsel
        · simp at hsel
        · split at hsel
          · cases hc : value.cumulative <;> simp [hc, Memory.viewOf, Except.map] at hsel
          · simp at hsel
        · split at hsel
          · cases hd : value.delta <;> simp [hd, Memory.viewOf, Except.map] at hsel
          · simp at hsel
        · simp at hsel
      · simp [hstop]
    | ok selected =>
      obtain ⟨agg, start⟩ := selected
      by_cases hcall : ∀ e, (f s (NewRecord key.descriptor value.labels value.resource agg start
          b.intervalEnd)).2 = some e → e.is .ErrNoData = true
      · rw [forEachLoop_cons_continue A b m exporter f key value _ s agg start hsel hcall,
          forEachLoop_cons_continue A b m exporter f key value _ s agg start hsel hcall, ih]
        dsimp only
        split <;> simp
      · simp only [not_forall, Bool.not_eq_true, Classical.not_imp] at hcall
        obtain ⟨e, he, hno⟩ := hcall
        rw [forEachLoop_cons_stop A b m exporter f key value _ s agg start e hsel he hno,
          forEachLoop_cons_stop A b m exporter f key value _ s agg start e hsel he hno]
        simp
/-- How the `switch` of `ForEach` can end the call: with a nil aggregator, or with the
error that wraps `ErrInvalidExporterKind` for a kind that is none of the three. -/
theorem selectAggregation_error (b : state) (m : Memory α) (ekind : ExportKind)
    (key : stateKey) (value : stateValue) (stop : Result)
    (h : selectAggregation b m ekind key value = .error stop) :
    stop = .nilDereference ∨
    ∃ code, ekind = .other code ∧
      stop = .err (.wrapKind (.other code) .ErrInvalidExporterKind) := by
  unfold selectAggregation at h
  split at h
  · simp at h
  · split at h
    · cases hc : value.cumulative <;> simp [hc, Memory.viewOf, Except.map] at h
      exact Or.inl h.symm
    · simp at h
  · split at h
    · cases hd : value.delta <;> simp [hd, Memory.viewOf, Except.map] at h
      exact Or.inl h.symm
    · simp at h
  · rename_i code
    simp only [Except.error.injEq] at h
    exact Or.inr ⟨code, rfl, h.symm⟩

/-- The loop of `ForEach` never returns an error that is `ErrNoData`. -/
theorem forEachLoop_result_not_NoData (A : Aggregators α) (b : state) (m : Memory α)
    (exporter : ExportKindSelector) (f : σ → Record α → σ × Option Error)
    (values : List (stateKey × stateValue)) :
    ∀ (s : σ) (e : Error), (forEachLoop A b m exporter f values s).result = .err e →
      e.is .ErrNoData = false := by
  induction values with
  | nil => intro s e h; simp [forEachLoop] at h
  | cons entry rest ih =>
    intro s e h
    obtain ⟨key, value⟩ := entry
    cases hsel : selectAggregation b m (exporter key.descriptor (A.kind (m.read value.current)))
        key value with
    | error stop =>
      rw [forEachLoop_cons_error A b m exporter f key value _ s stop hsel] at h
      rcases selectAggregation_error b m _ key value stop hsel with hs | ⟨code, -, hs⟩
      · rw [hs] at h
        simp at h
      · rw [hs] at h
        simp only [Result.err.injEq] at h
        rw [← h]
        rfl
    | ok selected =>
      obtain ⟨agg, start⟩ := selected
      by_cases hcall : ∀ e, (f s (NewRecord key.descriptor value.labels value.resource agg start
          b.intervalEnd)).2 = some e → e.is .ErrNoData = true
      · rw [forEachLoop_cons_continue A b m exporter f key value _ s agg start hsel hcall] at h
        exact ih _ e h
      · simp only [not_forall, Bool.not_eq_true, Classical.not_imp] at hcall
        obtain ⟨e2, he, hno⟩ := hcall
        rw [forEachLoop_cons_stop A b m exporter f key value _ s agg start e2 hsel he hno] at h
        simp only [Result.err.injEq] at h
        rw [← h]
        exact hno

/-- C11, as amended: between rounds, at a record that the iteration reaches and for which
an aggregation is selected, (a) when the visiting function returns an error that is or
wraps `ErrNoData`, `ForEach` goes on with the remaining records and does not return that
error; (b) when it returns another error, `ForEach` makes no further call and returns
that very error; (c) when the visiting function returns nothing but nil and `ErrNoData`
and the specification describes a record for every entry (the kind is pass-through,
cumulative or delta and the aggregator it names exists), `ForEach` returns nil after one
call per record, in iteration order. -/
theorem ForEach_visit_errors (A : Aggregators α) (b : state) (m : Memory α)
    (exporter : ExportKindSelector) (f : σ → Record α → σ × Option Error) (s : σ)
    (hbetween : b.startedCollection = b.finishedCollection) :
    (∀ (pre post : List (stateKey × stateValue)) (key : stateKey) (value : stateValue)
      (agg : Aggregation α) (start : Time) (before after : Visits σ α) (record : Record α)
      (e : Error),
      b.values = pre ++ (key, value) :: post →
      before = forEachLoop A b m exporter f pre s →
      before.result = .ok →
      selectAggregation b m (exporter key.descriptor (A.kind (m.read value.current)))
        key value = .ok (agg, start) →
      record = NewRecord key.descriptor value.labels value.resource agg start b.intervalEnd →
      (f before.visitor record).2 = some e →
      after = forEachLoop A b m exporter f post (f before.visitor record).1 →
      (e.is .ErrNoData = true →
        ForEach A b m exporter f s =
          ⟨after.visitor, before.visited ++ (key, record) :: after.visited, after.result⟩ ∧
        (ForEach A b m exporter f s).result ≠ .err e) ∧
      (e.is .ErrNoData = false →
        ForEach A b m exporter f s =
          ⟨(f before.visitor record).1, before.visited ++ [(key, record)], .err e⟩)) ∧
    ((∀ s2 record e, (f s2 record).2 = some e → e.is .ErrNoData = true) →
      (∀ entry ∈ b.values, ∃ call, Exported A b m exporter entry call) →
      (ForEach A b m exporter f s).result = .ok ∧
      List.Forall₂ (Exported A b m exporter) b.values (ForEach A b m exporter f s).visited) := by
  have hrun : ForEach A b m exporter f s = forEachLoop A b m exporter f b.values s := by
    simp [ForEach, hbetween]
  rw [hrun]
  constructor
  · intro pre post key value agg start before after record e hvalues hbefore hok hsel hrecord
      hcall hafter
    rw [hvalues, forEachLoop_append, ← hbefore, if_pos hok]
    constructor
    · intro hno
      have hstep := forEachLoop_cons_continue A b m exporter f key value post before.visitor
        agg start hsel (by
          intro e2 he2
          rw [← hrecord, hcall] at he2
          rw [← Option.some.inj he2]
          exact hno)
      rw [← hrecord, ← hafter] at hstep
      rw [hstep]
      refine ⟨rfl, ?_⟩
      dsimp only
      intro hres
      have := forEachLoop_result_not_NoData A b m exporter f post _ e (by rw [← hafter]; exact hres)
      rw [hno] at this
      exact absurd this (by simp)
    · intro hno
      have hstep := forEachLoop_cons_stop A b m exporter f key value post before.visitor
        agg start e hsel (by rw [← hrecord]; exact hcall) hno
      rw [← hrecord] at hstep
      rw [hstep]
  · intro hvisit hall
    obtain ⟨hlen, hres⟩ := forEachLoop_complete A b m exporter f hvisit b.values s hall
    refine ⟨hres, ?_⟩
    have h := forEachLoop_exports A b m exporter f b.values s
    rw [hlen, List.take_length] at h
    exact h

/-- Counterexample to C11 as stated: after a first round in which a counter reported, a
visiting function that always returns nil, and a selector that returns a kind that is
none of the three.  `ForEach` is called between rounds on a map with one record, makes no
call of the visiting function and returns an error, although no visit returned one. -/
theorem ForEach_visit_errors_counterexample :
    (afterOneRound .PassThroughExporter counterDescriptor).integrator.state.startedCollection
      = (afterOneRound .PassThroughExporter
          counterDescriptor).integrator.state.finishedCollection ∧
    (afterOneRound .PassThroughExporter counterDescriptor).integrator.state.values.length = 1 ∧
    (∀ (n : Nat) (record : Record Int), (countingVisitor n record).2 = none) ∧
    (ForEach sumAggregators
      (afterOneRound .PassThroughExporter counterDescriptor).integrator.state
      (afterOneRound .PassThroughExporter counterDescriptor).memory
      (constantSelector (.other 0)) countingVisitor 0).result
        = .err (.wrapKind (.other 0) .ErrInvalidExporterKind) ∧
    (ForEach sumAggregators
      (afterOneRound .PassThroughExporter counterDescriptor).integrator.state
      (afterOneRound .PassThroughExporter counterDescriptor).memory
      (constantSelector (.other 0)) countingVisitor 0).visited.length = 0 :=
  ⟨by decide, by decide, fun _ _ => rfl, by decide, by decide⟩
/-- Instance of C11 as amended: after a first round in which a counter reported, a
visiting function that returns the error 7; `ForEach` returns that error. -/
theorem ForEach_visit_errors_witness :
    (ForEach sumAggregators
      (afterOneRound .PassThroughExporter counterDescriptor).integrator.state
      (afterOneRound .PassThroughExporter counterDescriptor).memory
      (constantSelector .PassThroughExporter) failingVisitor 0).result = .err (.other 7) :=
  congrArg Visits.result
    (((ForEach_visit_errors sumAggregators
      (afterOneRound .PassThroughExporter counterDescriptor).integrator.state
      (afterOneRound .PassThroughExporter counterDescriptor).memory
      (constantSelector .PassThroughExporter) failingVisitor 0 (by decide)).1 [] []
      (accumulationOf counterDescriptor 0).key
      { staleCounterRecord with current := .accumulator 0 }
      ((afterOneRound .PassThroughExporter counterDescriptor).memory.view (.accumulator 0)) 5
      _ _ _ (.other 7) (by decide) rfl rfl rfl rfl rfl rfl).2 (by decide))

/-! ## Export kinds that are none of the three -/

/-- When the loop of `ForEach` returns nil, the visiting function was called once for
every record, in iteration order. -/
theorem forEachLoop_ok_keys (A : Aggregators α) (b : state) (m : Memory α)
    (exporter : ExportKindSelector) (f : σ → Record α → σ × Option Error)
    (values : List (stateKey × stateValue)) :
    ∀ s : σ, (forEachLoop A b m exporter f values s).result = .ok →
      (forEachLoop A b m exporter f values s).visited.map Prod.fst = values.map Prod.fst := by
  induction values with
  | nil => intro s _; simp [forEachLoop]
  | cons entry rest ih =>
    intro s h
    obtain ⟨key, value⟩ := entry
    cases hsel : selectAggregation b m (exporter key.descriptor (A.kind (m.read value.current)))
        key value with
    | error stop =>
      rw [forEachLoop_cons_error A b m exporter f key value _ s stop hsel] at h
      rcases selectAggregation_error b m _ key value stop hsel with hs | ⟨code, -, hs⟩
      · rw [hs] at h
        simp at h
      · rw [hs] at h
        simp at h
    | ok selected =>
      obtain ⟨agg, start⟩ := selected
      by_cases hcall : ∀ e, (f s (NewRecord key.descriptor value.labels value.resource agg start
          b.intervalEnd)).2 = some e → e.is .ErrNoData = true
      · rw [forEachLoop_cons_continue A b m exporter f key value _ s agg start hsel hcall] at h ⊢
        simp only [List.map_cons]
        rw [ih _ h]
      · simp only [not_forall, Bool.not_eq_true, Classical.not_imp] at hcall
        obtain ⟨e2, he, hno⟩ := hcall
        rw [forEachLoop_cons_stop A b m exporter f key value _ s agg start e2 hsel he hno] at h
        simp at h

/-- The loop of `ForEach` makes at most one call per record. -/
theorem forEachLoop_visited_length (A : Aggregators α) (b : state) (m : Memory α)
    (exporter : ExportKindSelector) (f : σ → Record α → σ × Option Error)
    (values : List (stateKey × stateValue)) (s : σ) :
    (forEachLoop A b m exporter f values s).visited.length ≤ values.length := by
  have h := (forEachLoop_exports A b m exporter f values s).length_eq
  rw [List.length_take] at h
  omega

/-- C17, as amended: between rounds, let the export kind selector given to `ForEach`
return, for a record of the map, a kind that is none of pass-through, cumulative and
delta.  `ForEach` does not call the visiting function for that record or for any later
one and does not return nil.  When the iteration reaches the record (the loop over the
records before it runs to its end), `ForEach` returns an error that wraps
`ErrInvalidExporterKind` (`errors.Is` holds), having called the visiting function for
the records before it only.  When the iteration stops before the record, at an error of
the visiting function or at an earlier record, `ForEach` returns what stopped it
there. -/
theorem ForEach_invalid_kind (A : Aggregators α) (b : state) (m : Memory α)
    (exporter : ExportKindSelector) (f : σ → Record α → σ × Option Error) (s : σ)
    (pre post : List (stateKey × stateValue)) (key : stateKey) (value : stateValue)
    (code : Nat)
    (hbetween : b.startedCollection = b.finishedCollection)
    (hvalues : b.values = pre ++ (key, value) :: post)
    (hkind : exporter key.descriptor (A.kind (m.read value.current)) = .other code) :
    (ForEach A b m exporter f s).visited.length ≤ pre.length ∧
    (ForEach A b m exporter f s).result ≠ .ok ∧
    ((forEachLoop A b m exporter f pre s).result = .ok →
      (ForEach A b m exporter f s).result
        = .err (.wrapKind (.other code) .ErrInvalidExporterKind) ∧
      (Error.wrapKind (.other code) .ErrInvalidExporterKind).is .ErrInvalidExporterKind = true ∧
      (ForEach A b m exporter f s).visited.map Prod.fst = pre.map Prod.fst ∧
      (ForEach A b m exporter f s).visitor = (forEachLoop A b m exporter f pre s).visitor) ∧
    ((forEachLoop A b m exporter f pre s).result ≠ .ok →
      (ForEach A b m exporter f s).result = (forEachLoop A b m exporter f pre s).result ∧
      (ForEach A b m exporter f s).visited = (forEachLoop A b m exporter f pre s).visited ∧
      (ForEach A b m exporter f s).visitor = (forEachLoop A b m exporter f pre s).visitor) := by
  have hrun : ForEach A b m exporter f s = forEachLoop A b m exporter f b.values s := by
    simp [ForEach, hbetween]
  have hsel : selectAggregation b m (exporter key.descriptor (A.kind (m.read value.current)))
      key value = .error (.err (.wrapKind (.other code) .ErrInvalidExporterKind)) := by
    rw [hkind]
    rfl
  have hstep := forEachLoop_cons_error A b m exporter f key value post
    (forEachLoop A b m exporter f pre s).visitor _ hsel
  rw [hrun, hvalues, forEachLoop_append, hstep]
  by_cases hok : (forEachLoop A b m exporter f pre s).result = .ok
  · rw [if_pos hok]
    dsimp only
    have hkeys := forEachLoop_ok_keys A b m exporter f pre s hok
    refine ⟨?_, by simp, fun _ => ⟨rfl, rfl, by simpa using hkeys, rfl⟩,
      fun h => absurd hok h⟩
    have := congrArg List.length hkeys
    simp only [List.length_map] at this
    simp [this]
  · rw [if_neg hok]
    exact ⟨forEachLoop_visited_length A b m exporter f pre s, hok, fun h => absurd h hok,
      fun _ => ⟨rfl, rfl, rfl⟩⟩

/-- Instance of C17, as amended: in `twoInstruments`, with `invalidForSums` and a
visiting function that returns nil, the iteration visits the counter, comes to the sum
observer and returns the error that wraps `ErrInvalidExporterKind`. -/
theorem ForEach_invalid_kind_witness :
    (ForEach sumAggregators twoInstruments.integrator.state twoInstruments.memory
      invalidForSums countingVisitor 0).result
      = .err (.wrapKind (.other 3) .ErrInvalidExporterKind) ∧
    (ForEach sumAggregators twoInstruments.integrator.state twoInstruments.memory
      invalidForSums countingVisitor 0).visited.map Prod.fst
      = [(accumulationOf counterDescriptor 0).key] :=
  have h := (ForEach_invalid_kind sumAggregators twoInstruments.integrator.state
    twoInstruments.memory invalidForSums countingVisitor 0
    [((accumulationOf counterDescriptor 0).key,
      ⟨⟨70, 7⟩, ⟨90, 9⟩, 0, false, .accumulator 0, none, none⟩)] []
    (accumulationOf sumObserverDescriptor 1).key
    ⟨⟨70, 7⟩, ⟨90, 9⟩, 0, false, .accumulator 1, none, none⟩ 3
    (by decide) (by decide) (by decide)).2.2.1 (by decide)
  ⟨h.1, h.2.2.1⟩

/-- C17 as worded fails.  In `twoInstruments` the integrator is between rounds and the
map holds the record of a counter and, after it, the record of a sum observer, for which
`invalidForSums` returns a kind that is none of the three.  With a visiting function
that returns the error 7, `ForEach` calls it for the counter and returns that error,
which does not wrap `ErrInvalidExporterKind`; with a visiting function that returns nil
`ForEach` comes to the sum observer and returns the wrapping error. -/
theorem ForEach_invalid_kind_counterexample :
    twoInstruments.integrator.state.startedCollection
      = twoInstruments.integrator.state.finishedCollection ∧
    twoInstruments.integrator.state.values.map Prod.fst
      = [(accumulationOf counterDescriptor 0).key,
          (accumulationOf sumObserverDescriptor 1).key] ∧
    invalidForSums sumObserverDescriptor
      (sumAggregators.kind (twoInstruments.memory.read (.accumulator 1))) = .other 3 ∧
    (ForEach sumAggregators twoInstruments.integrator.state twoInstruments.memory
      invalidForSums failingVisitor 0).result = .err (.other 7) ∧
    (Error.other 7).is .ErrInvalidExporterKind = false ∧
    (ForEach sumAggregators twoInstruments.integrator.state twoInstruments.memory
      invalidForSums failingVisitor 0).visited.map Prod.fst
      = [(accumulationOf counterDescriptor 0).key] ∧
    (ForEach sumAggregators twoInstruments.integrator.state twoInstruments.memory
      invalidForSums countingVisitor 0).result
      = .err (.wrapKind (.other 3) .ErrInvalidExporterKind) :=
  ⟨by decide, by decide, by decide, by decide, by decide, by decide, by decide⟩

/-! ## Overlapping rounds -/

/-- Two increments of an `int64` counter never give the counter back. -/
theorem ne_wrapInt64_succ_succ (x : Int) : wrapInt64 (wrapInt64 (x + 1) + 1) ≠ x := by
  unfold wrapInt64
  omega

/-- C12, as amended: a `StartCollection` call issued while a round is already active is
not reported to the caller.  `StartCollection` returns nothing and has no guard: it
increments `startedCollection`, which leaves the store with an additional started round
and the records as they were.  The violation is reported by the call that follows:
`Process`, `FinishCollection` and `ForEach` each return `ErrInconsistentState`. -/
theorem StartCollection_overlapping (A : Aggregators α) (b : Integrator α) (m : Memory α)
    (accum : Accumulation) (now : Time) (exporter : ExportKindSelector)
    (f : σ → Record α → σ × Option Error) (s : σ)
    (hactive : b.state.startedCollection = wrapInt64 (b.state.finishedCollection + 1)) :
    (StartCollection b).state.startedCollection
      = wrapInt64 (wrapInt64 (b.state.finishedCollection + 1) + 1) ∧
    (StartCollection b).state.finishedCollection = b.state.finishedCollection ∧
    (StartCollection b).state.values = b.state.values ∧
    (StartCollection b).state.startedCollection
      ≠ wrapInt64 ((StartCollection b).state.finishedCollection + 1) ∧
    (Process A (StartCollection b) m accum).result = .err .ErrInconsistentState ∧
    (FinishCollection A (StartCollection b) m now).result = .err .ErrInconsistentState ∧
    (ForEach A (StartCollection b).state m exporter f s).result
      = .err .ErrInconsistentState := by
  have hstart := StartCollection_frame b
  have hne : (StartCollection b).state.startedCollection
      ≠ wrapInt64 ((StartCollection b).state.finishedCollection + 1) := by
    rw [hstart.1, hstart.2.1, hactive]
    exact fun h => ne_wrapInt64_succ _ h.symm
  have hne2 : (StartCollection b).state.startedCollection
      ≠ (StartCollection b).state.finishedCollection := by
    rw [hstart.1, hstart.2.1, hactive]
    exact ne_wrapInt64_succ_succ _
  refine ⟨by rw [hstart.1, hactive], hstart.2.1, hstart.2.2.1, hne, ?_, ?_, ?_⟩
  · simp [Process, hne]
  · have hne3 : ¬ (StartCollection b).state.startedCollection
        = wrapInt64 ((StartCollection b).state.finishedCollection + 1) := hne
    simp only [FinishCollection]
    rw [if_pos (by simpa using hne3)]
  · simp [ForEach, hne2]

/-- Counterexample to C12 as stated: a second `StartCollection` in the first round of a
new integrator.  The round is active before the call; the call, which has no result,
leaves two rounds started and none finished. -/
theorem StartCollection_overlapping_counterexample :
    (firstRound .PassThroughExporter).state.startedCollection
      = wrapInt64 ((firstRound .PassThroughExporter).state.finishedCollection + 1) ∧
    (StartCollection (firstRound .PassThroughExporter)).state.startedCollection = 2 ∧
    (StartCollection (firstRound .PassThroughExporter)).state.finishedCollection = 0 ∧
    (StartCollection (firstRound .PassThroughExporter)).state.values = [] :=
  ⟨by decide, by decide, by decide, by decide⟩

/-- Instance of C12 as amended: after a second `StartCollection` in the first round of a
new integrator, `FinishCollection` returns `ErrInconsistentState`. -/
theorem StartCollection_overlapping_witness :
    (FinishCollection sumAggregators (StartCollection (firstRound .PassThroughExporter))
      emptyMemory 9).result = .err .ErrInconsistentState :=
  (StartCollection_overlapping sumAggregators (firstRound .PassThroughExporter) emptyMemory
    (accumulationOf counterDescriptor 0) 9 (constantSelector .PassThroughExporter)
    countingVisitor 0 (by decide)).2.2.2.2.2.1

/-! ## Sequences of operations and the round counters -/

theorem performAll_cons_integrator (A : Aggregators α) (b : Integrator α) (m : Memory α)
    (op : Operation α σ) (rest : List (Operation α σ)) :
    (performAll A b m (op :: rest)).integrator =
      (performAll A (perform A b m op).integrator (perform A b m op).memory rest).integrator :=
  rfl

theorem performAll_cons_memory (A : Aggregators α) (b : Integrator α) (m : Memory α)
    (op : Operation α σ) (rest : List (Operation α σ)) :
    (performAll A b m (op :: rest)).memory =
      (performAll A (perform A b m op).integrator (perform A b m op).memory rest).memory :=
  rfl

theorem performAll_append_integrator (A : Aggregators α) (pre post : List (Operation α σ)) :
    ∀ (b : Integrator α) (m : Memory α),
    (performAll A b m (pre ++ post)).integrator =
      (performAll A (performAll A b m pre).integrator (performAll A b m pre).memory
        post).integrator := by
  induction pre with
  | nil => intro b m; rfl
  | cons op pre ih =>
    intro b m
    rw [List.cons_append, performAll_cons_integrator, ih]
    rfl

/-- What `FinishCollection` does to the round counters. -/
theorem FinishCollection_counters (A : Aggregators α) (b : Integrator α) (m : Memory α)
    (now : Time) :
    (FinishCollection A b m now).integrator.state.startedCollection
      = b.state.startedCollection ∧
    (FinishCollection A b m now).integrator.state.finishedCollection
      = (if b.state.startedCollection = wrapInt64 (b.state.finishedCollection + 1)
          then wrapInt64 (b.state.finishedCollection + 1) else b.state.finishedCollection) := by
  by_cases h : b.state.startedCollection = wrapInt64 (b.state.finishedCollection + 1)
  · simp [FinishCollection, h]
  · simp [FinishCollection, h]

/-- What each operation does to the round counters: `StartCollection` increments the
first, `FinishCollection` increments the second when the round is active, and nothing
else changes them. -/
theorem perform_counters (A : Aggregators α) (b : Integrator α) (m : Memory α)
    (op : Operation α σ) :
    (perform A b m op).integrator.state.startedCollection
      = (match op with
          | .start => wrapInt64 (b.state.startedCollection + 1)
          | _ => b.state.startedCollection) ∧
    (perform A b m op).integrator.state.finishedCollection
      = (match op with
          | .finish _ =>
            if b.state.startedCollection = wrapInt64 (b.state.finishedCollection + 1)
            then wrapInt64 (b.state.finishedCollection + 1) else b.state.finishedCollection
          | _ => b.state.finishedCollection) := by
  cases op with
  | start => exact ⟨rfl, rfl⟩
  | process accum => exact ⟨(Process_frame A b m accum).1, (Process_frame A b m accum).2.1⟩
  | finish now => exact FinishCollection_counters A b m now
  | forEach exporter f s => exact ⟨rfl, rfl⟩
  | checkpoint n a => exact ⟨rfl, rfl⟩

theorem starts_append (pre post : List (Operation α σ)) :
    starts (pre ++ post) = starts pre + starts post := by
  induction pre with
  | nil => simp [starts]
  | cons op pre ih => cases op <;> simp [starts, ih, Nat.add_right_comm]

theorem finishes_append (pre post : List (Operation α σ)) :
    finishes (pre ++ post) = finishes pre + finishes post := by
  induction pre with
  | nil => simp [finishes]
  | cons op pre ih => cases op <;> simp [finishes, ih, Nat.add_right_comm]

theorem alternating_append (pre post : List (Operation α σ)) :
    ∀ active : Bool, alternating active (pre ++ post) = true →
      alternating active pre = true ∧ alternating (activeAfter active pre) post = true := by
  induction pre with
  | nil => intro active h; exact ⟨by cases active <;> rfl, h⟩
  | cons op pre ih =>
    intro active h
    cases op with
    | start =>
      simp only [List.cons_append, alternating, Bool.and_eq_true, Bool.not_eq_true'] at h ⊢
      exact ⟨⟨h.1, (ih true h.2).1⟩, (ih true h.2).2⟩
    | process accum =>
      simp only [List.cons_append, alternating, Bool.and_eq_true] at h ⊢
      exact ⟨⟨h.1, (ih active h.2).1⟩, (ih active h.2).2⟩
    | finish now =>
      simp only [List.cons_append, alternating, Bool.and_eq_true] at h ⊢
      exact ⟨⟨h.1, (ih false h.2).1⟩, (ih false h.2).2⟩
    | forEach exporter f s =>
      simp only [List.cons_append, alternating, Bool.and_eq_true, Bool.not_eq_true'] at h ⊢
      exact ⟨⟨h.1, (ih active h.2).1⟩, (ih active h.2).2⟩
    | checkpoint n a =>
      simp only [List.cons_append, alternating] at h ⊢
      exact ih active h

/-- The `int64` successor of a counter below the largest `int64` is its successor. -/
theorem wrapInt64_succ (x : Int) (h1 : -9223372036854775808 ≤ x)
    (h2 : x < 9223372036854775807) : wrapInt64 (x + 1) = x + 1 := by
  unfold wrapInt64
  omega

/-- In a sequence of operations in which `StartCollection` and `FinishCollection`
alternate and the start counter does not overflow, the counters count the calls. -/
theorem performAll_alternating (A : Aggregators α) (ops : List (Operation α σ)) :
    ∀ (b : Integrator α) (m : Memory α) (active : Bool) (n : Nat),
    alternating active ops = true →
    b.state.finishedCollection = n →
    b.state.startedCollection = n + (if active then 1 else 0) →
    n + (if active then 1 else 0) + starts ops < 9223372036854775808 →
    (performAll A b m ops).integrator.state.finishedCollection = n + finishes ops ∧
    (performAll A b m ops).integrator.state.startedCollection
      = n + (if active then 1 else 0) + starts ops ∧
    (if active then 1 else 0) + starts ops
      = finishes ops + (if activeAfter active ops then 1 else 0) := by
  induction ops with
  | nil =>
    intro b m active n _ hf hs _
    simp [performAll, starts, finishes, activeAfter, hf, hs]
  | cons op rest ih =>
    intro b m active n halt hf hs hbound
    have hc := perform_counters A b m op
    rw [performAll_cons_integrator]
    cases op with
    | start =>
      simp only [alternating, Bool.and_eq_true, Bool.not_eq_true'] at halt
      obtain ⟨hact, halt⟩ := halt
      subst hact
      simp only [starts] at hbound ⊢
      simp only [Bool.false_eq_true, if_false, add_zero] at hs hbound
      have hw : wrapInt64 (b.state.startedCollection + 1) = b.state.startedCollection + 1 :=
        wrapInt64_succ _ (by omega) (by omega)
      obtain ⟨h1, h2, h3⟩ := ih (perform A b m .start).integrator (perform A b m .start).memory
        true n halt (by rw [hc.2]; exact hf) (by rw [hc.1, hw, hs]; simp)
        (by simp only [if_true]; omega)
      simp only [if_true] at h1 h2 h3
      simp only [finishes, activeAfter, Bool.false_eq_true, if_false, add_zero]
      refine ⟨h1, ?_, ?_⟩
      · rw [h2]; push_cast; ring
      · omega
    | process accum =>
      simp only [alternating, Bool.and_eq_true] at halt
      simp only [starts] at hbound ⊢
      obtain ⟨h1, h2, h3⟩ := ih (perform A b m (.process accum)).integrator
        (perform A b m (.process accum)).memory active n halt.2 (by rw [hc.2]; exact hf)
        (by rw [hc.1]; exact hs) hbound
      exact ⟨h1, h2, h3⟩
    | finish now =>
      simp only [alternating, Bool.and_eq_true] at halt
      obtain ⟨hact, halt⟩ := halt
      subst hact
      simp only [starts] at hbound ⊢
      simp only [if_true] at hs hbound
      have hw : wrapInt64 (b.state.finishedCollection + 1) = b.state.finishedCollection + 1 :=
        wrapInt64_succ _ (by omega) (by omega)
      have hactive : b.state.startedCollection = wrapInt64 (b.state.finishedCollection + 1) := by
        rw [hw, hs, hf]
      obtain ⟨h1, h2, h3⟩ := ih (perform A b m (.finish now)).integrator
        (perform A b m (.finish now)).memory false (n + 1) halt
        (by rw [hc.2]; simp only [if_pos hactive]; rw [hw, hf]; simp)
        (by rw [hc.1]; simp only [Bool.false_eq_true, if_false]; rw [hs]; simp)
        (by simp only [Bool.false_eq_true, if_false]; omega)
      simp only [Bool.false_eq_true, if_false, add_zero, zero_add] at h1 h2 h3
      simp only [finishes, activeAfter, if_true]
      refine ⟨?_, ?_, ?_⟩
      · rw [h1]; push_cast; ring
      · rw [h2]; push_cast; ring
      · omega
    | forEach exporter f s =>
      simp only [alternating, Bool.and_eq_true, Bool.not_eq_true'] at halt
      simp only [starts] at hbound ⊢
      obtain ⟨h1, h2, h3⟩ := ih (perform A b m (.forEach exporter f s)).integrator
        (perform A b m (.forEach exporter f s)).memory active n halt.2 (by rw [hc.2]; exact hf)
        (by rw [hc.1]; exact hs) hbound
      exact ⟨h1, h2, h3⟩
    | checkpoint k a =>
      simp only [alternating] at halt
      simp only [starts] at hbound ⊢
      obtain ⟨h1, h2, h3⟩ := ih (perform A b m (.checkpoint k a)).integrator
        (perform A b m (.checkpoint k a)).memory active n halt (by rw [hc.2]; exact hf)
        (by rw [hc.1]; exact hs) hbound
      exact ⟨h1, h2, h3⟩

theorem performAll_singleton_integrator (A : Aggregators α) (b : Integrator α) (m : Memory α)
    (op : Operation α σ) :
    (performAll A b m [op]).integrator = (perform A b m op).integrator :=
  rfl


/-- C13: starting from `New`, in every sequence of operations in which `StartCollection`
and `FinishCollection` strictly alternate, with the `Process` calls inside the rounds and
the `ForEach` calls between them, and with fewer than `2^63` rounds (the counters are
`int64`), after every prefix `pre` of the sequence: `startedCollection` is the number of
`StartCollection` calls made and `finishedCollection` the number of `FinishCollection`
calls made; inside a round `startedCollection == finishedCollection + 1` (also as the
`int64` comparison of the guards) and between rounds
`startedCollection == finishedCollection`; and the next operation `op` decreases neither
counter and, when it is a `Process` or a `ForEach`, changes neither. -/
theorem round_counters_alternate (A : Aggregators α) (aselector : AggregationSelector α)
    (eselector : ExportKindSelector) (now : Time) (m : Memory α)
    (ops : List (Operation α σ))
    (halt : alternating false ops = true)
    (hbound : starts ops < 9223372036854775808) :
    ∀ pre post : List (Operation α σ), ops = pre ++ post →
      (performAll A (New aselector eselector now) m pre).integrator.state.startedCollection
        = starts pre ∧
      (performAll A (New aselector eselector now) m pre).integrator.state.finishedCollection
        = finishes pre ∧
      (activeAfter false pre = true →
        (performAll A (New aselector eselector now) m pre).integrator.state.startedCollection
          = (performAll A (New aselector eselector now) m
              pre).integrator.state.finishedCollection + 1 ∧
        (performAll A (New aselector eselector now) m pre).integrator.state.startedCollection
          = wrapInt64 ((performAll A (New aselector eselector now) m
              pre).integrator.state.finishedCollection + 1)) ∧
      (activeAfter false pre = false →
        (performAll A (New aselector eselector now) m pre).integrator.state.startedCollection
          = (performAll A (New aselector eselector now) m
              pre).integrator.state.finishedCollection) ∧
      ∀ (op : Operation α σ) (rest : List (Operation α σ)), post = op :: rest →
        (performAll A (New aselector eselector now) m pre).integrator.state.startedCollection
          ≤ (perform A (performAll A (New aselector eselector now) m pre).integrator
              (performAll A (New aselector eselector now) m pre).memory
              op).integrator.state.startedCollection ∧
        (performAll A (New aselector eselector now) m pre).integrator.state.finishedCollection
          ≤ (perform A (performAll A (New aselector eselector now) m pre).integrator
              (performAll A (New aselector eselector now) m pre).memory
              op).integrator.state.finishedCollection ∧
        ((∃ accum, op = .process accum) ∨ (∃ exporter f s, op = .forEach exporter f s) →
          (perform A (performAll A (New aselector eselector now) m pre).integrator
              (performAll A (New aselector eselector now) m pre).memory
              op).integrator.state.startedCollection
            = (performAll A (New aselector eselector now) m
                pre).integrator.state.startedCollection ∧
          (perform A (performAll A (New aselector eselector now) m pre).integrator
              (performAll A (New aselector eselector now) m pre).memory
              op).integrator.state.finishedCollection
            = (performAll A (New aselector eselector now) m
                pre).integrator.state.finishedCollection) := by
  intro pre post hops
  have hcount : ∀ pre2 post2 : List (Operation α σ), ops = pre2 ++ post2 →
      (performAll A (New aselector eselector now) m pre2).integrator.state.finishedCollection
        = finishes pre2 ∧
      (performAll A (New aselector eselector now) m pre2).integrator.state.startedCollection
        = starts pre2 ∧
      starts pre2 = finishes pre2 + (if activeAfter false pre2 then 1 else 0) := by
    intro pre2 post2 h2
    have halt2 : alternating false pre2 = true := by
      rw [h2] at halt
      exact (alternating_append pre2 post2 false halt).1
    have hb2 : starts pre2 < 9223372036854775808 := by
      rw [h2, starts_append] at hbound
      omega
    have h := performAll_alternating A pre2 (New aselector eselector now) m false 0 halt2
      rfl rfl (by simpa using hb2)
    simp only [Bool.false_eq_true, if_false, Nat.cast_zero, zero_add, add_zero] at h
    exact ⟨h.1, h.2.1, h.2.2⟩
  obtain ⟨hf, hs, hrel⟩ := hcount pre post hops
  refine ⟨hs, hf, ?_, ?_, ?_⟩
  · intro hact
    rw [hact] at hrel
    simp only [if_true] at hrel
    have hlt : starts pre < 9223372036854775808 := by
      rw [hops, starts_append] at hbound
      omega
    have heq : ((starts pre : Nat) : Int) = (finishes pre : Int) + 1 := by
      rw [hrel]; push_cast; ring
    refine ⟨by rw [hs, hf, heq], ?_⟩
    rw [hs, hf, wrapInt64_succ _ (by omega) (by omega), heq]
  · intro hact
    rw [hact] at hrel
    simp only [Bool.false_eq_true, if_false, add_zero] at hrel
    rw [hs, hf, hrel]
  · intro op rest hpost
    have hops2 : ops = (pre ++ [op]) ++ rest := by
      rw [hops, hpost, List.append_assoc]
      rfl
    obtain ⟨hf2, hs2, _⟩ := hcount (pre ++ [op]) rest hops2
    rw [performAll_append_integrator, performAll_singleton_integrator] at hf2 hs2
    have hc := perform_counters A (performAll A (New aselector eselector now) m pre).integrator
      (performAll A (New aselector eselector now) m pre).memory op
    refine ⟨?_, ?_, ?_⟩
    · rw [hs2, hs, starts_append]
      push_cast
      omega
    · rw [hf2, hf, finishes_append]
      push_cast
      omega
    · rintro (⟨accum, rfl⟩ | ⟨exporter, f, s, rfl⟩)
      · exact hc
      · exact hc

/-- C13 at three rounds of the counter fixture: a report inside each round and a
`ForEach` after each round. -/
theorem round_counters_alternate_witness :
    (performAll sumAggregators (New sumSelector (constantSelector .CumulativeExporter) 5)
      emptyMemory
      [Operation.start, .process (accumulationOf counterDescriptor 0), .finish 9,
        .forEach (constantSelector .CumulativeExporter) countingVisitor 0,
        .start]).integrator.state.startedCollection = 2 ∧
    (performAll sumAggregators (New sumSelector (constantSelector .CumulativeExporter) 5)
      emptyMemory
      [Operation.start, .process (accumulationOf counterDescriptor 0), .finish 9,
        .forEach (constantSelector .CumulativeExporter) countingVisitor 0,
        .start]).integrator.state.finishedCollection = 1 :=
  have h := round_counters_alternate sumAggregators sumSelector
    (constantSelector .CumulativeExporter) 5 emptyMemory
    [Operation.start, .process (accumulationOf counterDescriptor 0), .finish 9,
      .forEach (constantSelector .CumulativeExporter) countingVisitor 0,
      .start, .process (accumulationOf counterDescriptor 1), .finish 12]
    (by decide) (by decide)
    [Operation.start, .process (accumulationOf counterDescriptor 0), .finish 9,
      .forEach (constantSelector .CumulativeExporter) countingVisitor 0, .start]
    [.process (accumulationOf counterDescriptor 1), .finish 12] rfl
  ⟨h.1, h.2.1⟩

/-! ## Round-counter violations -/

theorem performAll_append_memory (A : Aggregators α) (pre post : List (Operation α σ)) :
    ∀ (b : Integrator α) (m : Memory α),
    (performAll A b m (pre ++ post)).memory =
      (performAll A (performAll A b m pre).integrator (performAll A b m pre).memory
        post).memory := by
  induction pre with
  | nil => intro b m; rfl
  | cons op pre ih =>
    intro b m
    rw [List.cons_append, performAll_cons_memory, ih]
    rfl

/-- With two or more rounds started and not finished, every `Process`, `FinishCollection`
and `ForEach` call fails with `ErrInconsistentState`. -/
theorem perform_violated (A : Aggregators α) (b : Integrator α) (m : Memory α)
    (op : Operation α σ)
    (hviolated : b.state.finishedCollection + 2 ≤ b.state.startedCollection)
    (hrange : -9223372036854775808 ≤ b.state.finishedCollection)
    (hmax : b.state.startedCollection ≤ 9223372036854775807)
    (hop : (∃ accum, op = .process accum) ∨ (∃ now, op = .finish now) ∨
      (∃ exporter f s, op = .forEach exporter f s)) :
    (perform A b m op).result = .err .ErrInconsistentState := by
  have hw : wrapInt64 (b.state.finishedCollection + 1) = b.state.finishedCollection + 1 :=
    wrapInt64_succ _ hrange (by omega)
  have hne : b.state.startedCollection ≠ wrapInt64 (b.state.finishedCollection + 1) := by
    rw [hw]; omega
  have hne2 : b.state.startedCollection ≠ b.state.finishedCollection := by omega
  rcases hop with ⟨accum, rfl⟩ | ⟨now, rfl⟩ | ⟨exporter, f, s, rfl⟩
  · simp [perform, Process, hne]
  · have hne3 : ¬ b.state.startedCollection = wrapInt64 (b.state.finishedCollection + 1) := hne
    simp only [perform, FinishCollection]
    rw [if_pos (by simpa using hne3)]
  · simp [perform, ForEach, hne2]

/-- With two or more rounds started and not finished, a sequence of operations leaves
`finishedCollection` as it is and adds its `StartCollection` calls to
`startedCollection`, as long as that counter does not overflow. -/
theorem performAll_violated (A : Aggregators α) (ops : List (Operation α σ)) :
    ∀ (b : Integrator α) (m : Memory α),
    b.state.finishedCollection + 2 ≤ b.state.startedCollection →
    -9223372036854775808 ≤ b.state.finishedCollection →
    b.state.startedCollection + starts ops ≤ 9223372036854775807 →
    (performAll A b m ops).integrator.state.finishedCollection = b.state.finishedCollection ∧
    (performAll A b m ops).integrator.state.startedCollection
      = b.state.startedCollection + starts ops := by
  induction ops with
  | nil => intro b m _ _ _; simp [performAll, starts]
  | cons op rest ih =>
    intro b m hviolated hrange hbound
    have hc := perform_counters A b m op
    have hw : wrapInt64 (b.state.finishedCollection + 1) = b.state.finishedCollection + 1 :=
      wrapInt64_succ _ hrange (by omega)
    have hne : ¬ b.state.startedCollection = wrapInt64 (b.state.finishedCollection + 1) := by
      rw [hw]; omega
    rw [performAll_cons_integrator]
    cases op with
    | start =>
      simp only [starts] at hbound ⊢
      push_cast at hbound ⊢
      have hws : wrapInt64 (b.state.startedCollection + 1) = b.state.startedCollection + 1 :=
        wrapInt64_succ _ (by omega) (by omega)
      have hs : (perform A b m (@Operation.start α σ)).integrator.state.startedCollection
          = b.state.startedCollection + 1 := by rw [hc.1, hws]
      have hf : (perform A b m (@Operation.start α σ)).integrator.state.finishedCollection
          = b.state.finishedCollection := hc.2
      obtain ⟨h1, h2⟩ := ih (perform A b m (@Operation.start α σ)).integrator
        (perform A b m (@Operation.start α σ)).memory (by rw [hs, hf]; omega) (by rw [hf]; exact hrange) (by rw [hs]; omega)
      rw [h1, h2, hs, hf]
      exact ⟨rfl, by ring⟩
    | process accum =>
      simp only [starts] at hbound ⊢
      obtain ⟨h1, h2⟩ := ih (perform A b m (@Operation.process α σ accum)).integrator
        (perform A b m (@Operation.process α σ accum)).memory
        (by rw [hc.1, hc.2]; exact hviolated) (by rw [hc.2]; exact hrange)
        (by rw [hc.1]; exact hbound)
      rw [h1, h2]
      exact ⟨hc.2, by rw [hc.1]⟩
    | finish now =>
      simp only [starts] at hbound ⊢
      have hf : (perform A b m (@Operation.finish α σ now)).integrator.state.finishedCollection
          = b.state.finishedCollection := by
        rw [hc.2]
        simp only [if_neg hne]
      obtain ⟨h1, h2⟩ := ih (perform A b m (@Operation.finish α σ now)).integrator
        (perform A b m (@Operation.finish α σ now)).memory
        (by rw [hc.1, hf]; exact hviolated) (by rw [hf]; exact hrange)
        (by rw [hc.1]; exact hbound)
      rw [h1, h2]
      exact ⟨hf, by rw [hc.1]⟩
    | forEach exporter f s =>
      simp only [starts] at hbound ⊢
      obtain ⟨h1, h2⟩ := ih (perform A b m (.forEach exporter f s)).integrator
        (perform A b m (.forEach exporter f s)).memory
        (by rw [hc.1, hc.2]; exact hviolated) (by rw [hc.2]; exact hrange)
        (by rw [hc.1]; exact hbound)
      rw [h1, h2]
      exact ⟨hc.2, by rw [hc.1]⟩
    | checkpoint k a =>
      simp only [starts] at hbound ⊢
      obtain ⟨h1, h2⟩ := ih (perform A b m (@Operation.checkpoint α σ k a)).integrator
        (perform A b m (@Operation.checkpoint α σ k a)).memory
        (by rw [hc.1, hc.2]; exact hviolated) (by rw [hc.2]; exact hrange)
        (by rw [hc.1]; exact hbound)
      rw [h1, h2]
      exact ⟨hc.2, by rw [hc.1]⟩

/-- C14: the store does not recover from a round-counter violation.  From a state with
`startedCollection >= finishedCollection + 2` (the counters being `int64` values), in
every following sequence of operations that does not overflow `startedCollection`, after
every prefix `pre`: `finishedCollection` is what it was and `startedCollection` has
grown by the number of `StartCollection` calls, so that the violation persists; the next
operation `op` returns `ErrInconsistentState` when it is a `Process`, a
`FinishCollection` or a `ForEach`; and `startedCollection - finishedCollection` does not
decrease across `op`. -/
theorem violation_is_permanent (A : Aggregators α) (b : Integrator α) (m : Memory α)
    (ops : List (Operation α σ))
    (hviolated : b.state.finishedCollection + 2 ≤ b.state.startedCollection)
    (hrange : -9223372036854775808 ≤ b.state.finishedCollection)
    (hbound : b.state.startedCollection + starts ops ≤ 9223372036854775807) :
    ∀ (pre : List (Operation α σ)) (op : Operation α σ) (post : List (Operation α σ)),
      ops = pre ++ op :: post →
      (performAll A b m pre).integrator.state.finishedCollection
        = b.state.finishedCollection ∧
      (performAll A b m pre).integrator.state.startedCollection
        = b.state.startedCollection + starts pre ∧
      (performAll A b m pre).integrator.state.finishedCollection + 2
        ≤ (performAll A b m pre).integrator.state.startedCollection ∧
      ((∃ accum, op = .process accum) ∨ (∃ now, op = .finish now) ∨
          (∃ exporter f s, op = .forEach exporter f s) →
        (perform A (performAll A b m pre).integrator (performAll A b m pre).memory op).result
          = .err .ErrInconsistentState) ∧
      (performAll A b m pre).integrator.state.startedCollection
          - (performAll A b m pre).integrator.state.finishedCollection
        ≤ (perform A (performAll A b m pre).integrator (performAll A b m pre).memory
              op).integrator.state.startedCollection
          - (perform A (performAll A b m pre).integrator (performAll A b m pre).memory
              op).integrator.state.finishedCollection := by
  intro pre op post hops
  have hsplit : starts ops = starts pre + starts [op] + starts post := by
    rw [hops, starts_append, show op :: post = [op] ++ post from rfl, starts_append]
    omega
  obtain ⟨hf, hs⟩ := performAll_violated A pre b m hviolated hrange (by omega)
  obtain ⟨hf2, hs2⟩ := performAll_violated A (pre ++ [op]) b m hviolated hrange
    (by rw [starts_append]; omega)
  rw [performAll_append_integrator, performAll_singleton_integrator] at hf2 hs2
  refine ⟨hf, hs, by rw [hf, hs]; omega, ?_, ?_⟩
  · intro hop
    exact perform_violated A _ _ op (by rw [hf, hs]; omega) (by rw [hf]; exact hrange)
      (by rw [hs]; omega) hop
  · rw [hf2, hs2, hf, hs, starts_append]
    push_cast
    omega

/-- C14 after two `StartCollection` calls without a `FinishCollection`: the
`FinishCollection` that follows a further `StartCollection` and a `Process` fails. -/
theorem violation_is_permanent_witness :
    (StartCollection (firstRound .CumulativeExporter)).state.finishedCollection + 2
      ≤ (StartCollection (firstRound .CumulativeExporter)).state.startedCollection ∧
    (perform sumAggregators
      (performAll sumAggregators (StartCollection (firstRound .CumulativeExporter)) emptyMemory
        [@Operation.process Int Nat (accumulationOf counterDescriptor 0), .start]).integrator
      (performAll sumAggregators (StartCollection (firstRound .CumulativeExporter)) emptyMemory
        [@Operation.process Int Nat (accumulationOf counterDescriptor 0), .start]).memory
      (@Operation.finish Int Nat 9)).result = .err .ErrInconsistentState :=
  ⟨by decide,
    (violation_is_permanent sumAggregators (StartCollection (firstRound .CumulativeExporter))
      emptyMemory
      [Operation.process (accumulationOf counterDescriptor 0), .start, .finish 9,
        .forEach (constantSelector .CumulativeExporter) countingVisitor 0]
      (by decide) (by decide) (by decide)
      [Operation.process (accumulationOf counterDescriptor 0), .start] (.finish 9)
      [.forEach (constantSelector .CumulativeExporter) countingVisitor 0] rfl).2.2.2.1
      (Or.inr (Or.inl ⟨9, rfl⟩))⟩

/-! ## Accumulator-owned aggregators -/

theorem Memory.accumulator_Merge (A : Aggregators α) (m : Memory α) (receiver : Nat)
    (operand : AggRef) (desc : Descriptor) :
    (m.Merge A (.integrator receiver) operand desc).1.accumulator = m.accumulator := by
  simp [Memory.Merge, Memory.write, Memory.log]

theorem Memory.accumulator_Subtract (A : Aggregators α) (m : Memory α) (receiver operand : AggRef)
    (result : Nat) (desc : Descriptor) :
    (m.Subtract A receiver operand (.integrator result) desc).1.accumulator = m.accumulator := by
  simp [Memory.Subtract, Memory.write, Memory.log]

/-- A `SynchronizedCopy` into an integrator-owned aggregator changes an
accumulator-owned aggregator only when that one is the receiver. -/
theorem Memory.accumulator_SynchronizedCopy (A : Aggregators α) (m : Memory α)
    (receiver : AggRef) (dest : Nat) (desc : Descriptor) (n : Nat) :
    (m.SynchronizedCopy A receiver (.integrator dest) desc).1.accumulator n
      = if receiver = .accumulator n
        then (A.synchronizedCopy (m.accumulator n) (m.integrator dest) desc).1
        else m.accumulator n := by
  cases receiver with
  | accumulator k =>
    by_cases hk : k = n
    · subst hk
      simp [Memory.SynchronizedCopy, Memory.write, Memory.log, Memory.read]
    · have hne : AggRef.accumulator k ≠ AggRef.accumulator n := fun h => hk (by injection h)
      have hne2 : n ≠ k := fun h => hk h.symm
      simp [Memory.SynchronizedCopy, Memory.write, Memory.log, Function.update, hne, hne2, hk]
  | integrator k =>
    simp [Memory.SynchronizedCopy, Memory.write, Memory.log]

/-- `Process` leaves an accumulator-owned aggregator as it is unless it calls
`SynchronizedCopy` on it through the `current` reference of the record and that call
changes its receiver. -/
theorem Process_accumulator (A : Aggregators α) (b : Integrator α) (m : Memory α)
    (accum : Accumulation) (n : Nat)
    (hsafe : ∀ found, lookup accum.key b.state.values = some found →
      found.updated = b.state.finishedCollection → accum.descriptor.asynchronous = false →
      found.current = .accumulator n →
      ∀ dst, (A.synchronizedCopy (m.accumulator n) dst accum.descriptor).1 = m.accumulator n) :
    (Process A b m accum).memory.accumulator n = m.accumulator n := by
  by_cases hactive : b.state.startedCollection = wrapInt64 (b.state.finishedCollection + 1)
  · cases hl : lookup accum.key b.state.values with
    | none =>
      rw [Process_absent A b m accum hactive hl]
      split
      · split <;> rfl
      · rfl
    | some found =>
      by_cases hcase : found.updated ≠ b.state.finishedCollection ∨
          accum.descriptor.asynchronous = true
      · rw [Process_reference A b m accum found hactive hl hcase]
      · have hsame : found.updated = b.state.finishedCollection := by
          by_contra h
          exact hcase (Or.inl h)
        have hsync : accum.descriptor.asynchronous = false := by
          cases h : accum.descriptor.asynchronous
          · rfl
          · exact absurd (Or.inr h) hcase
        have hm1 : ∀ k, (if found.delta = none
            then m.AggregatorFor b.AggregatorFor accum.descriptor 1 else m).accumulator k
              = m.accumulator k := by
          intro k
          split <;> rfl
        have hcopy : ((if found.delta = none
            then m.AggregatorFor b.AggregatorFor accum.descriptor 1
            else m).SynchronizedCopy A found.current
              (.integrator (found.delta.getD m.allocated)) accum.descriptor).1.accumulator n
              = m.accumulator n := by
          rw [Memory.accumulator_SynchronizedCopy, hm1]
          split
          · rename_i hcur
            exact hsafe found hl hsame hsync hcur _
          · rfl
        rw [Process_merge A b m accum found hactive hl hsame hsync]
        split
        · split
          · exact hcopy
          · dsimp only
            rw [Memory.accumulator_Merge]
            exact hcopy
        · dsimp only
          rw [Memory.accumulator_Merge]
          exact hm1 n
  · simp [Process, hactive]

/-- The reconciliation of a record leaves an accumulator-owned aggregator as it is
unless the record is of a precomputed sum, `current` refers to that aggregator, and
`SynchronizedCopy` changes its receiver. -/
theorem reconcile_accumulator (A : Aggregators α) (key : stateKey) (value : stateValue)
    (m : Memory α) (n : Nat)
    (hsafe : key.descriptor.precomputedSum = true → value.current = .accumulator n →
      ∀ dst, (A.synchronizedCopy (m.accumulator n) dst key.descriptor).1 = m.accumulator n) :
    (reconcile A key value m).1.accumulator n = m.accumulator n := by
  unfold reconcile
  by_cases hp : key.descriptor.precomputedSum = true
  · rw [if_pos hp]
    split
    · split
      · dsimp only
        split
        · rw [Memory.accumulator_Subtract]
        · dsimp only
          rw [Memory.accumulator_SynchronizedCopy, Memory.accumulator_Subtract]
          split
          · rename_i hcur
            exact hsafe hp hcur _
          · rfl
      · rfl
    · rfl
  · rw [if_neg hp]
    split
    · dsimp only
      rw [Memory.accumulator_Merge]
    · rfl

/-- The loop of `FinishCollection` leaves an accumulator-owned aggregator as it is
unless `current` of a stateful record of a precomputed sum refers to it and
`SynchronizedCopy` changes its receiver. -/
theorem finishLoop_accumulator (A : Aggregators α) (finished : Int) (n : Nat) (a : α)
    (values : List (stateKey × stateValue)) :
    ∀ m : Memory α, m.accumulator n = a →
    (∀ e ∈ values, e.2.stateful = true → e.1.descriptor.precomputedSum = true →
      e.2.current = .accumulator n →
      ∀ dst, (A.synchronizedCopy a dst e.1.descriptor).1 = a) →
    (finishLoop A finished values m).2.1.accumulator n = a := by
  induction values with
  | nil => intro m hm _; simpa [finishLoop] using hm
  | cons entry rest ih =>
    intro m hm hsafe
    obtain ⟨key, value⟩ := entry
    have hrest : ∀ e ∈ rest, e.2.stateful = true → e.1.descriptor.precomputedSum = true →
        e.2.current = .accumulator n →
        ∀ dst, (A.synchronizedCopy a dst e.1.descriptor).1 = a :=
      fun e he => hsafe e (List.mem_cons_of_mem _ he)
    have hstep : value.stateful = true → (reconcile A key value m).1.accumulator n = a := by
      intro hs
      rw [reconcile_accumulator A key value m n, hm]
      intro hp hcur dst
      rw [hm]
      exact hsafe (key, value) (List.mem_cons_self _ _) hs hp hcur dst
    rcases finishLoop_cases A finished key value m with h | h | h | h
    · rw [finishLoop_delete A finished key value rest m h.1 h.2]
      exact ih m hm hrest
    · rw [finishLoop_keep A finished key value rest m h.1 h.2]
      exact ih m hm hrest
    · rw [finishLoop_continue A finished key value rest m h.1 h.2]
      exact ih _ (hstep h.1) hrest
    · rw [finishLoop_stop A finished key value rest m h.1 h.2]
      exact hstep h.1

/-- C15, as amended: the store changes the state of an accumulator-owned aggregator
only by calling `SynchronizedCopy` on it through the `current` reference of a record.
A `Process` call leaves the aggregator number `n` as it is unless the record of the
accumulation was already reported in this round, the instrument is synchronous, the
`current` of the record refers to the aggregator `n`, and `SynchronizedCopy` changes
its receiver.  A `FinishCollection` call leaves it as it is unless the `current` of a
stateful record of a precomputed sum refers to the aggregator `n` and
`SynchronizedCopy` changes its receiver. -/
theorem current_reference_frame (A : Aggregators α) (b : Integrator α) (m : Memory α)
    (n : Nat) :
    (∀ accum : Accumulation,
      (∀ found, lookup accum.key b.state.values = some found →
        found.updated = b.state.finishedCollection → accum.descriptor.asynchronous = false →
        found.current = .accumulator n →
        ∀ dst, (A.synchronizedCopy (m.accumulator n) dst accum.descriptor).1
          = m.accumulator n) →
      (Process A b m accum).memory.accumulator n = m.accumulator n) ∧
    (∀ now : Time,
      (∀ e ∈ b.state.values, e.2.stateful = true → e.1.descriptor.precomputedSum = true →
        e.2.current = .accumulator n →
        ∀ dst, (A.synchronizedCopy (m.accumulator n) dst e.1.descriptor).1
          = m.accumulator n) →
      (FinishCollection A b m now).memory.accumulator n = m.accumulator n) := by
  refine ⟨fun accum hsafe => Process_accumulator A b m accum n hsafe, ?_⟩
  intro now hsafe
  by_cases hactive : b.state.startedCollection = wrapInt64 (b.state.finishedCollection + 1)
  · rw [FinishCollection_active A b m now hactive]
    exact finishLoop_accumulator A b.state.finishedCollection n (m.accumulator n)
      b.state.values m rfl hsafe
  · have hne : ¬ b.state.startedCollection = wrapInt64 (b.state.finishedCollection + 1) :=
      hactive
    simp only [FinishCollection]
    rw [if_pos (by simpa using hne)]

/-- C15 as worded fails.  After one report of a counter the `current` of its record
refers to the aggregator 0 of the accumulator, which holds 5; the `Process` call for a
second accumulator of the same counter in the same round calls
`current.SynchronizedCopy(delta)` and leaves the aggregator 0 empty.  After one report
of a sum observer under a delta export kind the `current` of its stateful record refers
to the aggregator 0 of the accumulator, which holds 10; `FinishCollection` calls
`current.SynchronizedCopy(cumulative)` and leaves the aggregator 0 empty. -/
theorem current_reference_frame_counterexample :
    (lookup (accumulationOf counterDescriptor 1).key
      aliasedCounter.integrator.state.values).map (fun value => value.current)
      = some (.accumulator 0) ∧
    aliasedCounter.memory.accumulator 0 = 5 ∧
    (Process sumAggregators aliasedCounter.integrator aliasedCounter.memory
      (accumulationOf counterDescriptor 1)).result = .ok ∧
    (Process sumAggregators aliasedCounter.integrator aliasedCounter.memory
      (accumulationOf counterDescriptor 1)).memory.accumulator 0 = 0 ∧
    (lookup (accumulationOf sumObserverDescriptor 0).key
      aliasedSumObserver.integrator.state.values).map (fun value => value.current)
      = some (.accumulator 0) ∧
    aliasedSumObserver.memory.accumulator 0 = 10 ∧
    (FinishCollection sumAggregators aliasedSumObserver.integrator aliasedSumObserver.memory
      9).result = .ok ∧
    (FinishCollection sumAggregators aliasedSumObserver.integrator aliasedSumObserver.memory
      9).memory.accumulator 0 = 0 :=
  ⟨by decide, by decide, by decide, by decide, by decide, by decide, by decide, by decide⟩

/-- C15, as amended, at the counter reported once from the aggregator 0: the `Process`
call for the second accumulator and the `FinishCollection` call leave the aggregator 1,
to which no record refers, as it is. -/
theorem current_reference_frame_witness :
    (Process sumAggregators aliasedCounter.integrator aliasedCounter.memory
      (accumulationOf counterDescriptor 1)).memory.accumulator 1 = 3 ∧
    (FinishCollection sumAggregators aliasedCounter.integrator aliasedCounter.memory
      9).memory.accumulator 1 = 3 :=
  ⟨(current_reference_frame sumAggregators aliasedCounter.integrator aliasedCounter.memory
      1).1 (accumulationOf counterDescriptor 1)
      (fun found hfound _ _ hcur => by
        have hl : lookup (accumulationOf counterDescriptor 1).key
            aliasedCounter.integrator.state.values
            = some ⟨⟨70, 7⟩, ⟨90, 9⟩, 0, false, .accumulator 0, none, none⟩ := by decide
        rw [hl] at hfound
        injection hfound with hfound
        subst hfound
        exact absurd hcur (by decide)),
    (current_reference_frame sumAggregators aliasedCounter.integrator aliasedCounter.memory
      1).2 9
      (fun e he hs _ _ => by
        have hv : aliasedCounter.integrator.state.values
            = [((accumulationOf counterDescriptor 1).key,
                ⟨⟨70, 7⟩, ⟨90, 9⟩, 0, false, .accumulator 0, none, none⟩)] := by decide
        rw [hv] at he
        simp only [List.mem_singleton] at he
        subst he
        exact absurd hs (by decide))⟩

/-! ## Aggregators without `Subtract` -/

/-- The loop of `FinishCollection` over a map iterated in two parts: it stops in the
first part when a reconciliation fails there, and otherwise goes on with the second part
from the memory that the first part leaves. -/
theorem finishLoop_append_result (A : Aggregators α) (finished : Int)
    (pre rest : List (stateKey × stateValue)) :
    ∀ m : Memory α,
    ((finishLoop A finished pre m).2.2 = .ok →
      (finishLoop A finished (pre ++ rest) m).2.2
        = (finishLoop A finished rest (finishLoop A finished pre m).2.1).2.2) ∧
    ((finishLoop A finished pre m).2.2 ≠ .ok →
      (finishLoop A finished (pre ++ rest) m).2.2 = (finishLoop A finished pre m).2.2) := by
  induction pre with
  | nil =>
    intro m
    exact ⟨fun _ => rfl, fun h => absurd rfl h⟩
  | cons entry pre ih =>
    intro m
    obtain ⟨key, value⟩ := entry
    rw [List.cons_append]
    rcases finishLoop_cases A finished key value m with h | h | h | h
    · rw [finishLoop_delete A finished key value _ m h.1 h.2,
        finishLoop_delete A finished key value _ m h.1 h.2]
      exact ih m
    · rw [finishLoop_keep A finished key value _ m h.1 h.2,
        finishLoop_keep A finished key value _ m h.1 h.2]
      exact ih m
    · rw [finishLoop_continue A finished key value _ m h.1 h.2,
        finishLoop_continue A finished key value _ m h.1 h.2]
      exact ih _
    · rw [finishLoop_stop A finished key value _ m h.1 h.2,
        finishLoop_stop A finished key value _ m h.1 h.2]
      exact ⟨fun hok => absurd hok h.2, fun _ => rfl⟩

/-- The reconciliation of a record of a precomputed sum whose `current` aggregator has
no `Subtract` fails with `ErrNoSubtraction`. -/
theorem reconcile_no_subtraction (A : Aggregators α) (key : stateKey) (value : stateValue)
    (m : Memory α) (hp : key.descriptor.precomputedSum = true)
    (hnosub : A.subtractor (m.read value.current) = false) :
    reconcile A key value m = (m, .err .ErrNoSubtraction) := by
  unfold reconcile
  rw [if_pos hp, if_neg (by simp [hnosub])]

/-- C16, as amended: in an active round, when the map holds a stateful record of a
precomputed sum whose `current` aggregator has no `Subtract` when the loop comes to it,
`FinishCollection` returns an error and still increments `finishedCollection`; the
error is `ErrNoSubtraction` when the records that the iteration visits before that one
reconcile without error, and otherwise the error of the first reconciliation that
fails.  The map is given in iteration order as `pre ++ (key, value) :: post`. -/
theorem FinishCollection_no_subtraction (A : Aggregators α) (b : Integrator α) (m : Memory α)
    (now : Time) (key : stateKey) (value : stateValue)
    (pre post : List (stateKey × stateValue))
    (hactive : b.state.startedCollection = wrapInt64 (b.state.finishedCollection + 1))
    (hvalues : b.state.values = pre ++ (key, value) :: post)
    (hs : value.stateful = true)
    (hp : key.descriptor.precomputedSum = true)
    (hnosub : A.subtractor
      ((finishLoop A b.state.finishedCollection pre m).2.1.read value.current) = false) :
    (FinishCollection A b m now).result ≠ .ok ∧
    (FinishCollection A b m now).integrator.state.finishedCollection
      = wrapInt64 (b.state.finishedCollection + 1) ∧
    (FinishCollection A b m now).integrator.state.startedCollection
      = b.state.startedCollection ∧
    ((finishLoop A b.state.finishedCollection pre m).2.2 = .ok →
      (FinishCollection A b m now).result = .err .ErrNoSubtraction) ∧
    ((finishLoop A b.state.finishedCollection pre m).2.2 ≠ .ok →
      (FinishCollection A b m now).result
        = (finishLoop A b.state.finishedCollection pre m).2.2) := by
  have hrec := reconcile_no_subtraction A key value
    (finishLoop A b.state.finishedCollection pre m).2.1 hp hnosub
  have hstop : (finishLoop A b.state.finishedCollection ((key, value) :: post)
      (finishLoop A b.state.finishedCollection pre m).2.1).2.2 = .err .ErrNoSubtraction := by
    rw [finishLoop_stop A _ key value post _ hs (by rw [hrec]; simp), hrec]
  have happ := finishLoop_append_result A b.state.finishedCollection pre
    ((key, value) :: post) m
  have hres : (FinishCollection A b m now).result
      = (finishLoop A b.state.finishedCollection (pre ++ (key, value) :: post) m).2.2 := by
    rw [FinishCollection_active A b m now hactive, hvalues]
  have hok : (finishLoop A b.state.finishedCollection pre m).2.2 = .ok →
      (FinishCollection A b m now).result = .err .ErrNoSubtraction := by
    intro h
    rw [hres, happ.1 h, hstop]
  have hfail : (finishLoop A b.state.finishedCollection pre m).2.2 ≠ .ok →
      (FinishCollection A b m now).result
        = (finishLoop A b.state.finishedCollection pre m).2.2 := by
    intro h
    rw [hres, happ.2 h]
  refine ⟨?_, ?_, ?_, hok, hfail⟩
  · by_cases h : (finishLoop A b.state.finishedCollection pre m).2.2 = .ok
    · rw [hok h]
      simp
    · rw [hfail h]
      exact h
  · rw [FinishCollection_active A b m now hactive]
  · rw [FinishCollection_active A b m now hactive]

/-- C16 as worded fails.  In `mismatchedRound` the round is active and the map holds,
after the stateful record of a counter, the stateful record of a sum observer whose
`current` aggregator has no `Subtract`; the iteration comes to the counter first, its
`Merge` fails, and `FinishCollection` returns that error, `ErrInconsistentType`, not
`ErrNoSubtraction`. -/
theorem FinishCollection_no_subtraction_counterexample :
    mismatchedRound.results = [.ok, .ok] ∧
    mismatchedRound.integrator.state.startedCollection
      = wrapInt64 (mismatchedRound.integrator.state.finishedCollection + 1) ∧
    mismatchedRound.integrator.state.values
      = [((accumulationOf counterDescriptor 0).key,
          ⟨⟨70, 7⟩, ⟨90, 9⟩, 0, true, .accumulator 0, none, some 0⟩),
        ((accumulationOf sumObserverDescriptor 1).key,
          ⟨⟨70, 7⟩, ⟨90, 9⟩, 0, true, .accumulator 1, some 2, some 1⟩)] ∧
    (accumulationOf sumObserverDescriptor 1).key.descriptor.precomputedSum = true ∧
    mismatchedAggregators.subtractor (mismatchedRound.memory.read (.accumulator 1)) = false ∧
    (FinishCollection mismatchedAggregators mismatchedRound.integrator mismatchedRound.memory
      9).result = .err .ErrInconsistentType ∧
    (FinishCollection mismatchedAggregators mismatchedRound.integrator mismatchedRound.memory
      9).integrator.state.finishedCollection = 1 :=
  ⟨by decide, by decide, by decide, by decide, by decide, by decide, by decide⟩

/-- C16, as amended, at a sum observer reported once under a delta export kind from an
aggregator without `Subtract`: its record is the only one, and `FinishCollection`
returns `ErrNoSubtraction`. -/
theorem FinishCollection_no_subtraction_witness :
    (FinishCollection plainAggregators
      (Process plainAggregators (firstRound .DeltaExporter) (memoryOf [10])
        (accumulationOf sumObserverDescriptor 0)).integrator
      (Process plainAggregators (firstRound .DeltaExporter) (memoryOf [10])
        (accumulationOf sumObserverDescriptor 0)).memory 9).result = .err .ErrNoSubtraction :=
  (FinishCollection_no_subtraction plainAggregators
    (Process plainAggregators (firstRound .DeltaExporter) (memoryOf [10])
      (accumulationOf sumObserverDescriptor 0)).integrator
    (Process plainAggregators (firstRound .DeltaExporter) (memoryOf [10])
      (accumulationOf sumObserverDescriptor 0)).memory 9
    (accumulationOf sumObserverDescriptor 0).key
    ⟨⟨70, 7⟩, ⟨90, 9⟩, 0, true, .accumulator 0, some 1, some 0⟩ [] []
    (by decide) (by decide) (by decide) (by decide) (by decide)).2.2.2.1 (by decide)

/-! ## The record that `Process` writes -/

/-- Writing under a key that the map does not hold adds one entry, at the end. -/
theorem store_absent (key : stateKey) (value : stateValue)
    (values : List (stateKey × stateValue)) (h : lookup key values = none) :
    store key value values = values ++ [(key, value)] := by
  induction values with
  | nil => rfl
  | cons entry rest ih =>
    obtain ⟨k, v⟩ := entry
    by_cases hk : k = key
    · simp [lookup, hk] at h
    · simp only [lookup, hk, if_false] at h
      simp [store, hk, ih h]

/-- C21: in an active round, for an accumulation whose key the map does not hold,
`Process` returns nil and adds exactly one record, under the key of the accumulation.
Its `current` is the incoming aggregator, its `updated` is `finishedCollection`, its
labels and resource are those of the accumulation, and its `stateful` is
`MemoryRequired` of the export kind that the selector of the integrator gives for the
instrument.  `cumulative` is allocated if and only if the record is stateful and `delta`
if and only if it is stateful and the instrument is a precomputed sum; the aggregators
allocated are new ones, in the state that the aggregation selector gives them, and no
other aggregator is touched. -/
theorem Process_inserts_record (A : Aggregators α) (b : Integrator α) (m : Memory α)
    (accum : Accumulation)
    (hactive : b.state.startedCollection = wrapInt64 (b.state.finishedCollection + 1))
    (habsent : lookup accum.key b.state.values = none) :
    (Process A b m accum).result = .ok ∧
    ∃ value : stateValue,
      (Process A b m accum).integrator.state.values = b.state.values ++ [(accum.key, value)] ∧
      value.current = .accumulator accum.aggregator ∧
      value.updated = b.state.finishedCollection ∧
      value.labels = accum.labels ∧
      value.resource = accum.resource ∧
      value.stateful = (b.ExportKindFor accum.descriptor
        (A.kind (m.read (.accumulator accum.aggregator)))).MemoryRequired accum.descriptor ∧
      value.cumulative = (if value.stateful then some m.allocated else none) ∧
      value.delta = (if value.stateful ∧ accum.descriptor.precomputedSum
        then some (m.allocated + 1) else none) ∧
      (∀ c, value.cumulative = some c → m.allocated ≤ c ∧
        c < (Process A b m accum).memory.allocated ∧
        (Process A b m accum).memory.integrator c = b.AggregatorFor accum.descriptor) ∧
      (∀ d, value.delta = some d → m.allocated ≤ d ∧
        d < (Process A b m accum).memory.allocated ∧
        (Process A b m accum).memory.integrator d = b.AggregatorFor accum.descriptor) ∧
      (Process A b m accum).memory.accumulator = m.accumulator ∧
      (∀ n, n < m.allocated → (Process A b m accum).memory.integrator n = m.integrator n) ∧
      methodCalls (Process A b m accum).memory.calls = methodCalls m.calls := by
  rw [Process_absent A b m accum hactive habsent]
  by_cases hs : (b.ExportKindFor accum.descriptor
      (A.kind (m.read (.accumulator accum.aggregator)))).MemoryRequired accum.descriptor = true
  · by_cases hp : accum.descriptor.precomputedSum = true
    · rw [if_pos hs, if_pos hp]
      refine ⟨rfl, _, by simp only [Integrator.setValues]; exact store_absent _ _ _ habsent,
        rfl, rfl, rfl, rfl, hs.symm, by simp, by simp [hp], ?_, ?_, rfl, ?_, ?_⟩
      · intro c hc
        simp only [Option.some.injEq] at hc
        subst hc
        simp [Memory.AggregatorFor]
      · intro d hd
        simp only [Option.some.injEq] at hd
        subst hd
        simp [Memory.AggregatorFor]
      · intro n hn
        have hlt : ¬ m.allocated ≤ n := by omega
        simp [Memory.AggregatorFor, hlt]
      · simp [Memory.AggregatorFor, methodCalls, List.filter_append]
    · rw [if_pos hs, if_neg hp]
      refine ⟨rfl, _, by simp only [Integrator.setValues]; exact store_absent _ _ _ habsent,
        rfl, rfl, rfl, rfl, hs.symm, by simp, by simp [hp], ?_, ?_, rfl, ?_, ?_⟩
      · intro c hc
        simp only [Option.some.injEq] at hc
        subst hc
        simp [Memory.AggregatorFor]
      · intro d hd
        exact Option.noConfusion hd
      · intro n hn
        have hlt : ¬ m.allocated ≤ n := by omega
        simp [Memory.AggregatorFor, hlt]
      · simp [Memory.AggregatorFor, methodCalls, List.filter_append]
  · rw [if_neg hs]
    have hs2 : (b.ExportKindFor accum.descriptor
        (A.kind (m.read (.accumulator accum.aggregator)))).MemoryRequired accum.descriptor
          = false := by simpa using hs
    refine ⟨rfl, _, by simp only [Integrator.setValues]; exact store_absent _ _ _ habsent,
      rfl, rfl, rfl, rfl, hs2.symm, by simp, by simp, ?_, ?_, rfl, fun _ _ => rfl, rfl⟩
    · intro c hc
      exact Option.noConfusion hc
    · intro d hd
      exact Option.noConfusion hd

/-- C21 at a sum observer reported for the first time under a delta export kind: the
record added is stateful, with the new aggregators 0 and 1 as `cumulative` and
`delta`. -/
theorem Process_inserts_record_witness :
    (Process sumAggregators (firstRound .DeltaExporter) (memoryOf [10])
      (accumulationOf sumObserverDescriptor 0)).result = .ok ∧
    (Process sumAggregators (firstRound .DeltaExporter) (memoryOf [10])
      (accumulationOf sumObserverDescriptor 0)).integrator.state.values
      = [((accumulationOf sumObserverDescriptor 0).key,
          ⟨⟨70, 7⟩, ⟨90, 9⟩, 0, true, .accumulator 0, some 1, some 0⟩)] :=
  ⟨(Process_inserts_record sumAggregators (firstRound .DeltaExporter) (memoryOf [10])
      (accumulationOf sumObserverDescriptor 0) (by decide) (by decide)).1,
    by decide⟩

/-- C22: in an active round, for an accumulation whose key the map holds with
`updated != finishedCollection` (the first report of the round), `Process` returns nil,
sets `updated` to `finishedCollection` and `current` to the incoming aggregator, and
leaves the other fields of the record (`delta`, `cumulative`, `stateful`, `labels`,
`resource`) as they are.  The memory of the aggregators is what it was: no aggregator
is modified, none is allocated, and the log of the calls gains no entry, so that no
`SynchronizedCopy` and no `Merge` is performed. -/
theorem Process_first_report (A : Aggregators α) (b : Integrator α) (m : Memory α)
    (accum : Accumulation) (found : stateValue)
    (hactive : b.state.startedCollection = wrapInt64 (b.state.finishedCollection + 1))
    (hfound : lookup accum.key b.state.values = some found)
    (hfirst : found.updated ≠ b.state.finishedCollection) :
    (Process A b m accum).result = .ok ∧
    (Process A b m accum).memory = m ∧
    (Process A b m accum).memory.calls = m.calls ∧
    (Process A b m accum).memory.allocated = m.allocated ∧
    ∃ value : stateValue,
      lookup accum.key (Process A b m accum).integrator.state.values = some value ∧
      (Process A b m accum).integrator.state.values
        = store accum.key value b.state.values ∧
      value.updated = b.state.finishedCollection ∧
      value.current = .accumulator accum.aggregator ∧
      value.delta = found.delta ∧
      value.cumulative = found.cumulative ∧
      value.stateful = found.stateful ∧
      value.labels = found.labels ∧
      value.resource = found.resource := by
  rw [Process_reference A b m accum found hactive hfound (Or.inl hfirst)]
  exact ⟨rfl, rfl, rfl, rfl, _, lookup_store_same _ _ _, rfl, rfl, rfl, rfl, rfl, rfl, rfl,
    rfl⟩

/-- C22 at the counter of `afterOneRound`, reported again in the second round from the
aggregator 3: the record refers to the aggregator 3 and no call is logged. -/
theorem Process_first_report_witness :
    (Process sumAggregators
      (StartCollection (afterOneRound .CumulativeExporter counterDescriptor).integrator)
      (afterOneRound .CumulativeExporter counterDescriptor).memory
      (accumulationOf counterDescriptor 3)).memory
      = (afterOneRound .CumulativeExporter counterDescriptor).memory :=
  (Process_first_report sumAggregators
    (StartCollection (afterOneRound .CumulativeExporter counterDescriptor).integrator)
    (afterOneRound .CumulativeExporter counterDescriptor).memory
    (accumulationOf counterDescriptor 3)
    ⟨⟨70, 7⟩, ⟨90, 9⟩, 0, true, .accumulator 0, none, some 0⟩
    (by decide) (by decide) (by decide)).2.1

/-! ## What `Process` leaves alone -/

theorem store_length (key : stateKey) (value : stateValue)
    (values : List (stateKey × stateValue)) :
    (store key value values).length
      = if (lookup key values).isSome then values.length else values.length + 1 := by
  have h := congrArg List.length (store_keys key value values)
  rw [List.length_map] at h
  rw [h]
  split <;> simp

/-- C24: `Process` touches only the record of the key of the accumulation.  In every
state and for every accumulation, whether `Process` returns nil or an error: the record
under every other key is what it was, every key that the map held is still held, the
keys of the map are those it had, in order, with at most the key of the accumulation
added, so that at most one record is added, and the round counters and the three
timestamps are what they were. -/
theorem Process_touches_own_record (A : Aggregators α) (b : Integrator α) (m : Memory α)
    (accum : Accumulation) :
    (∀ key, key ≠ accum.key →
      lookup key (Process A b m accum).integrator.state.values = lookup key b.state.values) ∧
    (∀ key, (lookup key b.state.values).isSome = true →
      (lookup key (Process A b m accum).integrator.state.values).isSome = true) ∧
    ((Process A b m accum).integrator.state.values.map Prod.fst = b.state.values.map Prod.fst ∨
      (lookup accum.key b.state.values = none ∧
        (Process A b m accum).integrator.state.values.map Prod.fst
          = b.state.values.map Prod.fst ++ [accum.key])) ∧
    (Process A b m accum).integrator.state.values.length ≤ b.state.values.length + 1 ∧
    b.state.values.length ≤ (Process A b m accum).integrator.state.values.length ∧
    (Process A b m accum).integrator.state.startedCollection = b.state.startedCollection ∧
    (Process A b m accum).integrator.state.finishedCollection = b.state.finishedCollection ∧
    (Process A b m accum).integrator.state.processStart = b.state.processStart ∧
    (Process A b m accum).integrator.state.intervalStart = b.state.intervalStart ∧
    (Process A b m accum).integrator.state.intervalEnd = b.state.intervalEnd := by
  have hframe := Process_frame A b m accum
  refine ⟨fun key hkey => Process_other_key A b m accum key hkey, ?_, ?_, ?_, ?_, hframe.1,
    hframe.2.1, hframe.2.2.1, hframe.2.2.2.1, hframe.2.2.2.2.1⟩
  · intro key hkey
    by_cases hk : key = accum.key
    · rcases Process_values A b m accum with hv | ⟨value, hv⟩
      · rw [hv]
        exact hkey
      · rw [hv, hk, lookup_store_same]
        rfl
    · rw [Process_other_key A b m accum key hk]
      exact hkey
  · rcases Process_values A b m accum with hv | ⟨value, hv⟩
    · exact Or.inl (by rw [hv])
    · rw [hv, store_keys]
      cases hl : lookup accum.key b.state.values with
      | none => exact Or.inr ⟨rfl, by simp⟩
      | some found => exact Or.inl (by simp)
  · rcases Process_values A b m accum with hv | ⟨value, hv⟩
    · rw [hv]
      omega
    · rw [hv, store_length]
      split <;> omega
  · rcases Process_values A b m accum with hv | ⟨value, hv⟩
    · rw [hv]
    · rw [hv, store_length]
      split <;> omega

/-- C24 at the round of `mismatchedRound`, which holds a counter and a sum observer: a
further accumulation of the counter leaves the record of the sum observer as it is. -/
theorem Process_touches_own_record_witness :
    lookup (accumulationOf sumObserverDescriptor 1).key
      (Process mismatchedAggregators mismatchedRound.integrator mismatchedRound.memory
        (accumulationOf counterDescriptor 3)).integrator.state.values
      = lookup (accumulationOf sumObserverDescriptor 1).key
          mismatchedRound.integrator.state.values :=
  (Process_touches_own_record mismatchedAggregators mismatchedRound.integrator
    mismatchedRound.memory (accumulationOf counterDescriptor 3)).1
    (accumulationOf sumObserverDescriptor 1).key (by decide)

/-! ## The aggregators that `ForEach` selects -/

theorem lookup_mem (key : stateKey) (value : stateValue)
    (values : List (stateKey × stateValue)) (h : lookup key values = some value) :
    (key, value) ∈ values := by
  induction values with
  | nil => simp [lookup] at h
  | cons entry rest ih =>
    obtain ⟨k, v⟩ := entry
    by_cases hk : k = key
    · simp only [lookup, hk, if_true, Option.some.injEq] at h
      rw [hk, h]
      exact List.mem_cons_self _ _
    · simp only [lookup, hk, if_false] at h
      exact List.mem_cons_of_mem _ (ih h)

/-- What `Process` writes under the key of the accumulation: a new record, whose
`cumulative` and `delta` are allocated as the export kind of the instrument requires, or
the record that was there with `stateful` and `cumulative` as they were and with the
`delta` it had, if it had one. -/
theorem Process_stored (A : Aggregators α) (b : Integrator α) (m : Memory α)
    (accum : Accumulation) :
    (Process A b m accum).integrator.state.values = b.state.values ∨
    ∃ value, (Process A b m accum).integrator.state.values
        = store accum.key value b.state.values ∧
      ((lookup accum.key b.state.values = none ∧
          value.stateful = (b.ExportKindFor accum.descriptor
            (A.kind (m.read (.accumulator accum.aggregator)))).MemoryRequired
              accum.descriptor ∧
          (value.stateful = true → value.cumulative = some m.allocated) ∧
          (value.stateful = true → accum.descriptor.precomputedSum = true →
            value.delta = some (m.allocated + 1))) ∨
        ∃ found, lookup accum.key b.state.values = some found ∧
          value.stateful = found.stateful ∧ value.cumulative = found.cumulative ∧
          value.labels = found.labels ∧ value.resource = found.resource ∧
          (value.delta = found.delta ∨
            (found.delta = none ∧ value.delta = some m.allocated))) := by
  by_cases hactive : b.state.startedCollection = wrapInt64 (b.state.finishedCollection + 1)
  · cases hl : lookup accum.key b.state.values with
    | none =>
      right
      rw [Process_absent A b m accum hactive hl]
      by_cases hs : (b.ExportKindFor accum.descriptor
          (A.kind (m.read (.accumulator accum.aggregator)))).MemoryRequired accum.descriptor
            = true
      · by_cases hp : accum.descriptor.precomputedSum = true
        · rw [if_pos hs, if_pos hp]
          exact ⟨_, rfl, Or.inl ⟨rfl, hs.symm, fun _ => rfl, fun _ _ => rfl⟩⟩
        · rw [if_pos hs, if_neg hp]
          exact ⟨_, rfl, Or.inl ⟨rfl, hs.symm, fun _ => rfl, fun _ h => absurd h hp⟩⟩
      · rw [if_neg hs]
        have hs2 : (b.ExportKindFor accum.descriptor
            (A.kind (m.read (.accumulator accum.aggregator)))).MemoryRequired accum.descriptor
              = false := by simpa using hs
        refine ⟨_, rfl, Or.inl ⟨rfl, hs2.symm, ?_, ?_⟩⟩
        · intro h
          exact absurd h (by simp)
        · intro h
          exact absurd h (by simp)
    | some found =>
      right
      by_cases hcase : found.updated ≠ b.state.finishedCollection ∨
          accum.descriptor.asynchronous = true
      · rw [Process_reference A b m accum found hactive hl hcase]
        exact ⟨_, rfl, Or.inr ⟨found, rfl, rfl, rfl, rfl, rfl, Or.inl rfl⟩⟩
      · have hsame : found.updated = b.state.finishedCollection := by
          by_contra h
          exact hcase (Or.inl h)
        have hsync : accum.descriptor.asynchronous = false := by
          cases h : accum.descriptor.asynchronous
          · rfl
          · exact absurd (Or.inr h) hcase
        have hdelta : some (found.delta.getD m.allocated) = found.delta ∨
            (found.delta = none ∧ some (found.delta.getD m.allocated) = some m.allocated) := by
          cases hd : found.delta with
          | none => exact Or.inr ⟨rfl, rfl⟩
          | some d => exact Or.inl rfl
        rw [Process_merge A b m accum found hactive hl hsame hsync]
        split
        · split
          · exact ⟨_, rfl, Or.inr ⟨found, rfl, rfl, rfl, rfl, rfl, hdelta⟩⟩
          · exact ⟨_, rfl, Or.inr ⟨found, rfl, rfl, rfl, rfl, rfl, hdelta⟩⟩
        · exact ⟨_, rfl, Or.inr ⟨found, rfl, rfl, rfl, rfl, rfl, hdelta⟩⟩
  · left
    simp [Process, hactive]

/-- The selectors of the integrator are what `New` was given, whatever is performed. -/
theorem perform_selectors (A : Aggregators α) (b : Integrator α) (m : Memory α)
    (op : Operation α σ) :
    (perform A b m op).integrator.ExportKindFor = b.ExportKindFor ∧
    (perform A b m op).integrator.AggregatorFor = b.AggregatorFor := by
  cases op with
  | start => exact ⟨rfl, rfl⟩
  | process accum =>
    exact ⟨(Process_frame A b m accum).2.2.2.2.2.1, (Process_frame A b m accum).2.2.2.2.2.2⟩
  | finish now =>
    by_cases h : b.state.startedCollection = wrapInt64 (b.state.finishedCollection + 1)
    · simp [perform, FinishCollection, h]
    · simp [perform, FinishCollection, h]
  | forEach exporter f s => exact ⟨rfl, rfl⟩
  | checkpoint n a => exact ⟨rfl, rfl⟩

/-- No operation but `Process` adds a record or modifies one. -/
theorem perform_entries (A : Aggregators α) (b : Integrator α) (m : Memory α)
    (op : Operation α σ) (hop : ∀ accum, op ≠ .process accum) :
    ∀ e ∈ (perform A b m op).integrator.state.values, e ∈ b.state.values := by
  cases op with
  | start => exact fun e he => he
  | process accum => exact absurd rfl (hop accum)
  | finish now =>
    intro e he
    by_cases h : b.state.startedCollection = wrapInt64 (b.state.finishedCollection + 1)
    · simp only [perform] at he
      rw [FinishCollection_active A b m now h] at he
      exact (finishLoop_sublist A _ _ m).subset he
    · have he2 : e ∈ (FinishCollection A b m now).integrator.state.values := he
      simp only [FinishCollection] at he2
      rw [if_pos (by simpa using h)] at he2
      exact he2
  | forEach exporter f s => exact fun e he => he
  | checkpoint n a => exact fun e he => he

/-- Every operation keeps the records provided with the aggregators that `ForEach`
selects under the export kind selector of the integrator, when that selector depends
only on the descriptor. -/
theorem perform_allocated (A : Aggregators α) (b : Integrator α) (m : Memory α)
    (op : Operation α σ)
    (hsel : ∀ d k1 k2, b.ExportKindFor d k1 = b.ExportKindFor d k2)
    (hall : ∀ e ∈ b.state.values,
      (e.2.stateful = true → ∃ c, e.2.cumulative = some c) ∧
      (∀ k, b.ExportKindFor e.1.descriptor k = .DeltaExporter →
        e.1.descriptor.precomputedSum = true → ∃ d, e.2.delta = some d)) :
    ∀ e ∈ (perform A b m op).integrator.state.values,
      (e.2.stateful = true → ∃ c, e.2.cumulative = some c) ∧
      (∀ k, b.ExportKindFor e.1.descriptor k = .DeltaExporter →
        e.1.descriptor.precomputedSum = true → ∃ d, e.2.delta = some d) := by
  by_cases hop : ∀ accum, op ≠ .process accum
  · exact fun e he => hall e (perform_entries A b m op hop e he)
  · simp only [not_forall, not_not] at hop
    obtain ⟨accum, rfl⟩ := hop
    intro e he
    have he2 : e ∈ (Process A b m accum).integrator.state.values := he
    rcases Process_stored A b m accum with hv | ⟨value, hv, hcases⟩
    · rw [hv] at he2
      exact hall e he2
    · rw [hv] at he2
      rcases mem_store _ _ _ _ he2 with hnew | hold
      · subst hnew
        rcases hcases with ⟨_, hstateful, hcum, hdelta⟩ | ⟨found, hl, hs, hc, _, _, hd⟩
        · refine ⟨fun h => ⟨_, hcum h⟩, ?_⟩
          intro k hk hp
          have hp2 : accum.descriptor.precomputedSum = true := hp
          have hk2 : b.ExportKindFor accum.descriptor
              (A.kind (m.read (.accumulator accum.aggregator))) = .DeltaExporter := by
            rw [hsel accum.descriptor _ k]
            exact hk
          have hst : value.stateful = true := by
            rw [hstateful, hk2]
            exact hp2
          exact ⟨_, hdelta hst hp2⟩
        · have hfound := hall _ (lookup_mem _ _ _ hl)
          refine ⟨?_, ?_⟩
          · intro h
            rw [hc]
            exact hfound.1 (by rw [← hs]; exact h)
          · intro k hk hp
            rcases hd with hd | ⟨_, hd⟩
            · rw [hd]
              exact hfound.2 k hk hp
            · exact ⟨_, hd⟩
      · exact hall e hold

/-- A sequence of operations keeps the records provided with the aggregators that
`ForEach` selects. -/
theorem performAll_allocated (A : Aggregators α) (eselector : ExportKindSelector)
    (hsel : ∀ d k1 k2, eselector d k1 = eselector d k2) (ops : List (Operation α σ)) :
    ∀ (b : Integrator α) (m : Memory α), b.ExportKindFor = eselector →
    (∀ e ∈ b.state.values,
      (e.2.stateful = true → ∃ c, e.2.cumulative = some c) ∧
      (∀ k, eselector e.1.descriptor k = .DeltaExporter →
        e.1.descriptor.precomputedSum = true → ∃ d, e.2.delta = some d)) →
    ∀ e ∈ (performAll A b m ops).integrator.state.values,
      (e.2.stateful = true → ∃ c, e.2.cumulative = some c) ∧
      (∀ k, eselector e.1.descriptor k = .DeltaExporter →
        e.1.descriptor.precomputedSum = true → ∃ d, e.2.delta = some d) := by
  induction ops with
  | nil => intro b m _ hall; exact hall
  | cons op rest ih =>
    intro b m hE hall
    rw [performAll_cons_integrator]
    refine ih (perform A b m op).integrator (perform A b m op).memory
      ((perform_selectors A b m op).1.trans hE) ?_
    have h := perform_allocated A b m op (by rw [hE]; exact hsel) (by rw [hE]; exact hall)
    rw [hE] at h
    exact h

/-- With the aggregators it needs in place, the `switch` of `ForEach` does not come to
a nil aggregator. -/
theorem selectAggregation_allocated (b : state) (m : Memory α) (ekind : ExportKind)
    (key : stateKey) (value : stateValue)
    (hcum : value.stateful = true → ∃ c, value.cumulative = some c)
    (hdelta : ekind = .DeltaExporter → key.descriptor.precomputedSum = true →
      ∃ d, value.delta = some d) :
    selectAggregation b m ekind key value ≠ .error .nilDereference := by
  intro h
  cases ekind with
  | PassThroughExporter => simp [selectAggregation] at h
  | CumulativeExporter =>
    by_cases hs : value.stateful = true
    · obtain ⟨c, hc⟩ := hcum hs
      simp [selectAggregation, hs, hc, Memory.viewOf, Except.map] at h
    · simp [selectAggregation, hs] at h
  | DeltaExporter =>
    by_cases hp : key.descriptor.precomputedSum = true
    · obtain ⟨d, hd⟩ := hdelta rfl hp
      simp [selectAggregation, hp, hd, Memory.viewOf, Except.map] at h
    · simp [selectAggregation, hp] at h
  | other code => simp [selectAggregation] at h

/-- The loop of `ForEach` does not panic when the `switch` does not come to a nil
aggregator for any record. -/
theorem forEachLoop_no_panic (A : Aggregators α) (b : state) (m : Memory α)
    (exporter : ExportKindSelector) (f : σ → Record α → σ × Option Error)
    (values : List (stateKey × stateValue)) :
    ∀ s : σ,
    (∀ e ∈ values, selectAggregation b m (exporter e.1.descriptor (A.kind (m.read e.2.current)))
      e.1 e.2 ≠ .error .nilDereference) →
    (forEachLoop A b m exporter f values s).result ≠ .nilDereference := by
  induction values with
  | nil => intro s _; simp [forEachLoop]
  | cons entry rest ih =>
    intro s hall
    obtain ⟨key, value⟩ := entry
    have hhead := hall (key, value) (List.mem_cons_self _ _)
    have hrest := fun s2 => ih s2 (fun e he => hall e (List.mem_cons_of_mem _ he))
    cases hsel : selectAggregation b m (exporter key.descriptor (A.kind (m.read value.current)))
        key value with
    | error stop =>
      simp only [forEachLoop, hsel]
      intro h
      apply hhead
      dsimp only
      rw [hsel, h]
    | ok selected =>
      obtain ⟨agg, start⟩ := selected
      simp only [forEachLoop, hsel]
      split
      · split
        · simp
        · exact hrest _
      · exact hrest _

/-- C25: `ForEach` does not come to a nil aggregator when it is given the export kind
selector that the integrator was built with, if that selector depends only on the
descriptor.  In every state that a sequence of operations reaches from `New`, every
stateful record has its `cumulative` aggregator and every record of a precomputed sum
for which the selector asks for deltas has its `delta` aggregator; so for every record
the `switch` of `ForEach` selects an aggregator that is not nil (`current` is never
nil), and `ForEach` does not panic, whatever the memory of the aggregators holds. -/
theorem ForEach_selects_allocated (A : Aggregators α) (aselector : AggregationSelector α)
    (eselector : ExportKindSelector) (now : Time) (m : Memory α)
    (ops : List (Operation α σ))
    (hsel : ∀ d k1 k2, eselector d k1 = eselector d k2) :
    (∀ e ∈ (performAll A (New aselector eselector now) m ops).integrator.state.values,
      (e.2.stateful = true → ∃ c, e.2.cumulative = some c) ∧
      (∀ k, eselector e.1.descriptor k = .DeltaExporter →
        e.1.descriptor.precomputedSum = true → ∃ d, e.2.delta = some d) ∧
      ∀ m2 : Memory α,
        selectAggregation (performAll A (New aselector eselector now) m ops).integrator.state
          m2 (eselector e.1.descriptor (A.kind (m2.read e.2.current))) e.1 e.2
          ≠ .error .nilDereference) ∧
    ∀ (m2 : Memory α) (f : σ → Record α → σ × Option Error) (s : σ),
      (ForEach A (performAll A (New aselector eselector now) m ops).integrator.state m2
        eselector f s).result ≠ .nilDereference := by
  have hall := performAll_allocated A eselector hsel ops (New aselector eselector now) m rfl
    (fun e he => by simp [New] at he)
  have hselect : ∀ e ∈ (performAll A (New aselector eselector now) m ops).integrator.state.values,
      ∀ m2 : Memory α,
        selectAggregation (performAll A (New aselector eselector now) m ops).integrator.state
          m2 (eselector e.1.descriptor (A.kind (m2.read e.2.current))) e.1 e.2
          ≠ .error .nilDereference :=
    fun e he m2 => selectAggregation_allocated _ m2 _ e.1 e.2 (hall e he).1
      (fun hk hp => (hall e he).2 _ hk hp)
  refine ⟨fun e he => ⟨(hall e he).1, (hall e he).2, hselect e he⟩, ?_⟩
  intro m2 f s
  unfold ForEach
  split
  · simp
  · exact forEachLoop_no_panic A _ m2 eselector f _ s (fun e he => hselect e he m2)

/-- C25 at a sum observer reported in the first round of a new integrator under a delta
export kind: `ForEach` does not panic. -/
theorem ForEach_selects_allocated_witness :
    (ForEach sumAggregators
      (performAll sumAggregators (New sumSelector (constantSelector .DeltaExporter) 5)
        (memoryOf [10])
        [Operation.start, .process (accumulationOf sumObserverDescriptor 0), .finish 9,
          .forEach (constantSelector .DeltaExporter) countingVisitor 0]).integrator.state
      (memoryOf [10]) (constantSelector .DeltaExporter) countingVisitor 0).result
      ≠ .nilDereference :=
  (ForEach_selects_allocated sumAggregators sumSelector (constantSelector .DeltaExporter) 5
    (memoryOf [10])
    [Operation.start, .process (accumulationOf sumObserverDescriptor 0), .finish 9,
      .forEach (constantSelector .DeltaExporter) countingVisitor 0]
    (fun _ _ _ => rfl)).2 (memoryOf [10]) countingVisitor 0

/-! ## The calls that `Process` makes for one record in one round -/

/-- What each operation does to the three timestamps: `FinishCollection` records its
time as `intervalEnd`, before it tests the round; `StartCollection` moves
`intervalStart` to `intervalEnd` unless it is the first; nothing else changes them. -/
theorem perform_times (A : Aggregators α) (b : Integrator α) (m : Memory α)
    (op : Operation α σ) :
    (perform A b m op).integrator.state.processStart = b.state.processStart ∧
    (perform A b m op).integrator.state.intervalEnd
      = (match op with
          | .finish now => now
          | _ => b.state.intervalEnd) ∧
    (perform A b m op).integrator.state.intervalStart
      = (match op with
          | .start =>
            if b.state.startedCollection ≠ 0 then b.state.intervalEnd
            else b.state.intervalStart
          | _ => b.state.intervalStart) := by
  cases op with
  | start => exact ⟨rfl, rfl, rfl⟩
  | process accum =>
    exact ⟨(Process_frame A b m accum).2.2.1, (Process_frame A b m accum).2.2.2.2.1,
      (Process_frame A b m accum).2.2.2.1⟩
  | finish now =>
    by_cases h : b.state.startedCollection = wrapInt64 (b.state.finishedCollection + 1)
    · simp [perform, FinishCollection, h]
    · simp [perform, FinishCollection, h]
  | forEach exporter f s => exact ⟨rfl, rfl, rfl⟩
  | checkpoint n a => exact ⟨rfl, rfl, rfl⟩

/-- Inside a round and between two rounds the counters and the timestamps stay as they
are. -/
theorem performAll_quiet (A : Aggregators α) (ops : List (Operation α σ)) :
    ∀ (b : Integrator α) (m : Memory α), quiet ops = true →
    (performAll A b m ops).integrator.state.startedCollection = b.state.startedCollection ∧
    (performAll A b m ops).integrator.state.processStart = b.state.processStart ∧
    (performAll A b m ops).integrator.state.intervalStart = b.state.intervalStart ∧
    (performAll A b m ops).integrator.state.intervalEnd = b.state.intervalEnd := by
  induction ops with
  | nil => intro b m _; exact ⟨rfl, rfl, rfl, rfl⟩
  | cons op rest ih =>
    intro b m hq
    have hc := perform_counters A b m op
    have ht := perform_times A b m op
    rw [performAll_cons_integrator]
    cases op with
    | start => simp [quiet] at hq
    | finish now => simp [quiet] at hq
    | process accum =>
      obtain ⟨h1, h2, h3, h4⟩ := ih (perform A b m (@Operation.process α σ accum)).integrator
        (perform A b m (@Operation.process α σ accum)).memory (by simpa [quiet] using hq)
      exact ⟨h1.trans hc.1, h2.trans ht.1, h3.trans ht.2.2, h4.trans ht.2.1⟩
    | forEach exporter f s =>
      obtain ⟨h1, h2, h3, h4⟩ := ih (perform A b m (.forEach exporter f s)).integrator
        (perform A b m (.forEach exporter f s)).memory (by simpa [quiet] using hq)
      exact ⟨h1.trans hc.1, h2.trans ht.1, h3.trans ht.2.2, h4.trans ht.2.1⟩
    | checkpoint n a =>
      obtain ⟨h1, h2, h3, h4⟩ := ih (perform A b m (@Operation.checkpoint α σ n a)).integrator
        (perform A b m (@Operation.checkpoint α σ n a)).memory (by simpa [quiet] using hq)
      exact ⟨h1.trans hc.1, h2.trans ht.1, h3.trans ht.2.2, h4.trans ht.2.1⟩

/-- From the end of one round to the end of the next: after `FinishCollection` at `t1`,
what follows between the rounds, `StartCollection`, what happens inside the round,
`FinishCollection` at `t2`, and what follows, the interval is from `t1` to `t2`,
provided the `StartCollection` is not the first. -/
theorem performAll_round_times (A : Aggregators α) (b : Integrator α) (m : Memory α)
    (t1 t2 : Time) (between inside later : List (Operation α σ))
    (hstarted : b.state.startedCollection ≠ 0)
    (hbetween : quiet between = true) (hinside : quiet inside = true)
    (hlater : quiet later = true) :
    (performAll A b m (.finish t1 :: between)).integrator.state.intervalEnd = t1 ∧
    (performAll A b m (.finish t1 :: (between ++ .start :: (inside ++ .finish t2 :: later)))
      ).integrator.state.intervalStart = t1 ∧
    (performAll A b m (.finish t1 :: (between ++ .start :: (inside ++ .finish t2 :: later)))
      ).integrator.state.intervalEnd = t2 ∧
    (performAll A b m (.finish t1 :: (between ++ .start :: (inside ++ .finish t2 :: later)))
      ).integrator.state.processStart = b.state.processStart := by
  have hc1 := perform_counters A b m (@Operation.finish α σ t1)
  have ht1 := perform_times A b m (@Operation.finish α σ t1)
  have hq1 := performAll_quiet A between (perform A b m (@Operation.finish α σ t1)).integrator
    (perform A b m (@Operation.finish α σ t1)).memory hbetween
  refine ⟨?_, ?_⟩
  · rw [performAll_cons_integrator, hq1.2.2.2]
    exact ht1.2.1
  · rw [performAll_cons_integrator, performAll_append_integrator, performAll_cons_integrator,
      performAll_append_integrator, performAll_cons_integrator]
    generalize hS3 : performAll A (perform A b m (@Operation.finish α σ t1)).integrator (perform A b m (@Operation.finish α σ t1)).memory between = S3 at hq1 ⊢
    have hc4 := perform_counters A S3.integrator S3.memory (@Operation.start α σ)
    have ht4 := perform_times A S3.integrator S3.memory (@Operation.start α σ)
    generalize hS4 : perform A S3.integrator S3.memory (@Operation.start α σ) = S4 at hc4 ht4 ⊢
    have hq5 := performAll_quiet A inside S4.integrator S4.memory hinside
    generalize hS5 : performAll A S4.integrator S4.memory inside = S5 at hq5 ⊢
    have ht6 := perform_times A S5.integrator S5.memory (@Operation.finish α σ t2)
    generalize hS6 : perform A S5.integrator S5.memory (@Operation.finish α σ t2) = S6 at ht6 ⊢
    have hq7 := performAll_quiet A later S6.integrator S6.memory hlater
    have hne : S3.integrator.state.startedCollection ≠ 0 := by
      rw [hq1.1, hc1.1]
      exact hstarted
    have hstart : S4.integrator.state.intervalStart = t1 := by
      rw [ht4.2.2]
      dsimp only
      rw [if_pos hne, hq1.2.2.2]
      exact ht1.2.1
    refine ⟨?_, ?_, ?_⟩
    · rw [hq7.2.2.1, ht6.2.2]
      dsimp only
      rw [hq5.2.2.1]
      exact hstart
    · rw [hq7.2.2.2, ht6.2.1]
    · rw [hq7.2.1, ht6.1, hq5.2.1, ht4.1, hq1.2.1]
      exact ht1.1

theorem performAll_processStart (A : Aggregators α) (ops : List (Operation α σ)) :
    ∀ (b : Integrator α) (m : Memory α),
    (performAll A b m ops).integrator.state.processStart = b.state.processStart := by
  induction ops with
  | nil => intro b m; rfl
  | cons op rest ih =>
    intro b m
    rw [performAll_cons_integrator, ih]
    exact (perform_times A b m op).1

/-- Without a `StartCollection` the start of the interval stays as it is. -/
theorem performAll_intervalStart (A : Aggregators α) (ops : List (Operation α σ)) :
    ∀ (b : Integrator α) (m : Memory α), starts ops = 0 →
    (performAll A b m ops).integrator.state.intervalStart = b.state.intervalStart := by
  induction ops with
  | nil => intro b m _; rfl
  | cons op rest ih =>
    intro b m hs
    have ht := perform_times A b m op
    rw [performAll_cons_integrator]
    cases op with
    | start => simp [starts] at hs
    | finish now =>
      rw [ih _ _ (by simpa [starts] using hs)]
      exact ht.2.2
    | process accum =>
      rw [ih _ _ (by simpa [starts] using hs)]
      exact ht.2.2
    | forEach exporter f s =>
      rw [ih _ _ (by simpa [starts] using hs)]
      exact ht.2.2
    | checkpoint n a =>
      rw [ih _ _ (by simpa [starts] using hs)]
      exact ht.2.2

theorem forall2_mem_right {β γ : Type} (R : β → γ → Prop) (xs : List β) (ys : List γ)
    (h : List.Forall₂ R xs ys) : ∀ y ∈ ys, ∃ x ∈ xs, R x y := by
  induction h with
  | nil => intro y hy; simp at hy
  | cons hr _ ih =>
    intro y hy
    rcases List.mem_cons.mp hy with h1 | h1
    · subst h1
      exact ⟨_, List.mem_cons_self _ _, hr⟩
    · obtain ⟨x, hx, hxy⟩ := ih y h1
      exact ⟨x, List.mem_cons_of_mem _ hx, hxy⟩

/-- The interval that `ForEach` passes to the visiting function: it ends at
`intervalEnd`; it starts at `intervalStart` for a delta export kind and for a
pass-through export kind of an instrument that is not a precomputed sum, and at
`processStart` otherwise. -/
theorem ForEach_times (A : Aggregators α) (b : state) (m : Memory α)
    (exporter : ExportKindSelector) (f : σ → Record α → σ × Option Error) (s : σ) :
    ∀ call ∈ (ForEach A b m exporter f s).visited,
      call.2.endTime = b.intervalEnd ∧
      ∃ entry ∈ b.values, call.1 = entry.1 ∧
        call.2.startTime =
          (match exporter entry.1.descriptor (A.kind (m.read entry.2.current)) with
            | .DeltaExporter => b.intervalStart
            | .PassThroughExporter =>
              if entry.1.descriptor.precomputedSum then b.processStart else b.intervalStart
            | _ => b.processStart) := by
  unfold ForEach
  split
  · intro call hcall
    simp at hcall
  · intro call hcall
    obtain ⟨entry, hentry, hexp⟩ := forall2_mem_right _ _ _
      (forEachLoop_exports A b m exporter f b.values s) call hcall
    obtain ⟨h1, -, -, -, h5, h6⟩ := hexp
    refine ⟨h5, entry, List.mem_of_mem_take hentry, h1, ?_⟩
    revert h6
    cases exporter entry.1.descriptor (A.kind (m.read entry.2.current)) with
    | PassThroughExporter => exact fun h => h.2
    | CumulativeExporter => exact fun h => h.2
    | DeltaExporter => exact fun h => h.2
    | other code => exact fun h => False.elim h

/-- C26: the intervals of consecutive rounds are contiguous.  The first
`StartCollection` leaves `intervalStart` at the time of construction, which is
`processStart`, also through what follows up to the next `StartCollection`.  In a
sequence of operations from `New` in which `StartCollection` and `FinishCollection`
alternate, with fewer than `2^63` rounds: when a round is finished at `t1`, the next
round is started and then finished at `t2`, and `ForEach` is called before another round
starts, then `intervalStart` is `t1`, the `intervalEnd` that the `FinishCollection` of
the round before recorded, and `intervalEnd` is `t2`; every record that `ForEach` passes
to the visiting function ends at `t2`, and starts at `t1` when it is of a delta style (a
delta export kind, or a pass-through export kind of an instrument that is not a
precomputed sum) and at the time of construction otherwise. -/
theorem intervals_contiguous (A : Aggregators α) (aselector : AggregationSelector α)
    (eselector : ExportKindSelector) (now0 : Time) (m : Memory α)
    (pre between inside later : List (Operation α σ)) (t1 t2 : Time)
    (halt : alternating false
      (pre ++ .finish t1 :: (between ++ .start :: (inside ++ .finish t2 :: later))) = true)
    (hbound : starts
      (pre ++ .finish t1 :: (between ++ .start :: (inside ++ .finish t2 :: later)))
        < 9223372036854775808)
    (hbetween : quiet between = true) (hinside : quiet inside = true)
    (hlater : quiet later = true) :
    (StartCollection (New aselector eselector now0)).state.intervalStart = now0 ∧
    (StartCollection (New aselector eselector now0)).state.processStart = now0 ∧
    (∀ before first : List (Operation α σ), quiet before = true → starts first = 0 →
      (performAll A (New aselector eselector now0) m
        (before ++ .start :: first)).integrator.state.intervalStart = now0) ∧
    (performAll A (New aselector eselector now0) m
      (pre ++ .finish t1 :: between)).integrator.state.intervalEnd = t1 ∧
    (performAll A (New aselector eselector now0) m
      (pre ++ .finish t1 :: (between ++ .start :: (inside ++ .finish t2 :: later)))
      ).integrator.state.intervalStart = t1 ∧
    (performAll A (New aselector eselector now0) m
      (pre ++ .finish t1 :: (between ++ .start :: (inside ++ .finish t2 :: later)))
      ).integrator.state.intervalEnd = t2 ∧
    (performAll A (New aselector eselector now0) m
      (pre ++ .finish t1 :: (between ++ .start :: (inside ++ .finish t2 :: later)))
      ).integrator.state.processStart = now0 ∧
    ∀ (m2 : Memory α) (exporter : ExportKindSelector) (f : σ → Record α → σ × Option Error)
      (s : σ),
      ∀ call ∈ (ForEach A (performAll A (New aselector eselector now0) m
          (pre ++ .finish t1 :: (between ++ .start :: (inside ++ .finish t2 :: later)))
          ).integrator.state m2 exporter f s).visited,
        call.2.endTime = t2 ∧
        ∃ entry ∈ (performAll A (New aselector eselector now0) m
            (pre ++ .finish t1 :: (between ++ .start :: (inside ++ .finish t2 :: later)))
            ).integrator.state.values,
          call.1 = entry.1 ∧
          call.2.startTime =
            (match exporter entry.1.descriptor (A.kind (m2.read entry.2.current)) with
              | .DeltaExporter => t1
              | .PassThroughExporter => if entry.1.descriptor.precomputedSum then now0 else t1
              | _ => now0) := by
  obtain ⟨haltpre, halttail⟩ := alternating_append pre _ false halt
  have hactive : activeAfter false pre = true := by
    simp only [alternating, Bool.and_eq_true] at halttail
    exact halttail.1
  have hbpre : starts pre < 9223372036854775808 := by
    rw [starts_append] at hbound
    omega
  obtain ⟨-, hstarted, hrel⟩ := performAll_alternating A pre (New aselector eselector now0) m
    false 0 haltpre rfl rfl (by simpa using hbpre)
  rw [hactive] at hrel
  simp only [Bool.false_eq_true, if_false, if_true, Nat.cast_zero, zero_add, add_zero]
    at hstarted hrel
  have hne : (performAll A (New aselector eselector now0) m pre).integrator.state.startedCollection
      ≠ 0 := by
    rw [hstarted]
    omega
  have hps := performAll_processStart A pre (New aselector eselector now0) m
  obtain ⟨r1, r2, r3, r4⟩ := performAll_round_times A
    (performAll A (New aselector eselector now0) m pre).integrator
    (performAll A (New aselector eselector now0) m pre).memory t1 t2 between inside later
    hne hbetween hinside hlater
  rw [← performAll_append_integrator] at r1 r2 r3 r4
  rw [hps] at r4
  have hfirst : ∀ before first : List (Operation α σ), quiet before = true →
      starts first = 0 →
      (performAll A (New aselector eselector now0) m
        (before ++ .start :: first)).integrator.state.intervalStart = now0 := by
    intro before first hq hs
    have hq0 := performAll_quiet A before (New aselector eselector now0) m hq
    rw [performAll_append_integrator, performAll_cons_integrator,
      performAll_intervalStart A first _ _ hs,
      (perform_times A _ _ (@Operation.start α σ)).2.2]
    dsimp only
    rw [hq0.1, hq0.2.2.1]
    rfl
  refine ⟨rfl, rfl, hfirst, r1, r2, r3, r4, ?_⟩
  intro m2 exporter f s call hcall
  obtain ⟨hend, entry, hentry, hkey, hstart⟩ := ForEach_times A _ m2 exporter f s call hcall
  rw [r3] at hend
  rw [r2, r4] at hstart
  exact ⟨hend, entry, hentry, hkey, hstart⟩

/-- C26 at two rounds of a counter under a delta export kind, finished at 9 and at 12:
after the second round the interval is from 9 to 12. -/
theorem intervals_contiguous_witness :
    (performAll sumAggregators (New sumSelector (constantSelector .DeltaExporter) 5)
      (memoryOf [2])
      [Operation.start, .process (accumulationOf counterDescriptor 0), .finish 9,
        .forEach (constantSelector .DeltaExporter) countingVisitor 0, .start,
        .process (accumulationOf counterDescriptor 0), .finish 12]).integrator.state.intervalStart
      = 9 ∧
    (performAll sumAggregators (New sumSelector (constantSelector .DeltaExporter) 5)
      (memoryOf [2])
      [Operation.start, .process (accumulationOf counterDescriptor 0), .finish 9,
        .forEach (constantSelector .DeltaExporter) countingVisitor 0, .start,
        .process (accumulationOf counterDescriptor 0), .finish 12]).integrator.state.intervalEnd
      = 12 :=
  have h := intervals_contiguous sumAggregators sumSelector (constantSelector .DeltaExporter) 5
    (memoryOf [2])
    [Operation.start, .process (accumulationOf counterDescriptor 0)]
    [.forEach (constantSelector .DeltaExporter) countingVisitor 0]
    [.process (accumulationOf counterDescriptor 0)] [] 9 12
    (by decide) (by decide) (by decide) (by decide) (by decide)
  ⟨h.2.2.2.2.1, h.2.2.2.2.2.1⟩

end Simple

/-! # The meter registry -/

namespace Metric

variable {S P : Type} [DecidableEq S]

theorem find_put_same (s : S) (p : Nat) (meters : List (S × Nat)) :
    find s (put s p meters) = some p := by
  induction meters with
  | nil => simp [put, find]
  | cons entry rest ih =>
    obtain ⟨k, q⟩ := entry
    by_cases hk : k = s
    · simp [put, find, hk]
    · simp [put, find, hk, ih]

theorem find_put_other (s other : S) (p : Nat) (meters : List (S × Nat)) (h : other ≠ s) :
    find other (put s p meters) = find other meters := by
  induction meters with
  | nil =>
    have h2 : ¬ s = other := fun e => h e.symm
    simp [put, find, h2]
  | cons entry rest ih =>
    obtain ⟨k, q⟩ := entry
    by_cases hk : k = s
    · subst hk
      have hko : ¬ k = other := fun e => h e.symm
      simp [put, find, hko]
    · by_cases hko : k = other
      · subst hko
        simp [put, find, hk]
      · simp [put, find, hk, hko, ih]

/-- The three ways a call of `Get` can go. -/
theorem Get_cases (r : meterRegistry S P) (heap : List (meter S P)) (s : S) :
    (r.registered s = none ∧
      (Get r heap s).heap = heap ++ [⟨s, r.pipes⟩] ∧ (Get r heap s).returned = heap.length ∧
      (Get r heap s).registry.pipes = r.pipes ∧
      (Get r heap s).registry.registered s = some heap.length ∧
      ∀ other, other ≠ s → (Get r heap s).registry.registered other = r.registered other) ∨
    (∃ m, r.registered s = some m ∧ Get r heap s = ⟨r, heap, m⟩) := by
  cases hm : r.meters with
  | none =>
    left
    refine ⟨by simp [meterRegistry.registered, hm], by simp [Get, hm], by simp [Get, hm],
      by simp [Get, hm], by simp [Get, hm, meterRegistry.registered, find], ?_⟩
    intro other hne
    have h2 : ¬ s = other := fun e => hne e.symm
    simp [Get, hm, meterRegistry.registered, find, h2]
  | some meters =>
    cases hf : find s meters with
    | none =>
      left
      refine ⟨by simp [meterRegistry.registered, hm, hf], by simp [Get, hm, hf],
        by simp [Get, hm, hf], by simp [Get, hm, hf],
        by simp [Get, hm, hf, meterRegistry.registered, find_put_same], ?_⟩
      intro other hne
      simp [Get, hm, hf, meterRegistry.registered, find_put_other s other _ _ hne]
    | some m =>
      right
      exact ⟨m, by simp [meterRegistry.registered, hm, hf], by simp [Get, hm, hf]⟩

/-- A call of `Get` keeps the registry consistent with the heap: every registered
pointer is the address of a meter of its scope with the pipelines of the registry. -/
theorem Get_consistent (r : meterRegistry S P) (heap : List (meter S P)) (s : S)
    (h : ∀ k p, r.registered k = some p → heap[p]? = some ⟨k, r.pipes⟩) :
    ∀ k p, (Get r heap s).registry.registered k = some p →
      (Get r heap s).heap[p]? = some ⟨k, (Get r heap s).registry.pipes⟩ := by
  intro k p hk
  rcases Get_cases r heap s with ⟨_, hheap, _, hpipes, hreg, hother⟩ | ⟨m, _, hget⟩
  · rw [hheap, hpipes]
    by_cases hks : k = s
    · subst hks
      rw [hreg] at hk
      injection hk with hk
      subst hk
      simp
    · rw [hother k hks] at hk
      have hold := h k p hk
      have hlt : p < heap.length := by
        by_contra hge
        rw [List.getElem?_eq_none (by omega)] at hold
        exact Option.noConfusion hold
      rw [List.getElem?_append_left hlt]
      exact hold
  · rw [hget] at hk ⊢
    exact h k p hk

/-- A sequence of `Get` calls keeps the registry consistent with the heap. -/
theorem GetAll_consistent (calls : List S) :
    ∀ (r : meterRegistry S P) (heap : List (meter S P)),
    (∀ k p, r.registered k = some p → heap[p]? = some ⟨k, r.pipes⟩) →
    ∀ k p, (GetAll r heap calls).1.registered k = some p →
      (GetAll r heap calls).2[p]? = some ⟨k, (GetAll r heap calls).1.pipes⟩ := by
  induction calls with
  | nil => intro r heap h; exact h
  | cons s rest ih =>
    intro r heap h
    exact ih (Get r heap s).registry (Get r heap s).heap (Get_consistent r heap s h)

/-- A sequence of `Get` calls keeps the pipelines of the registry. -/
theorem GetAll_pipes (calls : List S) :
    ∀ (r : meterRegistry S P) (heap : List (meter S P)),
    (GetAll r heap calls).1.pipes = r.pipes := by
  induction calls with
  | nil => intro r heap; rfl
  | cons s rest ih =>
    intro r heap
    have hp : (Get r heap s).registry.pipes = r.pipes := by
      rcases Get_cases r heap s with ⟨_, _, _, hpipes, _, _⟩ | ⟨m, _, hget⟩
      · exact hpipes
      · rw [hget]
    exact (ih (Get r heap s).registry (Get r heap s).heap).trans hp

/-- What one call of `Get` does in a registry that is consistent with the heap. -/
theorem Get_registers (r : meterRegistry S P) (heap : List (meter S P)) (s : S)
    (h : ∀ k p, r.registered k = some p → heap[p]? = some ⟨k, r.pipes⟩) :
    (Get r heap s).heap[(Get r heap s).returned]? = some ⟨s, r.pipes⟩ ∧
    (Get r heap s).registry.pipes = r.pipes ∧
    (Get r heap s).registry.registered s = some (Get r heap s).returned ∧
    Get (Get r heap s).registry (Get r heap s).heap s
      = ⟨(Get r heap s).registry, (Get r heap s).heap, (Get r heap s).returned⟩ ∧
    (∀ other, other ≠ s →
      (Get r heap s).registry.registered other = r.registered other ∧
      (Get (Get r heap s).registry (Get r heap s).heap other).returned
        ≠ (Get r heap s).returned) ∧
    (∀ p, p < heap.length → (Get r heap s).heap[p]? = heap[p]?) := by
  have hreg : (Get r heap s).registry.registered s = some (Get r heap s).returned := by
    rcases Get_cases r heap s with ⟨_, _, hret, _, hreg, _⟩ | ⟨m, hm, hget⟩
    · rw [hreg, hret]
    · rw [hget]
      exact hm
  have hpipes : (Get r heap s).registry.pipes = r.pipes := by
    rcases Get_cases r heap s with ⟨_, _, _, hpipes, _, _⟩ | ⟨m, _, hget⟩
    · exact hpipes
    · rw [hget]
  have hcons := Get_consistent r heap s h
  have hcell : (Get r heap s).heap[(Get r heap s).returned]? = some ⟨s, r.pipes⟩ := by
    rw [hcons s _ hreg, hpipes]
  have hagain : Get (Get r heap s).registry (Get r heap s).heap s
      = ⟨(Get r heap s).registry, (Get r heap s).heap, (Get r heap s).returned⟩ := by
    rcases Get_cases (Get r heap s).registry (Get r heap s).heap s with
      ⟨hnone, _⟩ | ⟨m, hm, hget⟩
    · rw [hreg] at hnone
      exact Option.noConfusion hnone
    · rw [hreg] at hm
      injection hm with hm
      rw [hget, hm]
  refine ⟨hcell, hpipes, hreg, hagain, ?_, ?_⟩
  · intro other hne
    refine ⟨?_, ?_⟩
    · rcases Get_cases r heap s with ⟨_, _, _, _, _, hother⟩ | ⟨m, _, hget⟩
      · exact hother other hne
      · rw [hget]
    · intro heq
      have h2 := Get_consistent (Get r heap s).registry (Get r heap s).heap other hcons
      have hreg2 : (Get (Get r heap s).registry (Get r heap s).heap other).registry.registered
          other = some (Get (Get r heap s).registry (Get r heap s).heap other).returned := by
        rcases Get_cases (Get r heap s).registry (Get r heap s).heap other with
          ⟨_, _, hret, _, hreg2, _⟩ | ⟨m, hm, hget⟩
        · rw [hreg2, hret]
        · rw [hget]
          exact hm
      have hreg3 : (Get (Get r heap s).registry (Get r heap s).heap other).registry.registered
          s = some (Get r heap s).returned := by
        rcases Get_cases (Get r heap s).registry (Get r heap s).heap other with
          ⟨_, _, _, _, _, hother⟩ | ⟨m, _, hget⟩
        · rw [hother s (fun e => hne e.symm)]
          exact hreg
        · rw [hget]
          exact hreg
      have c1 := h2 other _ hreg2
      have c2 := h2 s _ hreg3
      rw [heq, c2] at c1
      injection c1 with c1
      injection c1 with c1
      exact hne c1.symm
  · intro p hp
    rcases Get_cases r heap s with ⟨_, hheap, _, _, _, _⟩ | ⟨m, _, hget⟩
    · rw [hheap, List.getElem?_append_left hp]
    · rw [hget]

/-- C18: in every state of a registry in use (the zero value included, which is the
case of no earlier call) and for every scope `s`, sequential calls behave as follows.
`Get(s)` returns the address of a meter whose `Scope` is `s` and whose pipelines are
the ones of the registry, and registers it for `s`; a second `Get(s)` returns the same
address and leaves the registry, its map included, and the heap as they are; for a
scope `other` different from `s`, the meter registered for `other`, if any, is still
registered after `Get(s)`, and `Get(other)` returns an address different from the one
of `Get(s)`; and the meters that existed before the call are not modified. -/
theorem Get_same_instance (pipes : P) (heap : List (meter S P)) (calls : List S) (s : S) :
    (Get (inUse pipes heap calls).1 (inUse pipes heap calls).2 s).heap[
        (Get (inUse pipes heap calls).1 (inUse pipes heap calls).2 s).returned]?
      = some ⟨s, (inUse pipes heap calls).1.pipes⟩ ∧
    (Get (inUse pipes heap calls).1 (inUse pipes heap calls).2 s).registry.pipes
      = (inUse pipes heap calls).1.pipes ∧
    (Get (inUse pipes heap calls).1 (inUse pipes heap calls).2 s).registry.registered s
      = some (Get (inUse pipes heap calls).1 (inUse pipes heap calls).2 s).returned ∧
    Get (Get (inUse pipes heap calls).1 (inUse pipes heap calls).2 s).registry
        (Get (inUse pipes heap calls).1 (inUse pipes heap calls).2 s).heap s
      = ⟨(Get (inUse pipes heap calls).1 (inUse pipes heap calls).2 s).registry,
          (Get (inUse pipes heap calls).1 (inUse pipes heap calls).2 s).heap,
          (Get (inUse pipes heap calls).1 (inUse pipes heap calls).2 s).returned⟩ ∧
    (∀ other, other ≠ s →
      (Get (inUse pipes heap calls).1 (inUse pipes heap calls).2 s).registry.registered other
        = (inUse pipes heap calls).1.registered other ∧
      (Get (Get (inUse pipes heap calls).1 (inUse pipes heap calls).2 s).registry
          (Get (inUse pipes heap calls).1 (inUse pipes heap calls).2 s).heap other).returned
        ≠ (Get (inUse pipes heap calls).1 (inUse pipes heap calls).2 s).returned) ∧
    (∀ p, p < (inUse pipes heap calls).2.length →
      (Get (inUse pipes heap calls).1 (inUse pipes heap calls).2 s).heap[p]?
        = (inUse pipes heap calls).2[p]?) :=
  Get_registers (inUse pipes heap calls).1 (inUse pipes heap calls).2 s
    (GetAll_consistent calls ⟨none, pipes⟩ heap
      (fun _ _ h => by simp [meterRegistry.registered] at h))

/-- C18 at a registry with the pipelines 1 that was asked for the scopes 10 and 20:
`Get(10)` returns the meter at the address 0 and `Get(20)` a different one. -/
theorem Get_same_instance_witness :
    (Get (inUse 1 ([] : List (meter Nat Nat)) [10, 20]).1
      (inUse 1 ([] : List (meter Nat Nat)) [10, 20]).2 10).returned = 0 ∧
    (Get (Get (inUse 1 ([] : List (meter Nat Nat)) [10, 20]).1
        (inUse 1 ([] : List (meter Nat Nat)) [10, 20]).2 10).registry
      (Get (inUse 1 ([] : List (meter Nat Nat)) [10, 20]).1
        (inUse 1 ([] : List (meter Nat Nat)) [10, 20]).2 10).heap 20).returned
      ≠ (Get (inUse 1 ([] : List (meter Nat Nat)) [10, 20]).1
        (inUse 1 ([] : List (meter Nat Nat)) [10, 20]).2 10).returned :=
  ⟨by decide,
    ((Get_same_instance 1 ([] : List (meter Nat Nat)) [10, 20] 10).2.2.2.2.1 20
      (by decide)).2⟩

end Metric

/-! # Tags from the environment -/

namespace Jaeger

variable {F : Type}

theorem cut_of_mem (sep : Char) (s : Str) (h : sep ∈ s) :
    cut sep s = some (textBefore sep s, textAfter sep s) := by
  induction s with
  | nil => simp at h
  | cons c rest ih =>
    by_cases hc : c = sep
    · simp [cut, textBefore, textAfter, hc]
    · have hrest : sep ∈ rest := by
        rcases List.mem_cons.mp h with h1 | h1
        · exact absurd h1.symm hc
        · exact h1
      have ih2 := ih hrest
      simp only [textBefore, textAfter] at ih2
      simp [cut, textBefore, textAfter, hc, ih2]

theorem cut_of_not_mem (sep : Char) (s : Str) (h : sep ∉ s) : cut sep s = none := by
  induction s with
  | nil => rfl
  | cons c rest ih =>
    have hc : ¬ c = sep := fun e => h (by simp [e])
    have hrest : sep ∉ rest := fun e => h (List.mem_cons_of_mem _ e)
    simp [cut, hc, ih hrest]

/-- The call `strings.SplitN(s, sep, 2)` on a string that contains the separator. -/
theorem SplitN_two_of_mem (sep : Char) (s : Str) (h : sep ∈ s) :
    SplitN sep 2 s = [textBefore sep s, textAfter sep s] := by
  simp [SplitN, cut_of_mem sep s h]

/-- The call `strings.SplitN(s, sep, 2)` on a string without the separator. -/
theorem SplitN_two_of_not_mem (sep : Char) (s : Str) (h : sep ∉ s) :
    SplitN sep 2 s = [s] := by
  simp [SplitN, cut_of_not_mem sep s h]

theorem HasPrefix_one (v : Str) (a : Char) (h : HasPrefix v [a] = true) :
    ∃ t, v = a :: t := by
  cases v with
  | nil => simp [HasPrefix] at h
  | cons c t =>
    simp [HasPrefix] at h
    exact ⟨t, by rw [h]⟩

theorem HasPrefix_two (v : Str) (a b : Char) (h : HasPrefix v [a, b] = true) :
    ∃ t, v = a :: b :: t := by
  cases v with
  | nil => simp [HasPrefix] at h
  | cons c t =>
    simp only [HasPrefix, Bool.and_eq_true, decide_eq_true_eq] at h
    obtain ⟨u, hu⟩ := HasPrefix_one t b h.2
    exact ⟨u, by rw [h.1, hu]⟩

/-- The slice `v[2:len(v)-1]` of a value written `${...}` is in range. -/
theorem slice_reference (v : Str) (h : isReference v = true) :
    slice v 2 ((v.length : Int) - 1) = some (reference v) := by
  simp only [isReference, Bool.and_eq_true] at h
  obtain ⟨t, ht⟩ := HasPrefix_two v _ _ h.1
  obtain ⟨u, hu⟩ := HasPrefix_one v.reverse _ h.2
  have hlen : 3 ≤ v.length := by
    cases t with
    | nil =>
      rw [ht] at hu
      simp at hu
    | cons c t => rw [ht]; simp
  have hhigh : ((v.length : Int) - 1).toNat = v.length - 1 := by omega
  unfold slice reference
  have hcount : v.length - 1 - 2 = (List.drop 2 v).length - 1 := by
    rw [List.length_drop]
    omega
  rw [if_pos (by constructor <;> omega), hhigh, List.dropLast_eq_take, List.drop_take, hcount]

/-- One pass of the loop of `parseTags` over a well-formed piece appends the tag that
the piece stands for. -/
theorem parseTagsLoop_cons (conv : Strconv F) (env : Str → Str) (p : Str) (rest : List Str)
    (tags : List (KeyValue F)) (h : wellFormed p = true) :
    parseTagsLoop conv env (p :: rest) tags
      = parseTagsLoop conv env rest (tags ++ [tagOf conv env p]) := by
  simp only [wellFormed, Bool.and_eq_true, decide_eq_true_eq, Bool.or_eq_true,
    Bool.not_eq_true'] at h
  obtain ⟨heq, href⟩ := h
  rw [parseTagsLoop, SplitN_two_of_mem '=' p heq]
  simp only [List.getElem?_cons_zero, List.getElem?_cons_succ]
  by_cases hr : isReference (TrimSpace (textAfter '=' p)) = true
  · have hcolon : ':' ∈ reference (TrimSpace (textAfter '=' p)) := by
      rcases href with h1 | h1
      · rw [hr] at h1
        exact absurd h1 (by simp)
      · exact h1
    have hr2 := hr
    unfold isReference at hr2
    rw [if_pos hr2, slice_reference _ hr]
    simp only [SplitN_two_of_mem ':' _ hcolon, List.getElem?_cons_zero,
      List.getElem?_cons_succ]
    congr 2
    simp only [tagOf, parseKeyValue, expand, hr, if_true]
    congr 2
    by_cases he : env (textBefore ':' (reference (TrimSpace (textAfter '=' p)))) = []
    · by_cases hd : textAfter ':' (reference (TrimSpace (textAfter '=' p))) = []
      · simp [he, hd]
      · simp [he, hd]
    · simp [he]
  · have hr2 := hr
    unfold isReference at hr2
    rw [if_neg hr2]
    congr 2
    simp [tagOf, parseKeyValue, expand, hr]

/-- The loop of `parseTags` over well-formed pieces appends one tag per piece, in
order. -/
theorem parseTagsLoop_wellFormed (conv : Strconv F) (env : Str → Str) (pieces : List Str) :
    ∀ tags : List (KeyValue F), (∀ p ∈ pieces, wellFormed p = true) →
    parseTagsLoop conv env pieces tags = some (tags ++ pieces.map (tagOf conv env)) := by
  induction pieces with
  | nil => intro tags _; simp [parseTagsLoop]
  | cons p rest ih =>
    intro tags h
    rw [parseTagsLoop_cons conv env p rest tags (h p (List.mem_cons_self _ _)),
      ih _ (fun q hq => h q (List.mem_cons_of_mem _ hq))]
    simp

theorem Split_ne_nil (sep : Char) (s : Str) : Split sep s ≠ [] := by
  induction s with
  | nil => simp [Split]
  | cons c rest ih =>
    unfold Split
    split
    · simp
    · split <;> simp

/-- The pieces that `strings.Split` returns, joined by the separator, give the string
back. -/
theorem Join_Split (sep : Char) (s : Str) : Join sep (Split sep s) = s := by
  induction s with
  | nil => simp [Split, Join]
  | cons c rest ih =>
    unfold Split
    split
    · rename_i hc
      cases hs : Split sep rest with
      | nil => exact absurd hs (Split_ne_nil sep rest)
      | cons first more =>
        rw [hs] at ih
        simp [Join, ih, hc]
    · cases hs : Split sep rest with
      | nil => exact absurd hs (Split_ne_nil sep rest)
      | cons first more =>
        rw [hs] at ih
        cases more with
        | nil =>
          simp only [Join] at ih ⊢
          rw [ih]
        | cons next more =>
          simp only [Join] at ih ⊢
          rw [← ih]
          simp

/-- No piece that `strings.Split` returns contains the separator. -/
theorem Split_not_mem (sep : Char) (s : Str) : ∀ p ∈ Split sep s, sep ∉ p := by
  induction s with
  | nil => simp [Split]
  | cons c rest ih =>
    unfold Split
    split
    · intro p hp
      rcases List.mem_cons.mp hp with h | h
      · rw [h]; simp
      · exact ih p h
    · rename_i hc
      cases hs : Split sep rest with
      | nil => exact absurd hs (Split_ne_nil sep rest)
      | cons first more =>
        rw [hs] at ih
        intro p hp
        rcases List.mem_cons.mp hp with h | h
        · rw [h]
          intro hmem
          rcases List.mem_cons.mp hmem with h1 | h1
          · exact hc h1.symm
          · exact ih first (List.mem_cons_self _ _) h1
        · exact ih p (List.mem_cons_of_mem _ h)

/-- C19: for every environment, every `strconv` and every input whose pieces between
the commas are well formed (each piece contains `=`, and each value written `${...}`
contains `:`), `parseTags` returns exactly one tag per piece, in input order: the key is
the trimmed text before the first `=`, and the value is `parseValue` of the trimmed text
after it, where `${envVar:defaultValue}` is first replaced by the value of the
environment variable `envVar` when that is not empty and by `defaultValue` otherwise.
The pieces are those of `strings.Split`: joined by commas they give the input, and none
contains a comma. -/
theorem parseTags_pairs (conv : Strconv F) (env : Str → Str) (sTags : Str)
    (h : ∀ p ∈ Split ',' sTags, wellFormed p = true) :
    parseTags conv env sTags = some ((Split ',' sTags).map (tagOf conv env)) ∧
    Join ',' (Split ',' sTags) = sTags ∧
    (∀ p ∈ Split ',' sTags, ',' ∉ p) := by
  refine ⟨?_, Join_Split ',' sTags, Split_not_mem ',' sTags⟩
  unfold parseTags
  rw [parseTagsLoop_wellFormed conv env _ [] h]
  simp

/-- C19 at four pairs, with `REGION` set to `eu` and `ZONE` unset. -/
theorem parseTags_pairs_witness :
    parseTags plainStrconv regionEnv
        "a=1, b = x ,c=$\x7bREGION:us\x7d,d=$\x7bZONE:z1\x7d".toList
      = some [⟨"a".toList, .Int64 1⟩, ⟨"b".toList, .String "x".toList⟩,
          ⟨"c".toList, .String "eu".toList⟩, ⟨"d".toList, .String "z1".toList⟩] :=
  (parseTags_pairs plainStrconv regionEnv
    "a=1, b = x ,c=$\x7bREGION:us\x7d,d=$\x7bZONE:z1\x7d".toList (by decide)).1.trans
    (by decide)

/-- C20 fails: `parseTags` panics with an index out of range on the empty string and on
a piece without `=` (at `field[1]`), and on a value `${VAR}` without `:` (at `ed[1]`),
whatever the environment; and `ProcessFromEnv` passes the value of `JAEGER_TAGS` to
`parseTags` whenever it is not empty, so that it panics when `JAEGER_TAGS` is `key`. -/
theorem parseTags_index_out_of_range (conv : Strconv F) (env : Str → Str) :
    parseTags conv env "".toList = none ∧
    parseTags conv env "key".toList = none ∧
    parseTags conv env "k=$\x7bVAR\x7d".toList = none ∧
    parseTags conv env "a=1,key".toList = none ∧
    (env "JAEGER_TAGS".toList = "key".toList → ProcessFromEnv conv env = none) := by
  refine ⟨rfl, rfl, rfl, rfl, ?_⟩
  intro h
  have hp : parseTags conv env "key".toList = none := rfl
  have hne : env "JAEGER_TAGS".toList ≠ [] := by
    rw [h]
    decide
  unfold ProcessFromEnv
  simp only [if_pos hne]
  rw [h, hp]

/-- C20 at an environment in which `JAEGER_TAGS` is `key`. -/
theorem parseTags_index_out_of_range_witness :
    ProcessFromEnv plainStrconv
      (fun name => if name = "JAEGER_TAGS".toList then "key".toList else []) = none :=
  (parseTags_index_out_of_range plainStrconv
    (fun name => if name = "JAEGER_TAGS".toList then "key".toList else [])).2.2.2.2 (by decide)

end Jaeger
